import Mathlib

/-!
Verification development for the collaborative-editing runtime.

The embedding covers:
* the shared Cell object (packages/runtime/cell/src/cell.ts),
* the Counter value type (packages/runtime/map/src/counter.ts),
* the component runtime (packages/runtime/component-runtime/src/componentRuntime.ts),
* a model of the merge-tree snapshot chunking (the snapshot implementation is
  exercised by packages/runtime/merge-tree/src/test/snapshot.spec.ts),
* a model of the Quorum minimum-sequence-number bookkeeping,
* a model of the collaborative sequence engine and its convergence property.

Values stored in cells and message payloads are modelled as integers; client
identifiers and sequence numbers are natural numbers.
-/

namespace CellModel

/-- Message types of the runtime; only Operation reaches the op branch of
Cell.processCore.  Other message types are represented by other. -/
inductive MsgType
  | operation
  | other
deriving DecidableEq, Repr

/-- A cell delta operation: setCell carries a value, deleteCell none, and
unknownOp stands for any op whose type tag is neither setCell nor deleteCell
(the default case of the switch in processCore). -/
inductive CellOp
  | setCell (v : Int)
  | deleteCell
  | unknownOp (tag : Nat)
deriving DecidableEq, Repr

/-- A sequenced document message as seen by Cell.processCore. -/
structure Msg where
  msgType : MsgType
  op : CellOp
  clientSequenceNumber : Int
deriving DecidableEq, Repr

/-- The mutable state of a Cell: its data and the clientSequenceNumber of the
most recent pending local op (-1 when no op is pending). -/
structure CellState where
  data : Option Int
  pending : Int
deriving DecidableEq, Repr

/-- Errors thrown by the cell op path. -/
inductive CellErr
  | unknownOperation
deriving DecidableEq, Repr

/-- Embedding of Cell.setCore: store the value and (in the source) emit the
valueChanged event. -/
def setCore (s : CellState) (v : Option Int) : CellState :=
  { s with data := v }

/-- Embedding of Cell.deleteCore: clear the value. -/
def deleteCore (s : CellState) : CellState :=
  { s with data := none }

/-- Embedding of Cell.processCore.  While a local op is pending every message
is ignored except the local ack, which clears the pending marker; otherwise a
remote Operation message is dispatched on its op type and an unknown type
throws.  The context argument is the value prepared by prepareCore. -/
def processCore (s : CellState) (m : Msg) (isLocal : Bool) (context : Option Int) :
    Except CellErr CellState :=
  if s.pending ≠ -1 then
    if isLocal ∧ m.clientSequenceNumber = s.pending then
      Except.ok { s with pending := -1 }
    else
      Except.ok s
  else if m.msgType = MsgType.operation ∧ ¬ isLocal then
    match m.op with
    | CellOp.setCell _ => Except.ok (setCore s context)
    | CellOp.deleteCell => Except.ok (deleteCore s)
    | CellOp.unknownOp _ => Except.error CellErr.unknownOperation
  else
    Except.ok s

/-- Embedding of Cell.submitCellMessage: record the clientSequenceNumber
returned by submitLocalMessage as the pending marker; an existing pending
value is overwritten (last one wins, per the comment in the source). -/
def submitCellMessage (s : CellState) (newCsn : Int) : CellState :=
  { s with pending := newCsn }

/-- Embedding of Cell.set for a plain value: the data is mutated optimistically
by setCore and only then is the message submitted. -/
def cellSet (s : CellState) (v : Int) (newCsn : Int) : CellState :=
  submitCellMessage (setCore s (some v)) newCsn

/-- Embedding of Cell.delete: optimistic deleteCore then submit. -/
def cellDelete (s : CellState) (newCsn : Int) : CellState :=
  submitCellMessage (deleteCore s) newCsn

end CellModel

namespace CounterModel

/-- Embedding of Counter.increment (counter.ts): the local value is mutated at
submission time. -/
def increment (v : Int) (amount : Int) : Int :=
  v + amount

/-- Embedding of the increment op process handler of CounterValueType: local
ops were applied when the message was created, so a local message is a no-op;
a remote message increments without resubmitting. -/
def counterProcess (v : Int) (params : Int) (isLocal : Bool) : Int :=
  if isLocal then v else increment v params

end CounterModel

namespace RuntimeModel

/-- Message types dispatched by ComponentRuntime.process; types other than
Attach and Operation fall into the default case. -/
inductive RMsgType
  | attach
  | operation
  | otherType (tag : Nat)
deriving DecidableEq, Repr

/-- Errors thrown by the component runtime. -/
inductive RuntimeErr
  | runtimeIsClosed
  | extensionNotRegistered
deriving DecidableEq, Repr

/-- The slice of ComponentRuntime state the closed-state claims depend on:
the closed flag, the isLocal flag, the channel map keys, the deferred-channel
map keys, the attach queue and the pending attach map keys. -/
structure RuntimeState where
  closed : Bool
  isLocalFlag : Bool
  channels : List Nat
  channelsDeferred : List Nat
  attachChannelQueue : List Nat
  pendingAttach : List Nat
deriving DecidableEq, Repr

/-- Embedding of ComponentRuntime.verifyNotClosed. -/
def verifyNotClosed (s : RuntimeState) : Except RuntimeErr Unit :=
  if s.closed then Except.error RuntimeErr.runtimeIsClosed else Except.ok ()

/-- Embedding of ComponentRuntime.getChannel: guarded by verifyNotClosed, then
reserves a deferred entry for the id when none exists. -/
def getChannel (s : RuntimeState) (id : Nat) : Except RuntimeErr RuntimeState := do
  let _ ← verifyNotClosed s
  if s.channelsDeferred.contains id then
    Except.ok s
  else
    Except.ok { s with channelsDeferred := id :: s.channelsDeferred }

/-- Embedding of ComponentRuntime.createChannel: guarded by verifyNotClosed,
requires the extension type to be registered, then records the channel and
resolves or creates its deferred entry. -/
def createChannel (s : RuntimeState) (registry : List Nat) (id chType : Nat) :
    Except RuntimeErr RuntimeState := do
  let _ ← verifyNotClosed s
  if registry.contains chType then
    Except.ok { s with
      channels := id :: s.channels,
      channelsDeferred :=
        if s.channelsDeferred.contains id then s.channelsDeferred
        else id :: s.channelsDeferred }
  else
    Except.error RuntimeErr.extensionNotRegistered

/-- Embedding of ComponentRuntime.attachChannel: guarded by verifyNotClosed,
records the pending attach message and submits it (submit is itself guarded,
already passed here). -/
def attachChannel (s : RuntimeState) (id : Nat) : Except RuntimeErr RuntimeState := do
  let _ ← verifyNotClosed s
  Except.ok { s with pendingAttach := id :: s.pendingAttach }

/-- Embedding of ComponentRuntime.registerChannel: a non-local runtime attaches
the channel (guarded path); a local runtime queues it with no closed check. -/
def registerChannel (s : RuntimeState) (id : Nat) : Except RuntimeErr RuntimeState :=
  if ¬ s.isLocalFlag then
    attachChannel s id
  else if s.attachChannelQueue.contains id then
    Except.ok s
  else
    Except.ok { s with attachChannelQueue := id :: s.attachChannelQueue }

/-- Responses of ComponentRuntime.request in the model: a resolved data type,
a 404, or the attached request handler result. -/
inductive RequestResult
  | dataType (id : Nat)
  | notFound
  | handled
deriving DecidableEq, Repr

/-- Embedding of ComponentRuntime.request: no closed check; a deferred channel
id resolves to a data type response, otherwise a 404 or the registered
handler. -/
def request (s : RuntimeState) (hasHandler : Bool) (id : Nat) :
    Except RuntimeErr (RuntimeState × RequestResult) :=
  if s.channelsDeferred.contains id then
    Except.ok (s, RequestResult.dataType id)
  else if ¬ hasHandler then
    Except.ok (s, RequestResult.notFound)
  else
    Except.ok (s, RequestResult.handled)

/-- Embedding of ComponentRuntime.stop: guarded, then sets closed. -/
def stop (s : RuntimeState) : Except RuntimeErr RuntimeState := do
  let _ ← verifyNotClosed s
  Except.ok { s with closed := true }

/-- Embedding of ComponentRuntime.snapshot / save / getQuorum and the other
purely guarded calls: verifyNotClosed then the delegated effect, which leaves
this state slice unchanged. -/
def guardedCall (s : RuntimeState) : Except RuntimeErr RuntimeState := do
  let _ ← verifyNotClosed s
  Except.ok s

/-- Embedding of ComponentRuntime.processOp: guarded by verifyNotClosed; the
envelope is routed to the addressed channel (channel membership asserted). -/
def processOp (s : RuntimeState) (_address : Nat) : Except RuntimeErr RuntimeState := do
  let _ ← verifyNotClosed s
  Except.ok s

/-- Embedding of ComponentRuntime.processAttach: guarded by verifyNotClosed;
a local message deletes its pending attach entry, a remote one records the
prepared channel state. -/
def processAttach (s : RuntimeState) (id : Nat) (isLocal : Bool) :
    Except RuntimeErr RuntimeState := do
  let _ ← verifyNotClosed s
  if isLocal then
    Except.ok { s with pendingAttach := s.pendingAttach.erase id }
  else
    Except.ok { s with channels := id :: s.channels }

/-- Embedding of ComponentRuntime.process: Attach and Operation messages are
dispatched to the guarded handlers; any other message type falls into the
default case and is skipped (only the op event is emitted). -/
def process (s : RuntimeState) (t : RMsgType) (address : Nat) (isLocal : Bool) :
    Except RuntimeErr RuntimeState :=
  match t with
  | RMsgType.attach => processAttach s address isLocal
  | RMsgType.operation => processOp s address
  | RMsgType.otherType _ => Except.ok s

/-- Embedding of ComponentRuntime.loadChannel: looks up the extension for the
channel type in the registry (throwing when absent), logs a compatibility
warning when a declared snapshot format version is present and differs from
the extension version, and loads the channel regardless.  The Bool in the
result records whether the warning was logged. -/
def loadChannel (registry : List (Nat × Nat)) (chType : Nat)
    (snapshotFormatVersion : Option Nat) : Except RuntimeErr (Bool × Nat) :=
  match registry.lookup chType with
  | none => Except.error RuntimeErr.extensionNotRegistered
  | some extVersion =>
      let warn := snapshotFormatVersion ≠ none ∧ snapshotFormatVersion ≠ some extVersion
      Except.ok (decide warn, chType)

end RuntimeModel

namespace SnapshotModel

/-- Modelled from the spec: a merge-tree segment as the snapshot sees it
(the merge-tree and Snapshot sources are not part of this tree; only
merge-tree/src/test/snapshot.spec.ts is).  A segment is a run of content
units (character codes) with a property map and a removal sequence number
(none while live). -/
structure MSeg where
  text : List Nat
  props : List (Nat × Int)
  removedSeq : Option Nat
deriving DecidableEq, Repr

/-- Segments still live (tombstones excluded). -/
def visibleSegs (t : List MSeg) : List MSeg :=
  t.filter (fun s => s.removedSeq = none)

/-- Modelled from the spec: getLength as the total length of live segments. -/
def getLength (t : List MSeg) : Nat :=
  ((visibleSegs t).map (fun s => s.text.length)).sum

/-- Modelled from the spec: getText as the concatenation of live segment
content in tree order. -/
def getText (t : List MSeg) : List Nat :=
  (visibleSegs t).foldr (fun s r => s.text ++ r) []

/-- The linearized content of a tree: each content unit paired with the
properties of its segment, in tree order. -/
def linearize (t : List MSeg) : List (Nat × List (Nat × Int)) :=
  (visibleSegs t).foldr (fun s r => s.text.map (fun c => (c, s.props)) ++ r) []

/-- Snapshot.sizeOfFirstChunk: the header chunk capacity in content units. -/
def sizeOfFirstChunk : Nat := 10000

/-- Split a segment list after cap content units, splitting the straddling
segment (properties are copied to both halves). -/
def splitSegs : Nat → List MSeg → List MSeg × List MSeg
  | _, [] => ([], [])
  | 0, l => ([], l)
  | cap + 1, s :: rest =>
    if s.text.length ≤ cap + 1 then
      let p := splitSegs (cap + 1 - s.text.length) rest
      (s :: p.1, p.2)
    else
      ([⟨s.text.take (cap + 1), s.props, s.removedSeq⟩],
        (⟨s.text.drop (cap + 1), s.props, s.removedSeq⟩ : MSeg) :: rest)

/-- Modelled from the spec: Snapshot.extractSync / emit.  The snapshot walks
the tree, serializes the live segments, and splits them into the header chunk
(up to sizeOfFirstChunk content units) and the body chunk. -/
def extract (t : List MSeg) : List MSeg × List MSeg :=
  splitSegs sizeOfFirstChunk (visibleSegs t)

/-- Modelled from the spec: loading reconstructs a tree from the header
segments followed by the body segments (reloadFromSegments and the
insertSegments call at the end of the tree, as in snapshot.spec.ts). -/
def load (header body : List MSeg) : List MSeg :=
  header ++ body

end SnapshotModel

namespace QuorumModel

/-- Modelled from the spec: Quorum state (the Quorum source is not part of
this tree).  It tracks the current sequence number and, per connected client,
the highest sequence number that client has acknowledged. -/
structure Quorum where
  currentSeq : Nat
  members : List (Nat × Nat)
deriving DecidableEq, Repr

/-- Modelled from the spec: minimumSequenceNumber is the minimum of all
connected clients' acknowledged sequence numbers, or currentSeq if no client
is connected. -/
def minimumSequenceNumber (q : Quorum) : Nat :=
  match q.members with
  | [] => q.currentSeq
  | m :: ms => (ms.map Prod.snd).foldr min m.2

/-- Modelled from the spec: the membership and acknowledgement events feeding
Quorum: a client joining (its join is sequenced at the current sequence
number, which becomes its first contribution), a client leaving (its
contribution is removed atomically), a client acknowledging a sequence number
(contributions only grow, and never past what has been sequenced), and the
sequenced stream advancing. -/
inductive QEvent
  | join (c : Nat)
  | leave (c : Nat)
  | ack (c : Nat) (n : Nat)
  | advance
deriving DecidableEq, Repr

/-- Modelled from the spec: one Quorum transition per event. -/
def qstep (q : Quorum) : QEvent → Quorum
  | QEvent.join c =>
      if q.members.any (fun m => m.1 = c) then q
      else { q with members := (c, q.currentSeq) :: q.members }
  | QEvent.leave c =>
      { q with members := q.members.filter (fun m => m.1 ≠ c) }
  | QEvent.ack c n =>
      { q with members :=
          q.members.map (fun m => if m.1 = c then (m.1, max m.2 (min n q.currentSeq)) else m) }
  | QEvent.advance =>
      { q with currentSeq := q.currentSeq + 1 }

/-- Folding a list of events from a starting quorum. -/
def qsteps (q : Quorum) (es : List QEvent) : Quorum :=
  es.foldl qstep q

/-- Well-formedness: no acknowledgement is ahead of the current sequence
number. -/
def QWF (q : Quorum) : Prop :=
  ∀ m ∈ q.members, m.2 ≤ q.currentSeq

/-- The quorum of a fresh session: no clients, a given starting sequence
number. -/
def initialQuorum (s : Nat) : Quorum :=
  { currentSeq := s, members := [] }

end QuorumModel

namespace MergeModel

/-- Removal state of an item: live, or removed with the removing op's
assigned sequence number (none while the removal is a pending local op),
client and client sequence number. -/
inductive RemState
  | live
  | removed (bySeq : Option Nat) (byClient : Nat) (byClientSeq : Nat) (clients : List Nat)
deriving DecidableEq, Repr

/-- A property value with its last-writer tag. -/
structure PropVal where
  val : Int
  tagSeq : Option Nat
  tagClient : Nat
  tagClientSeq : Nat
deriving DecidableEq, Repr

/-- One content unit of the collaborative sequence, tagged with the inserting
op's identity, its assigned sequence number (none while pending at the
issuing replica), its removal state and its properties. -/
structure Item where
  ch : Nat
  client : Nat
  clientSeq : Nat
  seq : Option Nat
  rem : RemState
  props : List (Nat × PropVal)
deriving DecidableEq, Repr

/-- The basic operations of the sequence: Insert(position, content,
properties), Remove(startPos, endPos), Annotate(startPos, endPos, delta). -/
inductive BasicOp
  | ins (pos : Nat) (content : List Nat) (props : List (Nat × Int))
  | del (start : Nat) (stop : Nat)
  | ann (start : Nat) (stop : Nat) (delta : List (Nat × Int))
deriving DecidableEq, Repr

/-- A sequenced message: assigned sequence number, issuing client, per-client
op counter, reference sequence number, and the list of basic operations (a
singleton for plain ops, several for a Group). -/
structure SeqMsg where
  seq : Nat
  client : Nat
  clientSeq : Nat
  refSeq : Nat
  ops : List BasicOp
deriving DecidableEq, Repr

/-- Did the issuer (client c at reference sequence number r) see this item
inserted?  Its own items always, others' items when their sequence number is
at most r. -/
def insVisible (c r : Nat) (it : Item) : Bool :=
  it.client == c ||
    (match it.seq with
     | some s => decide (s ≤ r)
     | none => false)

/-- Did the issuer (client c at reference sequence number r) see this item
removed? -/
def remVisible (c r : Nat) (it : Item) : Bool :=
  match it.rem with
  | RemState.live => false
  | RemState.removed bySeq _ _ clients =>
      clients.contains c ||
        (match bySeq with
         | some t => decide (t ≤ r)
         | none => false)

/-- Does this item occupy a position in the issuing client's coordinate
space:  inserted and not removed, from the issuer's point of view. -/
def posVisible (c r : Nat) (it : Item) : Bool :=
  insVisible c r it && ! remVisible c r it

/-- For an incoming op from client c with sequence number bound s: did this
(issuer-invisible) item land before the op in the total order (the spec's
conflict policy: the op with the lower sequence number happened first; a
pending item of another client will be sequenced later, so the op goes in
front of it). -/
def skipQual (c s : Nat) (it : Item) : Bool :=
  it.client == c ||
    (match it.seq with
     | some s0 => decide (s0 < s)
     | none => false)

/-- Position, within the maximal run of issuer-invisible items at the start
of the list, right after the last item that happened before the incoming op. -/
def runIdx (c r s : Nat) : List Item → Nat
  | [] => 0
  | it :: l =>
      if posVisible c r it then 0
      else
        let rest := runIdx c r s l
        if rest = 0 then (if skipQual c s it then 1 else 0) else rest + 1

/-- Walk past p issuer-visible items, then place after the invisible items
that happened first (p is already clamped to the issuer-visible count). -/
def insIdxAux (c r s : Nat) : Nat → List Item → Nat
  | 0, l => runIdx c r s l
  | _ + 1, [] => 0
  | p + 1, it :: l =>
      if posVisible c r it then 1 + insIdxAux c r s p l
      else 1 + insIdxAux c r s (p + 1) l

/-- The number of issuer-visible items. -/
def visCount (c r : Nat) (l : List Item) : Nat :=
  (l.filter (posVisible c r)).length

/-- The physical index at which an insert by client c (reference sequence
number r, sequence bound s) at issuer position p lands: the position is
clamped to the issuer-visible length (out-of-range positions address the end
of the issuer-visible sequence), then the walk passes p issuer-visible items
and places the content after the invisible items that happened first. -/
def insIdx (c r s : Nat) (p : Nat) (l : List Item) : Nat :=
  insIdxAux c r s (min p (visCount c r l)) l

/-- Comparison of removal marks (none is a pending local removal, which will
be sequenced after every assigned mark): the earliest removal wins. -/
def ltOpt : Option Nat → Option Nat → Bool
  | none, _ => false
  | some _, none => true
  | some x, some y => decide (x < y)

/-- Comparison of property tags (last writer wins; none is a pending local
annotate, which will be sequenced after every assigned tag). -/
def geOpt : Option Nat → Option Nat → Bool
  | none, _ => true
  | some _, none => false
  | some x, some y => decide (y ≤ x)

/-- Insert a client id into a sorted overlap list (kept sorted so that every
replica stores the overlapping removers identically). -/
def insClient (c : Nat) : List Nat → List Nat
  | [] => [c]
  | x :: t => if c < x then c :: x :: t else if c = x then x :: t else x :: insClient c t

/-- Mark an item removed by the given op.  The earliest removal keeps the
mark (matching ascending application order; a pending local mark counts as
later than any assigned one) and every remover is recorded in the overlap
list, which feeds visibility for the removers themselves. -/
def markRemoved (newSeq : Option Nat) (byClient byClientSeq : Nat) (it : Item) : Item :=
  match it.rem with
  | RemState.live => { it with rem := RemState.removed newSeq byClient byClientSeq [byClient] }
  | RemState.removed oldSeq c0 k0 cl =>
      if ltOpt newSeq oldSeq then
        { it with rem := RemState.removed newSeq byClient byClientSeq (insClient byClient cl) }
      else
        { it with rem := RemState.removed oldSeq c0 k0 (insClient byClient cl) }

/-- Write one key of a property map under the last-writer-wins policy.  New
keys are inserted in ascending key order, so that every replica stores the
same map identically. -/
def updateProp (tagSeq : Option Nat) (tc tcs : Nat) (k : Nat) (v : Int) :
    List (Nat × PropVal) → List (Nat × PropVal)
  | [] => [(k, ⟨v, tagSeq, tc, tcs⟩)]
  | (k0, pv) :: rest =>
      if k < k0 then (k, ⟨v, tagSeq, tc, tcs⟩) :: (k0, pv) :: rest
      else if k0 = k then
        (if geOpt tagSeq pv.tagSeq then (k0, ⟨v, tagSeq, tc, tcs⟩) :: rest
         else (k0, pv) :: rest)
      else
        (k0, pv) :: updateProp tagSeq tc tcs k v rest

/-- Merge an annotate delta into an item's property map. -/
def annotateItem (tagSeq : Option Nat) (tc tcs : Nat) (delta : List (Nat × Int)) (it : Item) : Item :=
  { it with props := delta.foldl (fun ps kv => updateProp tagSeq tc tcs kv.1 kv.2 ps) it.props }

/-- Apply a map f to the issuer-visible items whose issuer-visible rank lies
in the range from start (inclusive) to stop (exclusive). -/
def markRange (c r : Nat) (f : Item → Item) : Nat → Nat → List Item → List Item
  | _, _, [] => []
  | start, stop, it :: l =>
      if posVisible c r it then
        match start, stop with
        | 0, e + 1 => f it :: markRange c r f 0 e l
        | 0, 0 => it :: l
        | st + 1, e + 1 => it :: markRange c r f st e l
        | _ + 1, 0 => it :: l
      else
        it :: markRange c r f start stop l

/-- The items created by one insert. -/
def mkItems (c cs : Nat) (seqVal : Option Nat) (content : List Nat)
    (props : List (Nat × Int)) : List Item :=
  content.map (fun ch =>
    { ch := ch, client := c, clientSeq := cs, seq := seqVal, rem := RemState.live,
      props := props.map (fun kv => (kv.1, ⟨kv.2, seqVal, c, cs⟩)) })

/-- Insert a block of items at a physical index. -/
def insertAt (i : Nat) (b : List Item) (l : List Item) : List Item :=
  l.take i ++ b ++ l.drop i

/-- Apply one basic op on behalf of the op identified by (seqVal, c, cs),
interpreted against reference sequence number r, with sequence bound s for
the conflict policy. -/
def applyBasic (seqVal : Option Nat) (c cs r s : Nat) : BasicOp → List Item → List Item
  | BasicOp.ins pos content props, l =>
      insertAt (insIdx c r s pos l) (mkItems c cs seqVal content props) l
  | BasicOp.del start stop, l =>
      markRange c r (markRemoved seqVal c cs) start stop l
  | BasicOp.ann start stop delta, l =>
      markRange c r (annotateItem seqVal c cs delta) start stop l

/-- Remote (and canonical) application of a sequenced message. -/
def applyMsg (m : SeqMsg) (l : List Item) : List Item :=
  m.ops.foldl (fun acc op => applyBasic (some m.seq) m.client m.clientSeq m.refSeq m.seq op acc) l

/-- Optimistic local application at the issuing replica: the ops are applied
against the current view (curSeq messages processed) with pending sentinels. -/
def applyLocal (me curSeq cs : Nat) (ops : List BasicOp) (l : List Item) : List Item :=
  ops.foldl (fun acc op => applyBasic none me cs curSeq (curSeq + 1) op acc) l

/-- Acknowledge a pending insertion tag of the echoed local op. -/
def ackSeq (me cs s : Nat) (cl0 cs0 : Nat) (sq : Option Nat) : Option Nat :=
  if cl0 == me && cs0 == cs && sq == none then some s else sq

/-- Acknowledge a pending removal mark of the echoed local op. -/
def ackRem (me cs s : Nat) : RemState → RemState
  | RemState.live => RemState.live
  | RemState.removed bySeq bc bcs cl =>
      if bc == me && bcs == cs && bySeq == none then RemState.removed (some s) bc bcs cl
      else RemState.removed bySeq bc bcs cl

/-- Acknowledge a pending property tag of the echoed local op. -/
def ackProp (me cs s : Nat) (kp : Nat × PropVal) : Nat × PropVal :=
  if kp.2.tagClient == me && kp.2.tagClientSeq == cs && kp.2.tagSeq == none then
    (kp.1, { kp.2 with tagSeq := some s })
  else kp

/-- Acknowledge one artifact of the echoed local op (assign its sequence
number). -/
def ackItem (me cs s : Nat) (it : Item) : Item :=
  { it with
    seq := ackSeq me cs s it.client it.clientSeq it.seq,
    rem := ackRem me cs s it.rem,
    props := it.props.map (ackProp me cs s) }

/-- Process the authoritative echo of a local op: clear the pending markers
by assigning the sequence number; the content is not re-applied. -/
def ackMsg (me : Nat) (m : SeqMsg) (l : List Item) : List Item :=
  l.map (ackItem me m.clientSeq m.seq)

/-- Issue, at stream point n, all of this replica's own ops whose recorded
reference sequence number is n (they were issued when n messages had been
processed), applying them optimistically. -/
def issueBatch (me : Nat) (stream : List SeqMsg) (n : Nat) (l : List Item) : List Item :=
  (stream.filter (fun m => m.client == me && m.refSeq == n)).foldl
    (fun acc m => applyLocal me n m.clientSeq m.ops acc) l

/-- One replica step: issue the local ops due at this point, then process the
next sequenced message (an own message is an echo and only acknowledges; a
remote message is applied through the conflict-resolution path). -/
def replicaStep (me : Nat) (stream : List SeqMsg) (l : List Item) (n : Nat) (m : SeqMsg) : List Item :=
  let l1 := issueBatch me stream n l
  if m.client == me then ackMsg me m l1 else applyMsg m l1

def replicaRunAux (me : Nat) (stream : List SeqMsg) : Nat → List SeqMsg → List Item → List Item
  | _, [], l => l
  | n, m :: rest, l => replicaRunAux me stream (n + 1) rest (replicaStep me stream l n m)

/-- The state of the replica of client me after interleaving its own
optimistic applications (at the points recorded by the reference sequence
numbers) with the processing of the whole sequenced stream. -/
def replicaRun (me : Nat) (stream : List SeqMsg) : List Item :=
  replicaRunAux me stream 0 stream []

/-- The canonical state: the pure fold of remote application over the
sequenced stream. -/
def canonicalRun (stream : List SeqMsg) : List Item :=
  stream.foldl (fun l m => applyMsg m l) []

/-- An item that is live in the converged state. -/
def isLiveItem (it : Item) : Bool :=
  match it.rem with
  | RemState.live => true
  | _ => false

/-- getText of a replica state. -/
def getTextItems (l : List Item) : List Nat :=
  (l.filter isLiveItem).map (fun it => it.ch)

/-- getLength of a replica state. -/
def getLengthItems (l : List Item) : Nat :=
  (l.filter isLiveItem).length

/-- The per-position property maps of a replica state. -/
def getPropsItems (l : List Item) : List (List (Nat × Int)) :=
  (l.filter isLiveItem).map (fun it => it.props.map (fun kp => (kp.1, kp.2.val)))


/-! Definitions supporting the convergence proof. -/

/-- The canonical state after the first n messages. -/
def canonPrefix (stream : List SeqMsg) (n : Nat) : List Item :=
  (stream.take n).foldl (fun l m => applyMsg m l) []

/-- The messages of client me that are issued but not yet acknowledged at
stream point n: reference sequence number before n, sequence number after n. -/
def pendMsgs (me : Nat) (stream : List SeqMsg) (n : Nat) : List SeqMsg :=
  stream.filter (fun m => m.client == me && m.refSeq < n && n < m.seq)

/-- Turn one artifact seq of a pending op back into the sentinel. -/
def maskItem (me : Nat) (K : List Nat) (it : Item) : Item :=
  { it with
    seq := if it.client == me && K.contains it.clientSeq then none else it.seq,
    rem := (match it.rem with
      | RemState.removed bySeq bc bcs cl =>
          if bc == me && K.contains bcs then RemState.removed none bc bcs cl
          else RemState.removed bySeq bc bcs cl
      | RemState.live => RemState.live),
    props := it.props.map (fun kp =>
        if kp.2.tagClient == me && K.contains kp.2.tagClientSeq then
          (kp.1, { kp.2 with tagSeq := none })
        else kp) }

/-- Mask the artifacts of the pending ops (identified by their client
sequence numbers K) back to pending sentinels. -/
def maskList (me : Nat) (K : List Nat) (l : List Item) : List Item :=
  l.map (maskItem me K)

/-- One artifact-level predicate over every artifact of an item (its own
insertion tag, its removal mark, and each property tag). -/
def ArtP (Q : Nat → Nat → Option Nat → Prop) (it : Item) : Prop :=
  Q it.client it.clientSeq it.seq
  ∧ (match it.rem with
     | RemState.live => True
     | RemState.removed bySeq bc bcs _ => Q bc bcs bySeq)
  ∧ ∀ kp ∈ it.props, Q kp.2.tagClient kp.2.tagClientSeq kp.2.tagSeq

/-- Every artifact of every item satisfies Q. -/
def AllArt (Q : Nat → Nat → Option Nat → Prop) (l : List Item) : Prop :=
  ∀ it ∈ l, ArtP Q it

/-- Well-formedness of a sequenced stream: gapless ascending sequence
numbers starting at 1, reference sequence numbers strictly before the
assigned one, and per-client FIFO ordering (client sequence numbers strictly
increase and reference sequence numbers never decrease along the stream). -/
structure StreamWF (stream : List SeqMsg) : Prop where
  seqPos : ∀ i (h : i < stream.length), (stream.get ⟨i, h⟩).seq = i + 1
  refLt : ∀ m ∈ stream, m.refSeq < m.seq
  fifo : stream.Pairwise (fun m1 m2 => m1.client = m2.client →
    m1.clientSeq < m2.clientSeq ∧ m1.refSeq ≤ m2.refSeq)

/-! Pointwise predicate preservation lemmas. -/

theorem mem_insClient {c d : Nat} (l : List Nat) (h : c ≠ d) :
    c ∈ insClient d l ↔ c ∈ l := by
  induction l with
  | nil => simp [insClient, h]
  | cons x t ih =>
    by_cases h1 : d < x
    · simp only [insClient, if_pos h1]
      simp [h]
    · by_cases h2 : d = x
      · simp [insClient, h1, h2]
      · simp only [insClient, if_neg h1, if_neg h2]
        simp [ih]

theorem posVisible_markRemoved (c r : Nat) (ν : Option Nat) (cq k : Nat) (it : Item)
    (hc : cq ≠ c) (hν : ∀ t, ν = some t → r < t) :
    posVisible c r (markRemoved ν cq k it) = posVisible c r it := by
  have hne : ¬ (c = cq) := fun hh => hc hh.symm
  have hmem : ∀ cl : List Nat, c ∈ insClient cq cl ↔ c ∈ cl :=
    fun cl => mem_insClient cl hne
  unfold posVisible insVisible remVisible markRemoved
  cases hrem : it.rem with
  | live =>
    cases hν2 : ν with
    | none => simp [hne]
    | some t =>
      have hle : ¬ (t ≤ r) := by have := hν t hν2; omega
      simp [hne, hle]
  | removed oldSeq c0 k0 cl =>
    by_cases hlt : ltOpt ν oldSeq
    · simp only [if_pos hlt]
      cases hν2 : ν with
      | none => simp [ltOpt, hν2] at hlt
      | some t =>
        have hrt := hν t hν2
        have hle : ¬ (t ≤ r) := by omega
        cases oldSeq with
        | none => simp [hmem, hle]
        | some t0 =>
          simp only [ltOpt, hν2, decide_eq_true_eq] at hlt
          have hle0 : ¬ (t0 ≤ r) := by omega
          simp [hmem, hle, hle0]
    · simp only [if_neg hlt]
      simp [hmem]

theorem skipQual_markRemoved (c s : Nat) (ν : Option Nat) (cq k : Nat) (it : Item) :
    skipQual c s (markRemoved ν cq k it) = skipQual c s it := by
  unfold skipQual markRemoved
  cases it.rem with
  | live => rfl
  | removed oldSeq c0 k0 cl =>
    by_cases hlt : ltOpt ν oldSeq <;> simp [hlt]

theorem posVisible_annotateItem (c r : Nat) (ts : Option Nat) (tc tcs : Nat)
    (delta : List (Nat × Int)) (it : Item) :
    posVisible c r (annotateItem ts tc tcs delta it) = posVisible c r it := by
  unfold posVisible insVisible remVisible annotateItem
  rfl

theorem skipQual_annotateItem (c s : Nat) (ts : Option Nat) (tc tcs : Nat)
    (delta : List (Nat × Int)) (it : Item) :
    skipQual c s (annotateItem ts tc tcs delta it) = skipQual c s it := by
  unfold skipQual annotateItem
  rfl

/-! Scan congruence machinery. -/

/-- Two items that the scans of one op cannot distinguish. -/
def ScanEq (c r s : Nat) (a b : Item) : Prop :=
  posVisible c r a = posVisible c r b ∧ skipQual c s a = skipQual c s b

theorem insIdxAux_zero (c r s : Nat) (X : List Item) :
    insIdxAux c r s 0 X = runIdx c r s X := by
  cases X <;> rfl

theorem runIdx_congr {c r s : Nat} {L L' : List Item}
    (h : List.Forall₂ (ScanEq c r s) L L') : runIdx c r s L = runIdx c r s L' := by
  induction h with
  | nil => rfl
  | cons hab _ ih =>
    simp only [runIdx, hab.1, hab.2, ih]

theorem insIdxAux_congr {c r s : Nat} {L L' : List Item}
    (h : List.Forall₂ (ScanEq c r s) L L') (p : Nat) :
    insIdxAux c r s p L = insIdxAux c r s p L' := by
  induction h generalizing p with
  | nil => rfl
  | @cons a b l₁ l₂ hab htail ih =>
    match p with
    | 0 =>
      exact runIdx_congr (List.Forall₂.cons hab htail)
    | q + 1 =>
      show insIdxAux c r s (q + 1) (a :: l₁) = insIdxAux c r s (q + 1) (b :: l₂)
      simp only [insIdxAux, hab.1]
      by_cases hv : posVisible c r b = true
      · rw [if_pos hv, if_pos hv, ih]
      · rw [if_neg hv, if_neg hv, ih]

theorem visCount_congr {c r : Nat} {L L' : List Item}
    (h : List.Forall₂ (fun a b => posVisible c r a = posVisible c r b) L L') :
    visCount c r L = visCount c r L' := by
  induction h with
  | nil => rfl
  | @cons a b l₁ l₂ hab htail ih =>
    unfold visCount at ih ⊢
    simp only [List.filter_cons, hab]
    by_cases hv : posVisible c r b = true
    · simp [hv, ih]
    · simp [hv, ih]

theorem insIdx_congr {c r s : Nat} {L L' : List Item}
    (h : List.Forall₂ (ScanEq c r s) L L') (p : Nat) :
    insIdx c r s p L = insIdx c r s p L' := by
  unfold insIdx
  rw [visCount_congr (List.Forall₂.imp (fun _ _ hab => hab.1) h), insIdxAux_congr h]

theorem forall₂_map_self {α : Type} (g : α → α) (P : α → α → Prop) (L : List α)
    (h : ∀ x ∈ L, P x (g x)) : List.Forall₂ P L (L.map g) := by
  induction L with
  | nil => exact List.Forall₂.nil
  | cons a t ih =>
    exact List.Forall₂.cons (h a (List.mem_cons_self a t))
      (ih (fun x hx => h x (List.mem_cons_of_mem a hx)))

theorem markRange_rel (c r : Nat) (f : Item → Item) (a b : Nat) (L : List Item) :
    List.Forall₂ (fun x y => y = x ∨ y = f x) L (markRange c r f a b L) := by
  induction L generalizing a b with
  | nil => exact List.Forall₂.nil
  | cons it l ih =>
    have hrefl : List.Forall₂ (fun x y => y = x ∨ y = f x) l l :=
      List.forall₂_same.mpr (fun x _ => Or.inl rfl)
    by_cases hv : posVisible c r it
    · simp only [markRange, if_pos hv]
      match a, b with
      | 0, e + 1 => exact List.Forall₂.cons (Or.inr rfl) (ih 0 e)
      | 0, 0 => exact List.Forall₂.cons (Or.inl rfl) hrefl
      | st + 1, e + 1 => exact List.Forall₂.cons (Or.inl rfl) (ih st e)
      | st + 1, 0 => exact List.Forall₂.cons (Or.inl rfl) hrefl
    · simp only [markRange, if_neg hv]
      exact List.Forall₂.cons (Or.inl rfl) (ih a b)

theorem forall₂_scanEq_of_rel {c r s : Nat} (f : Item → Item) {L L' : List Item}
    (h : List.Forall₂ (fun x y => y = x ∨ y = f x) L L')
    (hvis : ∀ it ∈ L, posVisible c r (f it) = posVisible c r it)
    (hskip : ∀ it ∈ L, skipQual c s (f it) = skipQual c s it) :
    List.Forall₂ (ScanEq c r s) L L' := by
  induction h with
  | nil => exact List.Forall₂.nil
  | @cons a b l₁ l₂ hab htail ih =>
    refine List.Forall₂.cons ?_
      (ih (fun x hx => hvis x (List.mem_cons_of_mem a hx))
          (fun x hx => hskip x (List.mem_cons_of_mem a hx)))
    rcases hab with h' | h'
    · rw [h']
      exact ⟨rfl, rfl⟩
    · rw [h']
      exact ⟨(hvis a (List.mem_cons_self a l₁)).symm,
        (hskip a (List.mem_cons_self a l₁)).symm⟩

/-- Scans are blind to marks that preserve their predicates. -/
theorem insIdx_markRange {c r s : Nat} (c2 r2 : Nat) (f : Item → Item) (a b p : Nat)
    (L : List Item)
    (hvis : ∀ it ∈ L, posVisible c r (f it) = posVisible c r it)
    (hskip : ∀ it ∈ L, skipQual c s (f it) = skipQual c s it) :
    insIdx c r s p (markRange c2 r2 f a b L) = insIdx c r s p L := by
  exact (insIdx_congr (forall₂_scanEq_of_rel f (markRange_rel c2 r2 f a b L) hvis hskip) p).symm

/-! Insertion geometry lemmas. -/

theorem insertAt_nil (j : Nat) (B : List Item) : insertAt j B [] = B := by
  simp [insertAt]

theorem insertAt_zero (B L : List Item) : insertAt 0 B L = B ++ L := by
  simp [insertAt]

theorem insertAt_cons_succ (j : Nat) (B : List Item) (it : Item) (l : List Item) :
    insertAt (j + 1) B (it :: l) = it :: insertAt j B l := by
  simp [insertAt]

theorem visCount_cons (c r : Nat) (it : Item) (l : List Item) :
    visCount c r (it :: l)
      = (if posVisible c r it then 1 else 0) + visCount c r l := by
  unfold visCount
  by_cases hv : posVisible c r it
  · simp [List.filter_cons, hv]
    omega
  · simp [List.filter_cons, hv]

theorem visCount_append (c r : Nat) (a b : List Item) :
    visCount c r (a ++ b) = visCount c r a + visCount c r b := by
  unfold visCount
  simp [List.filter_append]

theorem visCount_insertAt (c r : Nat) (j : Nat) (B L : List Item)
    (hB : ∀ x ∈ B, posVisible c r x = false) :
    visCount c r (insertAt j B L) = visCount c r L := by
  unfold insertAt
  have hB0 : visCount c r B = 0 := by
    unfold visCount
    rw [List.filter_eq_nil_iff.mpr (by intro x hx; simp [hB x hx])]
    rfl
  rw [visCount_append, visCount_append, hB0]
  conv_rhs => rw [← List.take_append_drop j L, visCount_append]
  omega

/-- Position just before the (p+1)-th issuer-visible item. -/
def idxBeforeVis (c r : Nat) : Nat → List Item → Nat
  | _, [] => 0
  | p, it :: l =>
      if posVisible c r it then
        match p with
        | 0 => 0
        | q + 1 => 1 + idxBeforeVis c r q l
      else 1 + idxBeforeVis c r p l

/-- A list in which every issuer-invisible item happened before the incoming
op (no item of the list will be sequenced after it). -/
def AllSkip (c r s : Nat) (L : List Item) : Prop :=
  ∀ it ∈ L, posVisible c r it = false → skipQual c s it = true

theorem runIdx_allSkip {c r s : Nat} {L : List Item} (h : AllSkip c r s L) :
    runIdx c r s L = idxBeforeVis c r 0 L := by
  induction L with
  | nil => rfl
  | cons it l ih =>
    by_cases hv : posVisible c r it
    · simp [runIdx, idxBeforeVis, hv]
    · have hs := h it (List.mem_cons_self it l) (by simpa using hv)
      have ihl := ih (fun x hx hpx => h x (List.mem_cons_of_mem it hx) hpx)
      simp only [runIdx, idxBeforeVis, if_neg hv, ihl, hs]
      by_cases h0 : idxBeforeVis c r 0 l = 0
      · simp [h0]
      · simp [h0]
        omega

theorem insIdxAux_allSkip {c r s : Nat} {L : List Item} (h : AllSkip c r s L) (p : Nat) :
    insIdxAux c r s p L = idxBeforeVis c r p L := by
  induction L generalizing p with
  | nil =>
    match p with
    | 0 => rfl
    | q + 1 => rfl
  | cons it l ih =>
    match p with
    | 0 => exact runIdx_allSkip h
    | q + 1 =>
      have ihl := fun p => ih (fun x hx hpx => h x (List.mem_cons_of_mem it hx) hpx) p
      by_cases hv : posVisible c r it
      · simp [insIdxAux, idxBeforeVis, hv, ihl]
      · simp [insIdxAux, idxBeforeVis, hv, ihl]

theorem idxBeforeVis_clamp (c r : Nat) (p : Nat) (L : List Item) :
    idxBeforeVis c r (min p (visCount c r L)) L = idxBeforeVis c r p L := by
  induction L generalizing p with
  | nil => rfl
  | cons it l ih =>
    by_cases hv : posVisible c r it
    · have hvc : visCount c r (it :: l) = visCount c r l + 1 := by
        rw [visCount_cons]
        simp [hv]
        omega
      match p with
      | 0 =>
        have h0 : min 0 (visCount c r (it :: l)) = 0 := by omega
        rw [h0]
      | q + 1 =>
        have hmin : min (q + 1) (visCount c r (it :: l))
            = (min q (visCount c r l)) + 1 := by
          rw [hvc]
          omega
        rw [hmin]
        simp only [idxBeforeVis, if_pos hv]
        rw [ih]
    · have hvc : visCount c r (it :: l) = visCount c r l := by
        rw [visCount_cons]
        simp [hv]
      rw [hvc]
      simp only [idxBeforeVis, if_neg hv]
      rw [ih]

theorem insIdx_allSkip {c r s : Nat} {L : List Item} (h : AllSkip c r s L) (p : Nat) :
    insIdx c r s p L = idxBeforeVis c r p L := by
  unfold insIdx
  rw [insIdxAux_allSkip h, idxBeforeVis_clamp]

theorem idxBeforeVis_invisible_prepend (c r : Nat) (B L : List Item) (p : Nat)
    (hB : ∀ x ∈ B, posVisible c r x = false) :
    idxBeforeVis c r p (B ++ L) = B.length + idxBeforeVis c r p L := by
  induction B with
  | nil => simp
  | cons b B' ih =>
    have hb := hB b (List.mem_cons_self b B')
    have h' : posVisible c r b ≠ true := by simp [hb]
    have step : idxBeforeVis c r p ((b :: B') ++ L)
        = 1 + idxBeforeVis c r p (B' ++ L) := by
      show idxBeforeVis c r p (b :: (B' ++ L)) = _
      simp only [idxBeforeVis, if_neg h']
    rw [step, ih (fun x hx => hB x (List.mem_cons_of_mem b hx))]
    simp only [List.length_cons]
    omega

theorem idxBeforeVis_invisible_list (c r : Nat) (p : Nat) (B : List Item)
    (hB : ∀ x ∈ B, posVisible c r x = false) :
    idxBeforeVis c r p B = B.length := by
  induction B with
  | nil => rfl
  | cons b t ih =>
    have hb : posVisible c r b ≠ true := by
      simp [hB b (List.mem_cons_self b t)]
    simp only [idxBeforeVis, if_neg hb]
    rw [ih (fun x hx => hB x (List.mem_cons_of_mem b hx))]
    simp only [List.length_cons]
    omega

theorem idxBeforeVis_insertAt (c r : Nat) (B : List Item)
    (hB : ∀ x ∈ B, posVisible c r x = false) :
    ∀ (L : List Item) (j p : Nat), j ≤ L.length →
    idxBeforeVis c r p (insertAt j B L)
      = idxBeforeVis c r p L + (if j ≤ idxBeforeVis c r p L then B.length else 0) := by
  intro L
  induction L with
  | nil =>
    intro j p hj
    have hj0 : j = 0 := by simpa using hj
    subst hj0
    rw [insertAt_nil, idxBeforeVis_invisible_list c r p B hB]
    simp [idxBeforeVis]
  | cons it l ih =>
    intro j p hj
    match j with
    | 0 =>
      rw [insertAt_zero, idxBeforeVis_invisible_prepend c r B _ p hB]
      rw [if_pos (Nat.zero_le _)]
      omega
    | j' + 1 =>
      have hj' : j' ≤ l.length := by simpa using hj
      rw [insertAt_cons_succ]
      by_cases hv : posVisible c r it
      · match p with
        | 0 =>
          simp only [idxBeforeVis, if_pos hv]
          rw [if_neg (by omega)]
        | q + 1 =>
          simp only [idxBeforeVis, if_pos hv]
          rw [ih j' q hj']
          by_cases hle : j' ≤ idxBeforeVis c r q l
          · rw [if_pos hle, if_pos (by omega)]
            omega
          · rw [if_neg hle, if_neg (by omega)]
            omega
      · simp only [idxBeforeVis, if_neg hv]
        rw [ih j' p hj']
        by_cases hle : j' ≤ idxBeforeVis c r p l
        · rw [if_pos hle, if_pos (by omega)]
          omega
        · rw [if_neg hle, if_neg (by omega)]
          omega

/-- Items that will be sequenced after the incoming op (stop blocks). -/
def StopB (c r s : Nat) (B : List Item) : Prop :=
  ∀ x ∈ B, posVisible c r x = false ∧ skipQual c s x = false

theorem runIdx_stop_list {c r s : Nat} {B : List Item} (hB : StopB c r s B) :
    runIdx c r s B = 0 := by
  induction B with
  | nil => rfl
  | cons b t ih =>
    have hb := hB b (List.mem_cons_self b t)
    have h1 : posVisible c r b ≠ true := by simp [hb.1]
    have iht := ih (fun x hx => hB x (List.mem_cons_of_mem b hx))
    simp [runIdx, h1, iht, hb.2]

theorem runIdx_stop_prepend {c r s : Nat} {B : List Item} (hB : StopB c r s B)
    (L : List Item) :
    runIdx c r s (B ++ L)
      = runIdx c r s L + (if 0 < runIdx c r s L then B.length else 0) := by
  induction B with
  | nil => simp
  | cons b t ih =>
    have hb := hB b (List.mem_cons_self b t)
    have h1 : posVisible c r b ≠ true := by simp [hb.1]
    have iht := ih (fun x hx => hB x (List.mem_cons_of_mem b hx))
    have step : runIdx c r s ((b :: t) ++ L)
        = (if runIdx c r s (t ++ L) = 0 then (if skipQual c s b then 1 else 0)
           else runIdx c r s (t ++ L) + 1) := by
      show runIdx c r s (b :: (t ++ L)) = _
      simp only [runIdx, if_neg h1]
    rw [step, iht, hb.2]
    by_cases h0 : 0 < runIdx c r s L
    · simp only [if_pos h0]
      rw [if_neg (by omega : ¬ (runIdx c r s L + t.length = 0))]
      simp only [List.length_cons]
      omega
    · have h00 : runIdx c r s L = 0 := by omega
      simp [h00]

theorem runIdx_insertAt_stop {c r s : Nat} {B : List Item} (hB : StopB c r s B) :
    ∀ (L : List Item) (j : Nat), j ≤ L.length →
    runIdx c r s (insertAt j B L)
      = runIdx c r s L + (if j < runIdx c r s L then B.length else 0) := by
  intro L
  induction L with
  | nil =>
    intro j hj
    have hj0 : j = 0 := by simpa using hj
    subst hj0
    rw [insertAt_nil, runIdx_stop_list hB]
    rfl
  | cons it l ih =>
    intro j hj
    match j with
    | 0 =>
      rw [insertAt_zero, runIdx_stop_prepend hB]
    | j' + 1 =>
      have hj' : j' ≤ l.length := by simpa using hj
      rw [insertAt_cons_succ]
      by_cases hv : posVisible c r it
      · simp only [runIdx, if_pos hv]
        split_ifs <;> omega
      · have step : ∀ X, runIdx c r s (it :: X)
            = (if runIdx c r s X = 0 then (if skipQual c s it then 1 else 0)
               else runIdx c r s X + 1) := by
          intro X
          simp only [runIdx, if_neg hv]
        rw [step (insertAt j' B l), step l, ih j' hj']
        split_ifs <;> omega

theorem insIdxAux_stop_prepend {c r s : Nat} {B : List Item} (hB : StopB c r s B)
    (L : List Item) (p : Nat) (hp : 1 ≤ p) :
    insIdxAux c r s p (B ++ L) = B.length + insIdxAux c r s p L := by
  match p with
  | q + 1 =>
    induction B with
    | nil => simp
    | cons b t ih =>
      have hb := hB b (List.mem_cons_self b t)
      have h1 : posVisible c r b ≠ true := by simp [hb.1]
      have iht := ih (fun x hx => hB x (List.mem_cons_of_mem b hx))
      show insIdxAux c r s (q + 1) (b :: (t ++ L)) = _
      simp only [insIdxAux, if_neg h1]
      rw [iht]
      simp only [List.length_cons]
      omega

theorem insIdxAux_pos_of_vis {c r s : Nat} (L : List Item) (p : Nat)
    (hp : 1 ≤ p) (hvc : p ≤ visCount c r L) : 1 ≤ insIdxAux c r s p L := by
  match p with
  | q + 1 =>
    match L with
    | [] =>
      exfalso
      unfold visCount at hvc
      simp at hvc
    | it :: l =>
      by_cases hv : posVisible c r it
      · simp only [insIdxAux, if_pos hv]
        omega
      · simp only [insIdxAux, if_neg hv]
        omega

theorem insIdxAux_insertAt_stop {c r s : Nat} {B : List Item} (hB : StopB c r s B) :
    ∀ (L : List Item) (p j : Nat), j ≤ L.length → p ≤ visCount c r L →
    insIdxAux c r s p (insertAt j B L)
      = insIdxAux c r s p L + (if j < insIdxAux c r s p L then B.length else 0) := by
  intro L
  induction L with
  | nil =>
    intro p j hj hp
    have hj0 : j = 0 := by simpa using hj
    have hp0 : p = 0 := by
      unfold visCount at hp
      simpa using hp
    subst hj0
    subst hp0
    rw [insertAt_nil]
    rw [insIdxAux_zero, runIdx_stop_list hB]
    simp [insIdxAux, runIdx]
  | cons it l ih =>
    intro p j hj hp
    match p with
    | 0 =>
      rw [insIdxAux_zero, insIdxAux_zero]
      exact runIdx_insertAt_stop hB (it :: l) j hj
    | q + 1 =>
      match j with
      | 0 =>
        rw [insertAt_zero, insIdxAux_stop_prepend hB _ _ (by omega)]
        have hpos : 1 ≤ insIdxAux c r s (q + 1) (it :: l) :=
          insIdxAux_pos_of_vis _ _ (by omega) hp
        rw [if_pos (by omega : 0 < insIdxAux c r s (q + 1) (it :: l))]
        omega
      | j' + 1 =>
        have hj' : j' ≤ l.length := by simpa using hj
        rw [insertAt_cons_succ]
        by_cases hv : posVisible c r it
        · have hq : q ≤ visCount c r l := by
            rw [visCount_cons, if_pos hv] at hp
            omega
          simp only [insIdxAux, if_pos hv]
          rw [ih q j' hj' hq]
          split_ifs <;> omega
        · have hq : q + 1 ≤ visCount c r l := by
            rw [visCount_cons, if_neg hv] at hp
            omega
          simp only [insIdxAux, if_neg hv]
          rw [ih (q + 1) j' hj' hq]
          split_ifs <;> omega

theorem insIdx_insertAt_stop {c r s : Nat} {B : List Item} (hB : StopB c r s B)
    (L : List Item) (p j : Nat) (hj : j ≤ L.length) :
    insIdx c r s p (insertAt j B L)
      = insIdx c r s p L + (if j < insIdx c r s p L then B.length else 0) := by
  unfold insIdx
  rw [visCount_insertAt c r j B L (fun x hx => (hB x hx).1)]
  exact insIdxAux_insertAt_stop hB L (min p (visCount c r L)) j hj (Nat.min_le_right _ _)

theorem insIdx_insertAt_skip {c r s : Nat} {B L : List Item}
    (hAll : AllSkip c r s L)
    (hBinv : ∀ x ∈ B, posVisible c r x = false)
    (hBskip : ∀ x ∈ B, skipQual c s x = true)
    (p j : Nat) (hj : j ≤ L.length) :
    insIdx c r s p (insertAt j B L)
      = insIdx c r s p L + (if j ≤ insIdx c r s p L then B.length else 0) := by
  have hAll2 : AllSkip c r s (insertAt j B L) := by
    intro x hx hpx
    unfold insertAt at hx
    rcases List.mem_append.mp hx with h1 | h1
    · rcases List.mem_append.mp h1 with h2 | h2
      · exact hAll x (List.mem_of_mem_take h2) hpx
      · exact hBskip x h2
    · exact hAll x (List.mem_of_mem_drop h1) hpx
  rw [insIdx_allSkip hAll2, insIdx_allSkip hAll, idxBeforeVis_insertAt c r B hBinv L j p hj]

/-! markRange lemmas. -/

theorem markRange_zero (c r : Nat) (f : Item → Item) (a : Nat) (L : List Item) :
    markRange c r f a 0 L = L := by
  induction L generalizing a with
  | nil => rfl
  | cons it l ih =>
    by_cases hv : posVisible c r it
    · simp only [markRange, if_pos hv]
      match a with
      | 0 => rfl
      | st + 1 => rfl
    · simp only [markRange, if_neg hv]
      rw [ih]

theorem markRange_length (c r : Nat) (f : Item → Item) (a b : Nat) (L : List Item) :
    (markRange c r f a b L).length = L.length :=
  (List.Forall₂.length_eq (markRange_rel c r f a b L)).symm

theorem markRange_invisible_prepend (c r : Nat) (f : Item → Item) (a b : Nat)
    (B L : List Item) (hB : ∀ x ∈ B, posVisible c r x = false) :
    markRange c r f a b (B ++ L) = B ++ markRange c r f a b L := by
  induction B with
  | nil => simp
  | cons x t ih =>
    have hx : posVisible c r x ≠ true := by
      simp [hB x (List.mem_cons_self x t)]
    have step : markRange c r f a b ((x :: t) ++ L)
        = x :: markRange c r f a b (t ++ L) := by
      show markRange c r f a b (x :: (t ++ L)) = _
      simp only [markRange, if_neg hx]
    rw [step, ih (fun y hy => hB y (List.mem_cons_of_mem x hy))]
    rfl

theorem markRange_insertAt (c r : Nat) (f : Item → Item) (B : List Item)
    (hB : ∀ x ∈ B, posVisible c r x = false) :
    ∀ (L : List Item) (a b j : Nat), j ≤ L.length →
    markRange c r f a b (insertAt j B L) = insertAt j B (markRange c r f a b L) := by
  intro L
  induction L with
  | nil =>
    intro a b j hj
    have hj0 : j = 0 := by simpa using hj
    subst hj0
    rw [insertAt_nil]
    have : markRange c r f a b B = B := by
      induction B with
      | nil => rfl
      | cons x t ihB =>
        have hx : posVisible c r x ≠ true := by
          simp [hB x (List.mem_cons_self x t)]
        simp only [markRange, if_neg hx]
        rw [ihB (fun y hy => hB y (List.mem_cons_of_mem x hy))]
    rw [this]
    rw [show markRange c r f a b ([] : List Item) = [] from rfl]
    rw [insertAt_nil]
  | cons it l ih =>
    intro a b j hj
    match j with
    | 0 =>
      rw [insertAt_zero, insertAt_zero, markRange_invisible_prepend c r f a b B _ hB]
    | j' + 1 =>
      have hj' : j' ≤ l.length := by simpa using hj
      rw [insertAt_cons_succ]
      by_cases hv : posVisible c r it
      · match a, b with
        | 0, e + 1 =>
          have s1 : markRange c r f 0 (e + 1) (it :: insertAt j' B l)
              = f it :: markRange c r f 0 e (insertAt j' B l) := by
            simp only [markRange, if_pos hv]
          have s2 : markRange c r f 0 (e + 1) (it :: l)
              = f it :: markRange c r f 0 e l := by
            simp only [markRange, if_pos hv]
          rw [s1, s2, ih 0 e j' hj', insertAt_cons_succ]
        | 0, 0 =>
          rw [markRange_zero, markRange_zero, insertAt_cons_succ]
        | st + 1, e + 1 =>
          have s1 : markRange c r f (st + 1) (e + 1) (it :: insertAt j' B l)
              = it :: markRange c r f st e (insertAt j' B l) := by
            simp only [markRange, if_pos hv]
          have s2 : markRange c r f (st + 1) (e + 1) (it :: l)
              = it :: markRange c r f st e l := by
            simp only [markRange, if_pos hv]
          rw [s1, s2, ih st e j' hj', insertAt_cons_succ]
        | st + 1, 0 =>
          rw [markRange_zero, markRange_zero, insertAt_cons_succ]
      · have s1 : markRange c r f a b (it :: insertAt j' B l)
            = it :: markRange c r f a b (insertAt j' B l) := by
          simp only [markRange, if_neg hv]
        have s2 : markRange c r f a b (it :: l)
            = it :: markRange c r f a b l := by
          simp only [markRange, if_neg hv]
        rw [s1, s2, ih a b j' hj', insertAt_cons_succ]

theorem markRange_comm (c1 r1 c2 r2 : Nat) (f1 f2 : Item → Item)
    (h12 : ∀ it, posVisible c1 r1 (f2 it) = posVisible c1 r1 it)
    (h21 : ∀ it, posVisible c2 r2 (f1 it) = posVisible c2 r2 it)
    (hff : ∀ it, f1 (f2 it) = f2 (f1 it)) :
    ∀ (L : List Item) (a1 b1 a2 b2 : Nat),
    markRange c1 r1 f1 a1 b1 (markRange c2 r2 f2 a2 b2 L)
      = markRange c2 r2 f2 a2 b2 (markRange c1 r1 f1 a1 b1 L) := by
  intro L
  induction L with
  | nil => intro a1 b1 a2 b2; rfl
  | cons it l ih =>
    intro a1 b1 a2 b2
    match b1, b2 with
    | 0, _ =>
      rw [markRange_zero, markRange_zero]
    | _ + 1, 0 =>
      rw [markRange_zero, markRange_zero]
    | e1 + 1, e2 + 1 =>
      by_cases hv1 : posVisible c1 r1 it <;> by_cases hv2 : posVisible c2 r2 it
      · -- visible to both
        match a1, a2 with
        | 0, 0 =>
          have step2 : markRange c2 r2 f2 0 (e2 + 1) (it :: l)
              = f2 it :: markRange c2 r2 f2 0 e2 l := by
            simp only [markRange, if_pos hv2]
          have step1 : markRange c1 r1 f1 0 (e1 + 1) (it :: l)
              = f1 it :: markRange c1 r1 f1 0 e1 l := by
            simp only [markRange, if_pos hv1]
          rw [step2, step1]
          have hv1' : posVisible c1 r1 (f2 it) = true := by rw [h12]; exact hv1
          have hv2' : posVisible c2 r2 (f1 it) = true := by rw [h21]; exact hv2
          simp only [markRange, if_pos hv1', if_pos hv2']
          rw [ih 0 e1 0 e2, hff]
        | 0, st2 + 1 =>
          have step2 : markRange c2 r2 f2 (st2 + 1) (e2 + 1) (it :: l)
              = it :: markRange c2 r2 f2 st2 e2 l := by
            simp only [markRange, if_pos hv2]
          have step1 : markRange c1 r1 f1 0 (e1 + 1) (it :: l)
              = f1 it :: markRange c1 r1 f1 0 e1 l := by
            simp only [markRange, if_pos hv1]
          rw [step2, step1]
          have hv2' : posVisible c2 r2 (f1 it) = true := by rw [h21]; exact hv2
          simp only [markRange, if_pos hv1, if_pos hv2']
          rw [ih 0 e1 st2 e2]
        | st1 + 1, 0 =>
          have step2 : markRange c2 r2 f2 0 (e2 + 1) (it :: l)
              = f2 it :: markRange c2 r2 f2 0 e2 l := by
            simp only [markRange, if_pos hv2]
          have step1 : markRange c1 r1 f1 (st1 + 1) (e1 + 1) (it :: l)
              = it :: markRange c1 r1 f1 st1 e1 l := by
            simp only [markRange, if_pos hv1]
          rw [step2, step1]
          have hv1' : posVisible c1 r1 (f2 it) = true := by rw [h12]; exact hv1
          simp only [markRange, if_pos hv1', if_pos hv2]
          rw [ih st1 e1 0 e2]
        | st1 + 1, st2 + 1 =>
          have step2 : markRange c2 r2 f2 (st2 + 1) (e2 + 1) (it :: l)
              = it :: markRange c2 r2 f2 st2 e2 l := by
            simp only [markRange, if_pos hv2]
          have step1 : markRange c1 r1 f1 (st1 + 1) (e1 + 1) (it :: l)
              = it :: markRange c1 r1 f1 st1 e1 l := by
            simp only [markRange, if_pos hv1]
          rw [step2, step1]
          simp only [markRange, if_pos hv1, if_pos hv2]
          rw [ih st1 e1 st2 e2]
      · -- visible to 1 only
        have step2 : markRange c2 r2 f2 a2 (e2 + 1) (it :: l)
            = it :: markRange c2 r2 f2 a2 (e2 + 1) l := by
          simp only [markRange, if_neg hv2]
        rw [step2]
        match a1 with
        | 0 =>
          have step1 : markRange c1 r1 f1 0 (e1 + 1) (it :: l)
              = f1 it :: markRange c1 r1 f1 0 e1 l := by
            simp only [markRange, if_pos hv1]
          rw [step1]
          have hv2' : posVisible c2 r2 (f1 it) ≠ true := by rw [h21]; simpa using hv2
          have hv1' : posVisible c1 r1 it = true := hv1
          simp only [markRange, if_pos hv1', if_neg hv2']
          rw [ih 0 e1 a2 (e2 + 1)]
        | st1 + 1 =>
          have step1 : markRange c1 r1 f1 (st1 + 1) (e1 + 1) (it :: l)
              = it :: markRange c1 r1 f1 st1 e1 l := by
            simp only [markRange, if_pos hv1]
          rw [step1]
          simp only [markRange, if_pos hv1, if_neg hv2]
          rw [ih st1 e1 a2 (e2 + 1)]
      · -- visible to 2 only
        have step1 : markRange c1 r1 f1 a1 (e1 + 1) (it :: l)
            = it :: markRange c1 r1 f1 a1 (e1 + 1) l := by
          simp only [markRange, if_neg hv1]
        rw [step1]
        match a2 with
        | 0 =>
          have step2 : markRange c2 r2 f2 0 (e2 + 1) (it :: l)
              = f2 it :: markRange c2 r2 f2 0 e2 l := by
            simp only [markRange, if_pos hv2]
          rw [step2]
          have hv1' : posVisible c1 r1 (f2 it) ≠ true := by rw [h12]; simpa using hv1
          simp only [markRange, if_neg hv1', if_pos hv2]
          rw [ih a1 (e1 + 1) 0 e2]
        | st2 + 1 =>
          have step2 : markRange c2 r2 f2 (st2 + 1) (e2 + 1) (it :: l)
              = it :: markRange c2 r2 f2 st2 e2 l := by
            simp only [markRange, if_pos hv2]
          rw [step2]
          simp only [markRange, if_neg hv1, if_pos hv2]
          rw [ih a1 (e1 + 1) st2 e2]
      · -- invisible to both
        have step2 : markRange c2 r2 f2 a2 (e2 + 1) (it :: l)
            = it :: markRange c2 r2 f2 a2 (e2 + 1) l := by
          simp only [markRange, if_neg hv2]
        have step1 : markRange c1 r1 f1 a1 (e1 + 1) (it :: l)
            = it :: markRange c1 r1 f1 a1 (e1 + 1) l := by
          simp only [markRange, if_neg hv1]
        rw [step2, step1]
        simp only [markRange, if_neg hv1, if_neg hv2]
        rw [ih a1 (e1 + 1) a2 (e2 + 1)]


theorem insertAt_insertAt_le (B1 B2 : List Item) (L : List Item) (i j : Nat)
    (hij : i ≤ j) (hj : j ≤ L.length) :
    insertAt i B1 (insertAt j B2 L)
      = insertAt (j + B1.length) B2 (insertAt i B1 L) := by
  have hTakeL : (L.take j).length = j := by
    rw [List.length_take]; omega
  have hLHSt : (L.take j ++ (B2 ++ L.drop j)).take i = L.take i := by
    rw [List.take_append_eq_append_take]
    have h1 : i - (L.take j).length = 0 := by omega
    rw [h1, List.take_zero, List.append_nil, List.take_take]
    have h2 : min i j = i := by omega
    rw [h2]
  have hLHSd : (L.take j ++ (B2 ++ L.drop j)).drop i
      = (L.take j).drop i ++ (B2 ++ L.drop j) := by
    rw [List.drop_append_eq_append_drop]
    have h1 : i - (L.take j).length = 0 := by omega
    rw [h1, List.drop_zero]
  have hRHSt : (L.take i ++ (B1 ++ L.drop i)).take (j + B1.length)
      = L.take i ++ (B1 ++ (L.drop i).take (j - i)) := by
    rw [List.take_append_eq_append_take]
    have hTi : (L.take i).length = i := by rw [List.length_take]; omega
    rw [List.take_of_length_le (by omega : (L.take i).length ≤ j + B1.length)]
    rw [List.take_append_eq_append_take]
    rw [List.take_of_length_le (by omega : B1.length ≤ j + B1.length - (L.take i).length)]
    have h3 : j + B1.length - (L.take i).length - B1.length = j - i := by omega
    rw [h3]
  have hRHSd : (L.take i ++ (B1 ++ L.drop i)).drop (j + B1.length)
      = (L.drop i).drop (j - i) := by
    rw [List.drop_append_eq_append_drop]
    have hTi : (L.take i).length = i := by rw [List.length_take]; omega
    rw [List.drop_of_length_le (by omega : (L.take i).length ≤ j + B1.length)]
    rw [List.nil_append, List.drop_append_eq_append_drop]
    rw [List.drop_of_length_le (by omega : B1.length ≤ j + B1.length - (L.take i).length)]
    have h3 : j + B1.length - (L.take i).length - B1.length = j - i := by omega
    rw [h3, List.nil_append]
  have hdt : (L.drop i).take (j - i) = (L.take j).drop i := by
    rw [List.drop_take]
  have hdd : (L.drop i).drop (j - i) = L.drop j := by
    rw [List.drop_drop]
    have h4 : i + (j - i) = j := by omega
    rw [h4]
  show (insertAt j B2 L).take i ++ B1 ++ (insertAt j B2 L).drop i
      = (insertAt i B1 L).take (j + B1.length) ++ B2 ++ (insertAt i B1 L).drop (j + B1.length)
  show (L.take j ++ B2 ++ L.drop j).take i ++ B1 ++ (L.take j ++ B2 ++ L.drop j).drop i
      = (L.take i ++ B1 ++ L.drop i).take (j + B1.length) ++ B2
          ++ (L.take i ++ B1 ++ L.drop i).drop (j + B1.length)
  rw [List.append_assoc (L.take j) B2 (L.drop j), hLHSt, hLHSd]
  rw [List.append_assoc (L.take i) B1 (L.drop i), hRHSt, hRHSd]
  rw [hdt, hdd]
  simp

/-! Two-parameter scan congruence: the same walk with different sequence
bounds on the two sides. -/

/-- Items that the scans of two ops (same issuer and reference point,
different sequence bounds) cannot distinguish. -/
def ScanEq2 (c r s1 s2 : Nat) (a b : Item) : Prop :=
  posVisible c r a = posVisible c r b ∧ skipQual c s1 a = skipQual c s2 b

theorem runIdx_congr2 {c r s1 s2 : Nat} {L L' : List Item}
    (h : List.Forall₂ (ScanEq2 c r s1 s2) L L') : runIdx c r s1 L = runIdx c r s2 L' := by
  induction h with
  | nil => rfl
  | cons hab _ ih =>
    simp only [runIdx, hab.1, hab.2, ih]

theorem insIdxAux_congr2 {c r s1 s2 : Nat} {L L' : List Item}
    (h : List.Forall₂ (ScanEq2 c r s1 s2) L L') (p : Nat) :
    insIdxAux c r s1 p L = insIdxAux c r s2 p L' := by
  induction h generalizing p with
  | nil =>
    match p with
    | 0 =>
      rw [insIdxAux_zero, insIdxAux_zero]
      rfl
    | q + 1 => rfl
  | @cons a b l₁ l₂ hab htail ih =>
    match p with
    | 0 =>
      rw [insIdxAux_zero, insIdxAux_zero]
      exact runIdx_congr2 (List.Forall₂.cons hab htail)
    | q + 1 =>
      show insIdxAux c r s1 (q + 1) (a :: l₁) = insIdxAux c r s2 (q + 1) (b :: l₂)
      simp only [insIdxAux, hab.1]
      by_cases hv : posVisible c r b = true
      · rw [if_pos hv, if_pos hv, ih]
      · rw [if_neg hv, if_neg hv, ih]

theorem insIdx_congr2 {c r s1 s2 : Nat} {L L' : List Item}
    (h : List.Forall₂ (ScanEq2 c r s1 s2) L L') (p : Nat) :
    insIdx c r s1 p L = insIdx c r s2 p L' := by
  unfold insIdx
  rw [visCount_congr (List.Forall₂.imp (fun _ _ hab => hab.1) h), insIdxAux_congr2 h]

/-! Basic facts about the masking map. -/

theorem maskItem_ch (me : Nat) (K : List Nat) (it : Item) :
    (maskItem me K it).ch = it.ch := rfl

theorem maskItem_client (me : Nat) (K : List Nat) (it : Item) :
    (maskItem me K it).client = it.client := rfl

theorem maskItem_clientSeq (me : Nat) (K : List Nat) (it : Item) :
    (maskItem me K it).clientSeq = it.clientSeq := rfl

theorem maskItem_nilK (me : Nat) (it : Item) : maskItem me [] it = it := by
  cases it with
  | mk ch client clientSeq seq rem props =>
    unfold maskItem
    simp only [List.contains, List.elem_nil, Bool.and_false, if_false]
    cases rem <;> simp [List.map_id]

theorem maskList_nilK (me : Nat) (l : List Item) : maskList me [] l = l := by
  unfold maskList
  rw [List.map_congr_left (fun it _ => maskItem_nilK me it)]
  exact List.map_id' l

theorem maskItem_congr (me : Nat) {K1 K2 : List Nat}
    (h : ∀ x, K1.contains x = K2.contains x) (it : Item) :
    maskItem me K1 it = maskItem me K2 it := by
  unfold maskItem
  simp only [h]

theorem maskList_congr (me : Nat) {K1 K2 : List Nat}
    (h : ∀ x, K1.contains x = K2.contains x) (l : List Item) :
    maskList me K1 l = maskList me K2 l :=
  List.map_congr_left (fun it _ => maskItem_congr me h it)

theorem maskList_append (me : Nat) (K : List Nat) (a b : List Item) :
    maskList me K (a ++ b) = maskList me K a ++ maskList me K b := by
  unfold maskList; exact List.map_append _ a b

theorem maskList_insertAt (me : Nat) (K : List Nat) (i : Nat) (B L : List Item) :
    maskList me K (insertAt i B L) = insertAt i (maskList me K B) (maskList me K L) := by
  unfold insertAt maskList
  rw [List.map_append, List.map_append, List.map_take, List.map_drop]

/-- Marking commutes with an itemwise map that preserves issuer visibility
and intertwines the two marking functions. -/
theorem markRange_map_comm (c r : Nat) (f1 f2 g : Item → Item) :
    ∀ (L : List Item) (a b : Nat),
    (∀ it ∈ L, posVisible c r (g it) = posVisible c r it) →
    (∀ it ∈ L, f1 (g it) = g (f2 it)) →
    markRange c r f1 a b (L.map g) = (markRange c r f2 a b L).map g := by
  intro L
  induction L with
  | nil => intro a b _ _; rfl
  | cons it l ih =>
    intro a b hvis hcomm
    have hv' := hvis it (List.mem_cons_self it l)
    have hc' := hcomm it (List.mem_cons_self it l)
    have hvt := fun x hx => hvis x (List.mem_cons_of_mem it hx)
    have hct := fun x hx => hcomm x (List.mem_cons_of_mem it hx)
    by_cases hv : posVisible c r it
    · have hvg : posVisible c r (g it) = true := by rw [hv']; exact hv
      match a, b with
      | 0, e + 1 =>
        have s1 : markRange c r f1 0 (e + 1) (g it :: l.map g)
            = f1 (g it) :: markRange c r f1 0 e (l.map g) := by
          simp only [markRange, if_pos hvg]
        have s2 : markRange c r f2 0 (e + 1) (it :: l)
            = f2 it :: markRange c r f2 0 e l := by
          simp only [markRange, if_pos hv]
        rw [List.map_cons, s1, s2, List.map_cons, ih 0 e hvt hct, hc']
      | 0, 0 =>
        have s1 : markRange c r f1 0 0 (g it :: l.map g) = g it :: l.map g := by
          simp only [markRange, if_pos hvg]
        have s2 : markRange c r f2 0 0 (it :: l) = it :: l := by
          simp only [markRange, if_pos hv]
        rw [List.map_cons, s1, s2, List.map_cons]
      | st + 1, e + 1 =>
        have s1 : markRange c r f1 (st + 1) (e + 1) (g it :: l.map g)
            = g it :: markRange c r f1 st e (l.map g) := by
          simp only [markRange, if_pos hvg]
        have s2 : markRange c r f2 (st + 1) (e + 1) (it :: l)
            = it :: markRange c r f2 st e l := by
          simp only [markRange, if_pos hv]
        rw [List.map_cons, s1, s2, List.map_cons, ih st e hvt hct]
      | st + 1, 0 =>
        have s1 : markRange c r f1 (st + 1) 0 (g it :: l.map g) = g it :: l.map g := by
          simp only [markRange, if_pos hvg]
        have s2 : markRange c r f2 (st + 1) 0 (it :: l) = it :: l := by
          simp only [markRange, if_pos hv]
        rw [List.map_cons, s1, s2, List.map_cons]
    · have hvg : posVisible c r (g it) ≠ true := by rw [hv']; exact hv
      have s1 : markRange c r f1 a b (g it :: l.map g)
          = g it :: markRange c r f1 a b (l.map g) := by
        simp only [markRange, if_neg hvg]
      have s2 : markRange c r f2 a b (it :: l)
          = it :: markRange c r f2 a b l := by
        simp only [markRange, if_neg hv]
      rw [List.map_cons, s1, s2, List.map_cons, ih a b hvt hct]

/-- The masking map on one property entry. -/
def maskProp (me : Nat) (K : List Nat) (kp : Nat × PropVal) : Nat × PropVal :=
  if kp.2.tagClient == me && K.contains kp.2.tagClientSeq then
    (kp.1, { kp.2 with tagSeq := none })
  else kp

theorem maskItem_props (me : Nat) (K : List Nat) (it : Item) :
    (maskItem me K it).props = it.props.map (maskProp me K) := rfl

theorem maskProp_key (me : Nat) (K : List Nat) (kp : Nat × PropVal) :
    (maskProp me K kp).1 = kp.1 := by
  unfold maskProp
  split_ifs <;> rfl

/-- Every entry of an updated property map is an old entry or carries the
update's value and tag. -/
theorem mem_updateProp {ts : Option Nat} {tc tcs k : Nat} {v : Int}
    {ps : List (Nat × PropVal)} {kp : Nat × PropVal}
    (h : kp ∈ updateProp ts tc tcs k v ps) :
    kp ∈ ps ∨ kp.2 = ⟨v, ts, tc, tcs⟩ := by
  induction ps with
  | nil =>
    simp only [updateProp, List.mem_singleton] at h
    right; rw [h]
  | cons hd tl ih =>
    match hd with
    | (k0, pv) =>
      by_cases hklt : k < k0
      · simp only [updateProp, if_pos hklt] at h
        rcases List.mem_cons.mp h with h1 | h1
        · right; rw [h1]
        · left; exact h1
      · by_cases hk : k0 = k
        · simp only [updateProp, if_neg hklt, if_pos hk] at h
          by_cases hge : geOpt ts pv.tagSeq
          · rw [if_pos hge] at h
            rcases List.mem_cons.mp h with h1 | h1
            · right; rw [h1]
            · left; exact List.mem_cons_of_mem _ h1
          · rw [if_neg hge] at h
            left; exact h
        · simp only [updateProp, if_neg hklt, if_neg hk] at h
          rcases List.mem_cons.mp h with h1 | h1
          · left; rw [h1]; exact List.mem_cons_self _ _
          · rcases ih h1 with h2 | h2
            · left; exact List.mem_cons_of_mem _ h2
            · right; exact h2

/-- Masking is the identity on the items created by another client's insert. -/
theorem maskList_mkItems_remote (me : Nat) (K : List Nat) (c cs : Nat)
    (hc : c ≠ me) (sv : Option Nat) (content : List Nat) (pr : List (Nat × Int)) :
    maskList me K (mkItems c cs sv content pr) = mkItems c cs sv content pr := by
  unfold maskList mkItems
  rw [List.map_map]
  apply List.map_congr_left
  intro ch _
  simp [maskItem, maskProp, hc, List.map_map]

/-- Masking one's own pending insert turns its assigned artifacts back into
the sentinels the issuing replica created. -/
theorem maskList_mkItems_own (me : Nat) (K : List Nat) (cs s : Nat)
    (hK : K.contains cs = true) (content : List Nat) (pr : List (Nat × Int)) :
    maskList me K (mkItems me cs (some s) content pr) = mkItems me cs none content pr := by
  unfold maskList mkItems
  rw [List.map_map]
  apply List.map_congr_left
  intro ch _
  have hmem : cs ∈ K := by
    have := hK
    simpa [List.contains] using this
  simp [maskItem, maskProp, hK, List.map_map]
  exact ⟨hmem, fun _ _ _ => hmem⟩

/-- A remote removal mark commutes with masking (every masked removal mark
was sequenced after the remote op, so both sides overwrite it). -/
theorem maskItem_markRemoved_remote (me : Nat) (K : List Nat) (s c cs : Nat)
    (hc : c ≠ me) (it : Item)
    (hmark : ∀ sq bc bcs cl, it.rem = RemState.removed sq bc bcs cl →
      bc = me → bcs ∈ K → ∃ t, sq = some t ∧ s < t) :
    markRemoved (some s) c cs (maskItem me K it) = maskItem me K (markRemoved (some s) c cs it) := by
  cases it with
  | mk ch cl0 cs0 sq0 rem0 ps0 =>
    cases rem0 with
    | live =>
      simp [maskItem, markRemoved, hc]
    | removed sqm bc bcs cl =>
      by_cases hbm : bc = me ∧ bcs ∈ K
      · obtain ⟨hbc, hbs⟩ := hbm
        obtain ⟨t, hsq, hst⟩ := hmark sqm bc bcs cl rfl hbc hbs
        subst hsq
        have hlt1 : ltOpt (some s) none = true := rfl
        have hlt2 : ltOpt (some s) (some t) = true := by
          simp [ltOpt]; omega
        simp [maskItem, markRemoved, hbc, hbs, hlt1, hlt2, hc]
      · by_cases hlt : ltOpt (some s) sqm = true
        · simp [maskItem, markRemoved, hbm, hlt, hc]
        · simp [maskItem, markRemoved, hbm, hlt, hc]

/-- One's own removal mark, applied optimistically, matches the masked
sequenced removal mark (no earlier mark is overwritten on either side). -/
theorem maskItem_markRemoved_own (me : Nat) (K : List Nat) (s' cs : Nat)
    (hK : cs ∈ K) (it : Item)
    (hmark : ∀ sq bc bcs cl, it.rem = RemState.removed sq bc bcs cl →
      ∃ t, sq = some t ∧ t ≤ s') :
    markRemoved none me cs (maskItem me K it) = maskItem me K (markRemoved (some s') me cs it) := by
  cases it with
  | mk ch cl0 cs0 sq0 rem0 ps0 =>
    cases rem0 with
    | live =>
      simp [maskItem, markRemoved, hK]
    | removed sqm bc bcs cl =>
      obtain ⟨t, hsq, hts⟩ := hmark sqm bc bcs cl rfl
      subst hsq
      have hlt2 : ltOpt (some s') (some t) = false := by
        simp [ltOpt]; omega
      by_cases hbm : bc = me ∧ bcs ∈ K
      · have hlt1 : ltOpt none none = false := rfl
        simp [maskItem, markRemoved, hbm.1, hbm.2, hlt1, hlt2]
      · have hlt1 : ltOpt none (some t) = false := rfl
        simp [maskItem, markRemoved, hbm, hlt1, hlt2]

/-- Resolving the masking map on one entry. -/
theorem maskProp_pos (me : Nat) (K : List Nat) (k0 : Nat) (pv : PropVal)
    (hm : pv.tagClient = me ∧ pv.tagClientSeq ∈ K) :
    maskProp me K (k0, pv) = (k0, { pv with tagSeq := none }) := by
  unfold maskProp
  simp [hm.1, hm.2]

theorem maskProp_neg (me : Nat) (K : List Nat) (k0 : Nat) (pv : PropVal)
    (hm : ¬ (pv.tagClient = me ∧ pv.tagClientSeq ∈ K)) :
    maskProp me K (k0, pv) = (k0, pv) := by
  unfold maskProp
  simp [hm]

/-- A remote property write commutes with masking the property map. -/
theorem updateProp_maskProp_remote (me : Nat) (K : List Nat) (s c cs k : Nat) (v : Int)
    (hc : c ≠ me) (ps : List (Nat × PropVal))
    (hps : ∀ kp ∈ ps, kp.2.tagClient = me → kp.2.tagClientSeq ∈ K →
      ∃ t, kp.2.tagSeq = some t ∧ s < t) :
    updateProp (some s) c cs k v (ps.map (maskProp me K))
      = (updateProp (some s) c cs k v ps).map (maskProp me K) := by
  have hnewR : ∀ k1, maskProp me K (k1, (⟨v, some s, c, cs⟩ : PropVal))
      = (k1, (⟨v, some s, c, cs⟩ : PropVal)) := by
    intro k1
    apply maskProp_neg
    intro hmm
    exact hc hmm.1
  induction ps with
  | nil =>
    simp only [List.map_nil, updateProp, List.map_cons, hnewR]
  | cons hd tl ih =>
    match hd with
    | (k0, pv) =>
      have hhd := hps (k0, pv) (List.mem_cons_self _ _)
      have htl := fun kp hkp => hps kp (List.mem_cons_of_mem _ hkp)
      by_cases hm : pv.tagClient = me ∧ pv.tagClientSeq ∈ K
      · have hmp := maskProp_pos me K k0 pv hm
        obtain ⟨t, htag, hst⟩ := hhd hm.1 hm.2
        have hge2 : geOpt (some s) pv.tagSeq = false := by
          rw [htag]; simp [geOpt]; omega
        have hge1 : geOpt (some s) (none : Option Nat) = false := rfl
        by_cases hklt : k < k0
        · simp only [List.map_cons]
          rw [hmp]
          simp only [updateProp, if_pos hklt, List.map_cons, hnewR]
          rw [hmp]
        · by_cases hk : k0 = k
          · simp only [List.map_cons]
            rw [hmp]
            simp only [updateProp, if_neg hklt, if_pos hk, hge1, hge2,
              Bool.false_eq_true, if_false, List.map_cons]
            rw [hmp]
          · simp only [List.map_cons]
            rw [hmp]
            simp only [updateProp, if_neg hklt, if_neg hk, ih htl, List.map_cons]
            rw [hmp]
      · have hmp := maskProp_neg me K k0 pv hm
        by_cases hklt : k < k0
        · simp only [List.map_cons]
          rw [hmp]
          simp only [updateProp, if_pos hklt, List.map_cons, hnewR]
          rw [hmp]
        · by_cases hk : k0 = k
          · by_cases hge : geOpt (some s) pv.tagSeq = true
            · simp only [List.map_cons]
              rw [hmp]
              simp only [updateProp, if_neg hklt, if_pos hk, hge, if_true,
                List.map_cons, hnewR]
            · simp only [List.map_cons]
              rw [hmp]
              simp only [updateProp, if_neg hklt, if_pos hk, hge,
                Bool.false_eq_true, if_false, List.map_cons]
              rw [hmp]
          · simp only [List.map_cons]
            rw [hmp]
            simp only [updateProp, if_neg hklt, if_neg hk, ih htl, List.map_cons]
            rw [hmp]

/-- One's own optimistic property write matches the masked sequenced write
(both overwrite: every existing tag was sequenced no later). -/
theorem updateProp_maskProp_own (me : Nat) (K : List Nat) (s' cs k : Nat) (v : Int)
    (hK : cs ∈ K) (ps : List (Nat × PropVal))
    (hps : ∀ kp ∈ ps, ∃ t, kp.2.tagSeq = some t ∧ t ≤ s') :
    updateProp none me cs k v (ps.map (maskProp me K))
      = (updateProp (some s') me cs k v ps).map (maskProp me K) := by
  have hnew : ∀ k1, maskProp me K (k1, (⟨v, some s', me, cs⟩ : PropVal))
      = (k1, (⟨v, none, me, cs⟩ : PropVal)) := by
    intro k1
    exact maskProp_pos me K k1 _ ⟨rfl, hK⟩
  induction ps with
  | nil =>
    simp only [List.map_nil, updateProp, List.map_cons, hnew]
  | cons hd tl ih =>
    match hd with
    | (k0, pv) =>
      obtain ⟨t, htag, hts⟩ := hps (k0, pv) (List.mem_cons_self _ _)
      have htl := fun kp hkp => hps kp (List.mem_cons_of_mem _ hkp)
      have hge2 : geOpt (some s') pv.tagSeq = true := by
        rw [htag]; simp [geOpt]; omega
      by_cases hm : pv.tagClient = me ∧ pv.tagClientSeq ∈ K
      · have hmp := maskProp_pos me K k0 pv hm
        by_cases hklt : k < k0
        · simp only [List.map_cons]
          rw [hmp]
          simp only [updateProp, if_pos hklt, List.map_cons, hnew]
          rw [hmp]
        · by_cases hk : k0 = k
          · have hge1 : geOpt none (none : Option Nat) = true := rfl
            simp only [List.map_cons]
            rw [hmp]
            simp only [updateProp, if_neg hklt, if_pos hk, hge1, hge2, if_true,
              List.map_cons, hnew]
          · simp only [List.map_cons]
            rw [hmp]
            simp only [updateProp, if_neg hklt, if_neg hk, ih htl, List.map_cons]
            rw [hmp]
      · have hmp := maskProp_neg me K k0 pv hm
        by_cases hklt : k < k0
        · simp only [List.map_cons]
          rw [hmp]
          simp only [updateProp, if_pos hklt, List.map_cons, hnew]
          rw [hmp]
        · by_cases hk : k0 = k
          · have hge1 : geOpt none pv.tagSeq = true := by
              cases h : pv.tagSeq <;> rfl
            simp only [List.map_cons]
            rw [hmp]
            simp only [updateProp, if_neg hklt, if_pos hk, hge1, hge2, if_true,
              List.map_cons, hnew]
          · simp only [List.map_cons]
            rw [hmp]
            simp only [updateProp, if_neg hklt, if_neg hk, ih htl, List.map_cons]
            rw [hmp]

theorem foldl_updateProp_maskProp_remote (me : Nat) (K : List Nat) (s c cs : Nat)
    (hc : c ≠ me) :
    ∀ (delta : List (Nat × Int)) (ps : List (Nat × PropVal)),
    (∀ kp ∈ ps, kp.2.tagClient = me → kp.2.tagClientSeq ∈ K →
      ∃ t, kp.2.tagSeq = some t ∧ s < t) →
    delta.foldl (fun acc kv => updateProp (some s) c cs kv.1 kv.2 acc) (ps.map (maskProp me K))
      = (delta.foldl (fun acc kv => updateProp (some s) c cs kv.1 kv.2 acc) ps).map (maskProp me K) := by
  intro delta
  induction delta with
  | nil => intro ps _; rfl
  | cons kv d ih =>
    intro ps hps
    have hstep := updateProp_maskProp_remote me K s c cs kv.1 kv.2 hc ps hps
    have hpres : ∀ kp ∈ updateProp (some s) c cs kv.1 kv.2 ps,
        kp.2.tagClient = me → kp.2.tagClientSeq ∈ K →
        ∃ t, kp.2.tagSeq = some t ∧ s < t := by
      intro kp hkp htc hts
      rcases mem_updateProp hkp with h1 | h1
      · exact hps kp h1 htc hts
      · rw [h1] at htc
        exact absurd htc hc
    show List.foldl _ (updateProp (some s) c cs kv.1 kv.2 (ps.map (maskProp me K))) d = _
    rw [hstep]
    exact ih (updateProp (some s) c cs kv.1 kv.2 ps) hpres

theorem foldl_updateProp_maskProp_own (me : Nat) (K : List Nat) (s' cs : Nat)
    (hK : cs ∈ K) :
    ∀ (delta : List (Nat × Int)) (ps : List (Nat × PropVal)),
    (∀ kp ∈ ps, ∃ t, kp.2.tagSeq = some t ∧ t ≤ s') →
    delta.foldl (fun acc kv => updateProp none me cs kv.1 kv.2 acc) (ps.map (maskProp me K))
      = (delta.foldl (fun acc kv => updateProp (some s') me cs kv.1 kv.2 acc) ps).map (maskProp me K) := by
  intro delta
  induction delta with
  | nil => intro ps _; rfl
  | cons kv d ih =>
    intro ps hps
    have hstep := updateProp_maskProp_own me K s' cs kv.1 kv.2 hK ps hps
    have hpres : ∀ kp ∈ updateProp (some s') me cs kv.1 kv.2 ps,
        ∃ t, kp.2.tagSeq = some t ∧ t ≤ s' := by
      intro kp hkp
      rcases mem_updateProp hkp with h1 | h1
      · exact hps kp h1
      · exact ⟨s', by rw [h1], le_refl s'⟩
    show List.foldl _ (updateProp none me cs kv.1 kv.2 (ps.map (maskProp me K))) d = _
    rw [hstep]
    exact ih (updateProp (some s') me cs kv.1 kv.2 ps) hpres

/-- A remote annotate commutes with masking. -/
theorem maskItem_annotate_remote (me : Nat) (K : List Nat) (s c cs : Nat)
    (delta : List (Nat × Int)) (hc : c ≠ me) (it : Item)
    (hps : ∀ kp ∈ it.props, kp.2.tagClient = me → kp.2.tagClientSeq ∈ K →
      ∃ t, kp.2.tagSeq = some t ∧ s < t) :
    annotateItem (some s) c cs delta (maskItem me K it)
      = maskItem me K (annotateItem (some s) c cs delta it) := by
  cases it with
  | mk ch cl0 cs0 sq0 rem0 ps0 =>
    have hfold := foldl_updateProp_maskProp_remote me K s c cs hc delta ps0 hps
    simp only [annotateItem, maskItem, Item.mk.injEq, and_true, true_and]
    exact hfold

/-- One's own optimistic annotate matches the masked sequenced annotate. -/
theorem maskItem_annotate_own (me : Nat) (K : List Nat) (s' cs : Nat)
    (delta : List (Nat × Int)) (hK : cs ∈ K) (it : Item)
    (hps : ∀ kp ∈ it.props, ∃ t, kp.2.tagSeq = some t ∧ t ≤ s') :
    annotateItem none me cs delta (maskItem me K it)
      = maskItem me K (annotateItem (some s') me cs delta it) := by
  cases it with
  | mk ch cl0 cs0 sq0 rem0 ps0 =>
    have hfold := foldl_updateProp_maskProp_own me K s' cs hK delta ps0 hps
    simp only [annotateItem, maskItem, Item.mk.injEq, and_true, true_and]
    exact hfold

/-- The masking map on an insertion tag. -/
def maskSeq (me : Nat) (K : List Nat) (cl0 cs0 : Nat) (sq : Option Nat) : Option Nat :=
  if cl0 == me && K.contains cs0 then none else sq

/-- The masking map on a removal state. -/
def maskRem (me : Nat) (K : List Nat) : RemState → RemState
  | RemState.removed bySeq bc bcs cl =>
      if bc == me && K.contains bcs then RemState.removed none bc bcs cl
      else RemState.removed bySeq bc bcs cl
  | RemState.live => RemState.live

theorem maskItem_eq_mk (me : Nat) (K : List Nat) (it : Item) :
    maskItem me K it = ⟨it.ch, it.client, it.clientSeq,
      maskSeq me K it.client it.clientSeq it.seq,
      maskRem me K it.rem, it.props.map (maskProp me K)⟩ := rfl

theorem ackItem_eq_mk (me cs s : Nat) (it : Item) :
    ackItem me cs s it = ⟨it.ch, it.client, it.clientSeq,
      ackSeq me cs s it.client it.clientSeq it.seq,
      ackRem me cs s it.rem, it.props.map (ackProp me cs s)⟩ := rfl

theorem ackSeq_maskSeq (me : Nat) (K : List Nat) (cs s cl0 cs0 : Nat) (sq0 : Option Nat)
    (hcs : cs ∉ K) (h1 : cl0 = me → cs0 = cs → sq0 = some s) :
    ackSeq me cs s cl0 cs0 (maskSeq me (cs :: K) cl0 cs0 sq0) = maskSeq me K cl0 cs0 sq0 := by
  by_cases hm : cl0 = me
  · by_cases hk : cs0 = cs
    · have hsq := h1 hm hk
      subst hsq
      simp [maskSeq, ackSeq, hm, hk, hcs]
    · by_cases hK0 : cs0 ∈ K
      · simp [maskSeq, ackSeq, hm, hk, hK0]
      · simp [maskSeq, ackSeq, hm, hk, hK0]
  · simp [maskSeq, ackSeq, hm]

theorem ackRem_maskRem (me : Nat) (K : List Nat) (cs s : Nat) (rem0 : RemState)
    (hcs : cs ∉ K)
    (h2 : ∀ sq bc bcs cl, rem0 = RemState.removed sq bc bcs cl →
      bc = me → bcs = cs → sq = some s) :
    ackRem me cs s (maskRem me (cs :: K) rem0) = maskRem me K rem0 := by
  cases rem0 with
  | live => rfl
  | removed sqm bc bcs cl =>
    by_cases hm : bc = me
    · by_cases hk : bcs = cs
      · have hsq := h2 sqm bc bcs cl rfl hm hk
        subst hsq
        simp [maskRem, ackRem, hm, hk, hcs]
      · by_cases hK0 : bcs ∈ K
        · simp [maskRem, ackRem, hm, hk, hK0]
        · simp [maskRem, ackRem, hm, hk, hK0]
    · simp [maskRem, ackRem, hm]

theorem ackProp_maskProp (me : Nat) (K : List Nat) (cs s : Nat) (kp : Nat × PropVal)
    (hcs : cs ∉ K)
    (h3 : kp.2.tagClient = me → kp.2.tagClientSeq = cs → kp.2.tagSeq = some s) :
    ackProp me cs s (maskProp me (cs :: K) kp) = maskProp me K kp := by
  match kp with
  | (k0, pv) =>
    by_cases hm : pv.tagClient = me
    · by_cases hk : pv.tagClientSeq = cs
      · have htag := h3 hm hk
        cases pv with
        | mk pval ptag ptc ptcs =>
          simp only at hm hk htag
          subst hm
          subst hk
          subst htag
          simp [maskProp, ackProp, hcs]
      · by_cases hK0 : pv.tagClientSeq ∈ K
        · have hp1 := maskProp_pos me (cs :: K) k0 pv ⟨hm, List.mem_cons_of_mem _ hK0⟩
          have hp2 := maskProp_pos me K k0 pv ⟨hm, hK0⟩
          rw [hp1, hp2]
          simp [ackProp, hk]
        · have hnin : pv.tagClientSeq ∉ cs :: K := by
            intro hmem
            rcases List.mem_cons.mp hmem with h | h
            · exact hk h
            · exact hK0 h
          have hp1 := maskProp_neg me (cs :: K) k0 pv (fun hmm => hnin hmm.2)
          have hp2 := maskProp_neg me K k0 pv (fun hmm => hK0 hmm.2)
          rw [hp1, hp2]
          simp [ackProp, hk]
    · have hp1 := maskProp_neg me (cs :: K) k0 pv (fun hmm => hm hmm.1)
      have hp2 := maskProp_neg me K k0 pv (fun hmm => hm hmm.1)
      rw [hp1, hp2]
      simp [ackProp, hm]

/-- Acknowledging the echo of a pending op unmasks exactly that op's
artifacts. -/
theorem ackItem_maskItem (me : Nat) (K : List Nat) (cs s : Nat)
    (hcs : cs ∉ K) (it : Item)
    (hart : ArtP (fun c' k' sq => c' = me → k' = cs → sq = some s) it) :
    ackItem me cs s (maskItem me (cs :: K) it) = maskItem me K it := by
  obtain ⟨h1, h2, h3⟩ := hart
  rw [maskItem_eq_mk me (cs :: K) it, ackItem_eq_mk, maskItem_eq_mk me K it]
  simp only [Item.mk.injEq, true_and]
  refine ⟨ackSeq_maskSeq me K cs s it.client it.clientSeq it.seq hcs h1, ?_, ?_⟩
  · apply ackRem_maskRem me K cs s it.rem hcs
    intro sq bc bcs cl hrem hbc hbcs
    rw [hrem] at h2
    exact h2 hbc hbcs
  · rw [List.map_map]
    apply List.map_congr_left
    intro kp hkp
    exact ackProp_maskProp me K cs s kp hcs (h3 kp hkp)

/-! Artifact predicate preservation. -/

theorem ArtP_mono {Q Q' : Nat → Nat → Option Nat → Prop}
    (h : ∀ c k sq, Q c k sq → Q' c k sq) (it : Item) (hit : ArtP Q it) : ArtP Q' it := by
  obtain ⟨h1, h2, h3⟩ := hit
  refine ⟨h _ _ _ h1, ?_, fun kp hkp => h _ _ _ (h3 kp hkp)⟩
  cases hrem : it.rem with
  | live => trivial
  | removed sq bc bcs cl =>
    rw [hrem] at h2
    exact h _ _ _ h2

theorem AllArt_mono {Q Q' : Nat → Nat → Option Nat → Prop}
    (h : ∀ c k sq, Q c k sq → Q' c k sq) (l : List Item) (hl : AllArt Q l) : AllArt Q' l :=
  fun it hit => ArtP_mono h it (hl it hit)

theorem ArtP_markRemoved {Q : Nat → Nat → Option Nat → Prop} (sv : Option Nat) (c cs : Nat)
    (it : Item) (hit : ArtP Q it) (hnew : Q c cs sv) : ArtP Q (markRemoved sv c cs it) := by
  obtain ⟨h1, h2, h3⟩ := hit
  cases hrem : it.rem with
  | live =>
    simp only [ArtP, markRemoved, hrem]
    exact ⟨h1, hnew, h3⟩
  | removed sq bc bcs cl =>
    rw [hrem] at h2
    by_cases hlt : ltOpt sv sq = true
    · simp only [ArtP, markRemoved, hrem, hlt, if_true]
      exact ⟨h1, hnew, h3⟩
    · simp only [ArtP, markRemoved, hrem, hlt, Bool.false_eq_true, if_false]
      exact ⟨h1, h2, h3⟩

theorem ArtP_annotateItem {Q : Nat → Nat → Option Nat → Prop} (sv : Option Nat) (c cs : Nat)
    (delta : List (Nat × Int)) (it : Item) (hit : ArtP Q it) (hnew : Q c cs sv) :
    ArtP Q (annotateItem sv c cs delta it) := by
  obtain ⟨h1, h2, h3⟩ := hit
  refine ⟨h1, h2, ?_⟩
  show ∀ kp ∈ delta.foldl (fun ps kv => updateProp sv c cs kv.1 kv.2 ps) it.props,
    Q kp.2.tagClient kp.2.tagClientSeq kp.2.tagSeq
  have main : ∀ (d : List (Nat × Int)) (ps : List (Nat × PropVal)),
      (∀ kp ∈ ps, Q kp.2.tagClient kp.2.tagClientSeq kp.2.tagSeq) →
      ∀ kp ∈ d.foldl (fun ps kv => updateProp sv c cs kv.1 kv.2 ps) ps,
      Q kp.2.tagClient kp.2.tagClientSeq kp.2.tagSeq := by
    intro d
    induction d with
    | nil => intro ps hps kp hkp; exact hps kp hkp
    | cons kv dt ih =>
      intro ps hps kp hkp
      refine ih (updateProp sv c cs kv.1 kv.2 ps) ?_ kp hkp
      intro kq hkq
      rcases mem_updateProp hkq with h | h
      · exact hps kq h
      · rw [h]
        exact hnew
  exact main delta it.props h3

theorem ArtP_mkItems {Q : Nat → Nat → Option Nat → Prop} (c cs : Nat) (sv : Option Nat)
    (content : List Nat) (pr : List (Nat × Int)) (hnew : Q c cs sv) :
    ∀ it ∈ mkItems c cs sv content pr, ArtP Q it := by
  intro it hit
  simp only [mkItems, List.mem_map] at hit
  obtain ⟨ch, _, hch⟩ := hit
  rw [← hch]
  refine ⟨hnew, trivial, ?_⟩
  intro kp hkp
  simp only [List.mem_map] at hkp
  obtain ⟨kv, _, hkv⟩ := hkp
  rw [← hkv]
  exact hnew

theorem forall₂_mem_right {α : Type} {R : α → α → Prop} {L L' : List α}
    (h : List.Forall₂ R L L') : ∀ y ∈ L', ∃ x ∈ L, R x y := by
  induction h with
  | nil => intro y hy; cases hy
  | @cons a b l₁ l₂ hab htail ih =>
    intro y hy
    rcases List.mem_cons.mp hy with h1 | h1
    · exact ⟨a, List.mem_cons_self a l₁, h1 ▸ hab⟩
    · obtain ⟨x, hx, hr⟩ := ih y h1
      exact ⟨x, List.mem_cons_of_mem a hx, hr⟩

theorem AllArt_markRange {Q : Nat → Nat → Option Nat → Prop} (c r : Nat) (f : Item → Item)
    (a b : Nat) (L : List Item) (hL : AllArt Q L)
    (hf : ∀ it ∈ L, ArtP Q it → ArtP Q (f it)) : AllArt Q (markRange c r f a b L) := by
  intro y hy
  obtain ⟨x, hx, hr⟩ := forall₂_mem_right (markRange_rel c r f a b L) y hy
  rcases hr with h1 | h1
  · rw [h1]; exact hL x hx
  · rw [h1]; exact hf x hx (hL x hx)

theorem AllArt_insertAt {Q : Nat → Nat → Option Nat → Prop} (i : Nat) (B L : List Item)
    (hL : AllArt Q L) (hB : ∀ x ∈ B, ArtP Q x) : AllArt Q (insertAt i B L) := by
  intro y hy
  unfold insertAt at hy
  rcases List.mem_append.mp hy with h1 | h1
  · rcases List.mem_append.mp h1 with h2 | h2
    · exact hL y (List.take_subset i L h2)
    · exact hB y h2
  · exact hL y (List.drop_subset i L h1)

theorem AllArt_applyBasic {Q : Nat → Nat → Option Nat → Prop} (sv : Option Nat)
    (c cs r s : Nat) (op : BasicOp) (T : List Item) (hT : AllArt Q T)
    (hnew : Q c cs sv) : AllArt Q (applyBasic sv c cs r s op T) := by
  cases op with
  | ins pos content pr =>
    exact AllArt_insertAt _ _ _ hT (ArtP_mkItems c cs sv content pr hnew)
  | del a b =>
    exact AllArt_markRange c r _ a b T hT
      (fun it _ hit => ArtP_markRemoved sv c cs it hit hnew)
  | ann a b delta =>
    exact AllArt_markRange c r _ a b T hT
      (fun it _ hit => ArtP_annotateItem sv c cs delta it hit hnew)

theorem AllArt_foldl_applyBasic {Q : Nat → Nat → Option Nat → Prop} (sv : Option Nat)
    (c cs r s : Nat) (ops : List BasicOp) (T : List Item) (hT : AllArt Q T)
    (hnew : Q c cs sv) :
    AllArt Q (ops.foldl (fun acc op => applyBasic sv c cs r s op acc) T) := by
  induction ops generalizing T with
  | nil => exact hT
  | cons op rest ih =>
    exact ih (applyBasic sv c cs r s op T) (AllArt_applyBasic sv c cs r s op T hT hnew)

theorem AllArt_applyMsg {Q : Nat → Nat → Option Nat → Prop} (m : SeqMsg) (T : List Item)
    (hT : AllArt Q T) (hnew : Q m.client m.clientSeq (some m.seq)) :
    AllArt Q (applyMsg m T) :=
  AllArt_foldl_applyBasic (some m.seq) m.client m.clientSeq m.refSeq m.seq m.ops T hT hnew

theorem forall₂_map_self_left {α : Type} (g : α → α) (P : α → α → Prop) (L : List α)
    (h : ∀ x ∈ L, P (g x) x) : List.Forall₂ P (L.map g) L := by
  induction L with
  | nil => exact List.Forall₂.nil
  | cons a t ih =>
    exact List.Forall₂.cons (h a (List.mem_cons_self a t))
      (ih (fun x hx => h x (List.mem_cons_of_mem a hx)))

/-- A remote op's scans cannot see through the mask: every masked artifact
was sequenced after the op. -/
theorem scanEq_maskItem_remote (me : Nat) (K : List Nat) (c r s : Nat)
    (hr : r < s) (it : Item)
    (hart : ArtP (fun c' k' sq => c' = me → k' ∈ K → ∃ t, sq = some t ∧ s < t) it) :
    ScanEq c r s (maskItem me K it) it := by
  obtain ⟨h1, h2, h3⟩ := hart
  rw [maskItem_eq_mk]
  constructor
  · show posVisible c r ⟨it.ch, it.client, it.clientSeq, _, _, _⟩ = posVisible c r it
    unfold posVisible insVisible remVisible
    have hseq : (match maskSeq me K it.client it.clientSeq it.seq with
        | some s0 => decide (s0 ≤ r)
        | none => false)
        = (match it.seq with
        | some s0 => decide (s0 ≤ r)
        | none => false) := by
      unfold maskSeq
      by_cases hm : it.client = me ∧ it.clientSeq ∈ K
      · obtain ⟨t, hsq, hst⟩ := h1 hm.1 hm.2
        rw [hsq]
        simp [hm.1, hm.2]
        omega
      · simp [hm]
    have hrem : (match maskRem me K it.rem with
        | RemState.live => false
        | RemState.removed bySeq _ _ clients =>
            clients.contains c ||
              (match bySeq with
               | some t => decide (t ≤ r)
               | none => false))
        = (match it.rem with
        | RemState.live => false
        | RemState.removed bySeq _ _ clients =>
            clients.contains c ||
              (match bySeq with
               | some t => decide (t ≤ r)
               | none => false)) := by
      cases hre : it.rem with
      | live => rfl
      | removed sqm bc bcs cl =>
        rw [hre] at h2
        unfold maskRem
        by_cases hm : bc = me ∧ bcs ∈ K
        · obtain ⟨t, hsq, hst⟩ := h2 hm.1 hm.2
          rw [hsq]
          simp [hm.1, hm.2]
          omega
        · simp [hm]
    rw [hseq, hrem]
  · show skipQual c s ⟨it.ch, it.client, it.clientSeq, _, _, _⟩ = skipQual c s it
    unfold skipQual
    have hseq : (match maskSeq me K it.client it.clientSeq it.seq with
        | some s0 => decide (s0 < s)
        | none => false)
        = (match it.seq with
        | some s0 => decide (s0 < s)
        | none => false) := by
      unfold maskSeq
      by_cases hm : it.client = me ∧ it.clientSeq ∈ K
      · obtain ⟨t, hsq, hst⟩ := h1 hm.1 hm.2
        rw [hsq]
        simp [hm.1, hm.2]
        omega
      · simp [hm]
    rw [hseq]

/-- One's own optimistic scan at reference point n agrees with the canonical
scan of the sequenced op through the mask. -/
theorem scanEq2_maskItem_own (me : Nat) (K : List Nat) (n s1 s2 : Nat)
    (hs1 : n < s1) (hs2 : n < s2) (it : Item)
    (hart : ArtP (fun c' k' sq =>
      (c' = me → k' ∈ K → ∃ t, sq = some t ∧ n < t)
      ∧ (c' ≠ me → ∃ t, sq = some t ∧ t ≤ n)) it) :
    ScanEq2 me n s1 s2 (maskItem me K it) it := by
  obtain ⟨h1, h2, h3⟩ := hart
  rw [maskItem_eq_mk]
  constructor
  · show posVisible me n ⟨it.ch, it.client, it.clientSeq, _, _, _⟩ = posVisible me n it
    unfold posVisible insVisible remVisible
    have hseq : (it.client == me ||
        (match maskSeq me K it.client it.clientSeq it.seq with
        | some s0 => decide (s0 ≤ n)
        | none => false))
        = (it.client == me ||
        (match it.seq with
        | some s0 => decide (s0 ≤ n)
        | none => false)) := by
      unfold maskSeq
      by_cases hm : it.client = me ∧ it.clientSeq ∈ K
      · simp [hm.1]
      · simp [hm]
    have hrem : (match maskRem me K it.rem with
        | RemState.live => false
        | RemState.removed bySeq _ _ clients =>
            clients.contains me ||
              (match bySeq with
               | some t => decide (t ≤ n)
               | none => false))
        = (match it.rem with
        | RemState.live => false
        | RemState.removed bySeq _ _ clients =>
            clients.contains me ||
              (match bySeq with
               | some t => decide (t ≤ n)
               | none => false)) := by
      cases hre : it.rem with
      | live => rfl
      | removed sqm bc bcs cl =>
        rw [hre] at h2
        unfold maskRem
        by_cases hm : bc = me ∧ bcs ∈ K
        · obtain ⟨t, hsq, hst⟩ := (h2.1) hm.1 hm.2
          rw [hsq]
          simp [hm.1, hm.2]
          omega
        · simp [hm]
    rw [show (⟨it.ch, it.client, it.clientSeq, maskSeq me K it.client it.clientSeq it.seq,
      maskRem me K it.rem, it.props.map (maskProp me K)⟩ : Item).client = it.client from rfl]
    rw [hseq, hrem]
  · show skipQual me s1 ⟨it.ch, it.client, it.clientSeq, _, _, _⟩ = skipQual me s2 it
    unfold skipQual
    by_cases hme : it.client = me
    · simp [hme]
    · have hnomask : maskSeq me K it.client it.clientSeq it.seq = it.seq := by
        unfold maskSeq
        simp [hme]
      obtain ⟨t, hsq, hst⟩ := h1.2 hme
      rw [show (⟨it.ch, it.client, it.clientSeq, maskSeq me K it.client it.clientSeq it.seq,
        maskRem me K it.rem, it.props.map (maskProp me K)⟩ : Item).client = it.client from rfl]
      rw [show (⟨it.ch, it.client, it.clientSeq, maskSeq me K it.client it.clientSeq it.seq,
        maskRem me K it.rem, it.props.map (maskProp me K)⟩ : Item).seq
        = maskSeq me K it.client it.clientSeq it.seq from rfl]
      rw [hnomask, hsq]
      have e1 : decide (t < s1) = true := by simp; omega
      have e2 : decide (t < s2) = true := by simp; omega
      simp only [e1, e2]

/-- Remote application commutes with the mask, one basic op at a time. -/
theorem applyBasic_mask_remote (me : Nat) (K : List Nat) (c cs r s : Nat)
    (hc : c ≠ me) (hr : r < s) (op : BasicOp) (T : List Item)
    (hart : AllArt (fun c' k' sq => c' = me → k' ∈ K → ∃ t, sq = some t ∧ s < t) T) :
    applyBasic (some s) c cs r s op (maskList me K T)
      = maskList me K (applyBasic (some s) c cs r s op T) := by
  have hscan : ∀ x ∈ T, ScanEq c r s (maskItem me K x) x :=
    fun x hx => scanEq_maskItem_remote me K c r s hr x (hart x hx)
  cases op with
  | ins pos content pr =>
    have hidx : insIdx c r s pos (maskList me K T) = insIdx c r s pos T :=
      insIdx_congr (forall₂_map_self_left (maskItem me K) (ScanEq c r s) T hscan) pos
    show insertAt (insIdx c r s pos (maskList me K T)) (mkItems c cs (some s) content pr)
        (maskList me K T)
      = maskList me K (insertAt (insIdx c r s pos T) (mkItems c cs (some s) content pr) T)
    rw [hidx, maskList_insertAt, maskList_mkItems_remote me K c cs hc]
  | del a b =>
    show markRange c r (markRemoved (some s) c cs) a b (maskList me K T)
      = maskList me K (markRange c r (markRemoved (some s) c cs) a b T)
    unfold maskList
    apply markRange_map_comm c r _ _ (maskItem me K) T a b
    · intro it hit
      exact (hscan it hit).1
    · intro it hit
      apply maskItem_markRemoved_remote me K s c cs hc it
      intro sq bc bcs cl hrem hbc hbcs
      have h2 := (hart it hit).2.1
      rw [hrem] at h2
      exact h2 hbc (by simpa [List.contains] using hbcs)
  | ann a b delta =>
    show markRange c r (annotateItem (some s) c cs delta) a b (maskList me K T)
      = maskList me K (markRange c r (annotateItem (some s) c cs delta) a b T)
    unfold maskList
    apply markRange_map_comm c r _ _ (maskItem me K) T a b
    · intro it hit
      exact (hscan it hit).1
    · intro it hit
      apply maskItem_annotate_remote me K s c cs delta hc it
      intro kp hkp htc hts
      exact (hart it hit).2.2 kp hkp htc hts

theorem foldl_applyBasic_mask_remote (me : Nat) (K : List Nat) (c cs r s : Nat)
    (hc : c ≠ me) (hr : r < s) (ops : List BasicOp) :
    ∀ (T : List Item),
    AllArt (fun c' k' sq => c' = me → k' ∈ K → ∃ t, sq = some t ∧ s < t) T →
    ops.foldl (fun acc op => applyBasic (some s) c cs r s op acc) (maskList me K T)
      = maskList me K (ops.foldl (fun acc op => applyBasic (some s) c cs r s op acc) T) := by
  induction ops with
  | nil => intro T _; rfl
  | cons op rest ih =>
    intro T hart
    simp only [List.foldl_cons]
    rw [applyBasic_mask_remote me K c cs r s hc hr op T hart]
    exact ih (applyBasic (some s) c cs r s op T)
      (AllArt_applyBasic _ _ _ _ _ op T hart (fun hcc _ => absurd hcc hc))

/-- Remote application of a whole message commutes with the mask. -/
theorem applyMsg_mask_remote (me : Nat) (K : List Nat) (m : SeqMsg) (T : List Item)
    (hc : m.client ≠ me) (hr : m.refSeq < m.seq)
    (hart : AllArt (fun c' k' sq => c' = me → k' ∈ K →
      ∃ t, sq = some t ∧ m.seq < t) T) :
    applyMsg m (maskList me K T) = maskList me K (applyMsg m T) :=
  foldl_applyBasic_mask_remote me K m.client m.clientSeq m.refSeq m.seq hc hr m.ops T hart

/-- The artifact condition for matching one's own optimistic application at
reference point n against the sequenced application with sequence number s',
through a mask over the pending set K. -/
def OwnCond (me : Nat) (K : List Nat) (n s' : Nat) (c' k' : Nat) (sq : Option Nat) : Prop :=
  (c' = me → k' ∈ K → ∃ t, sq = some t ∧ n < t)
  ∧ (c' ≠ me → ∃ t, sq = some t ∧ t ≤ n)
  ∧ (∃ t, sq = some t ∧ t ≤ s')

/-- One's own optimistic application commutes with the mask, one basic op at
a time. -/
theorem applyBasic_mask_own (me : Nat) (K : List Nat) (cs n s' : Nat)
    (hK : cs ∈ K) (hn : n < s') (op : BasicOp) (T : List Item)
    (hart : AllArt (OwnCond me K n s') T) :
    applyBasic none me cs n (n + 1) op (maskList me K T)
      = maskList me K (applyBasic (some s') me cs n s' op T) := by
  have hscan : ∀ x ∈ T, ScanEq2 me n (n + 1) s' (maskItem me K x) x := by
    intro x hx
    apply scanEq2_maskItem_own me K n (n + 1) s' (by omega) hn x
    exact ArtP_mono (fun c' k' sq hq => ⟨hq.1, hq.2.1⟩) x (hart x hx)
  have hKc : K.contains cs = true := by simpa [List.contains] using hK
  cases op with
  | ins pos content pr =>
    have hidx : insIdx me n (n + 1) pos (maskList me K T) = insIdx me n s' pos T :=
      insIdx_congr2 (forall₂_map_self_left (maskItem me K) (ScanEq2 me n (n + 1) s') T hscan) pos
    show insertAt (insIdx me n (n + 1) pos (maskList me K T)) (mkItems me cs none content pr)
        (maskList me K T)
      = maskList me K (insertAt (insIdx me n s' pos T) (mkItems me cs (some s') content pr) T)
    rw [hidx, maskList_insertAt, maskList_mkItems_own me K cs s' hKc]
  | del a b =>
    show markRange me n (markRemoved none me cs) a b (maskList me K T)
      = maskList me K (markRange me n (markRemoved (some s') me cs) a b T)
    unfold maskList
    apply markRange_map_comm me n _ _ (maskItem me K) T a b
    · intro it hit
      exact (hscan it hit).1
    · intro it hit
      apply maskItem_markRemoved_own me K s' cs hK it
      intro sq bc bcs cl hrem
      have h2 := (hart it hit).2
      have h2' : OwnCond me K n s' bc bcs sq := by
        have := (hart it hit)
        obtain ⟨g1, g2, g3⟩ := this
        rw [hrem] at g2
        exact g2
      exact h2'.2.2
  | ann a b delta =>
    show markRange me n (annotateItem none me cs delta) a b (maskList me K T)
      = maskList me K (markRange me n (annotateItem (some s') me cs delta) a b T)
    unfold maskList
    apply markRange_map_comm me n _ _ (maskItem me K) T a b
    · intro it hit
      exact (hscan it hit).1
    · intro it hit
      apply maskItem_annotate_own me K s' cs delta hK it
      intro kp hkp
      exact ((hart it hit).2.2 kp hkp).2.2

theorem applyLocal_mask (me : Nat) (K : List Nat) (cs n s' : Nat)
    (hK : cs ∈ K) (hn : n < s') (ops : List BasicOp) :
    ∀ (T : List Item), AllArt (OwnCond me K n s') T →
    applyLocal me n cs ops (maskList me K T)
      = maskList me K (ops.foldl (fun acc op => applyBasic (some s') me cs n s' op acc) T) := by
  intro T hT
  show ops.foldl (fun acc op => applyBasic none me cs n (n + 1) op acc) (maskList me K T) = _
  induction ops generalizing T with
  | nil => rfl
  | cons op rest ih =>
    simp only [List.foldl_cons]
    rw [applyBasic_mask_own me K cs n s' hK hn op T hT]
    apply ih (applyBasic (some s') me cs n s' op T)
    apply AllArt_applyBasic _ _ _ _ _ op T hT
    refine ⟨fun _ _ => ⟨s', rfl, hn⟩, fun hne => absurd rfl hne, s', rfl, le_refl s'⟩

/-- Masking over a client sequence number that tags no artifact is inert. -/
theorem maskItem_fresh (me cs : Nat) (K : List Nat) (it : Item)
    (hfresh : ArtP (fun c' k' _ => ¬(c' = me ∧ k' = cs)) it) :
    maskItem me (cs :: K) it = maskItem me K it := by
  obtain ⟨h1, h2, h3⟩ := hfresh
  rw [maskItem_eq_mk, maskItem_eq_mk]
  simp only [Item.mk.injEq, true_and]
  refine ⟨?_, ?_, ?_⟩
  · unfold maskSeq
    by_cases hm : it.client = me
    · have hne : it.clientSeq ≠ cs := fun hh => h1 ⟨hm, hh⟩
      simp [hm, hne, List.contains_cons]
    · simp [hm]
  · cases hre : it.rem with
    | live => rfl
    | removed sqm bc bcs cl =>
      rw [hre] at h2
      unfold maskRem
      by_cases hm : bc = me
      · have hne : bcs ≠ cs := fun hh => h2 ⟨hm, hh⟩
        simp [hm, hne, List.contains_cons]
      · simp [hm]
  · apply List.map_congr_left
    intro kp hkp
    have hk := h3 kp hkp
    unfold maskProp
    by_cases hm : kp.2.tagClient = me
    · have hne : kp.2.tagClientSeq ≠ cs := fun hh => hk ⟨hm, hh⟩
      simp [hm, hne, List.contains_cons]
    · simp [hm]

theorem maskList_fresh (me cs : Nat) (K : List Nat) (T : List Item)
    (hfresh : AllArt (fun c' k' _ => ¬(c' = me ∧ k' = cs)) T) :
    maskList me (cs :: K) T = maskList me K T :=
  List.map_congr_left (fun it hit => maskItem_fresh me cs K it (hfresh it hit))

/-- Issuing one of one's own messages optimistically, on the masked state,
equals the masked canonical application of the sequenced message, with the
message's client sequence number joining the pending set. -/
theorem applyLocal_mask_msg (me : Nat) (K : List Nat) (cs n s' : Nat)
    (ops : List BasicOp) (T : List Item) (hn : n < s')
    (hfresh : AllArt (fun c' k' _ => ¬(c' = me ∧ k' = cs)) T)
    (hart : AllArt (OwnCond me (cs :: K) n s') T) :
    applyLocal me n cs ops (maskList me K T)
      = maskList me (cs :: K) (applyMsg ⟨s', me, cs, n, ops⟩ T) := by
  rw [← maskList_fresh me cs K T hfresh]
  exact applyLocal_mask me (cs :: K) cs n s' (List.mem_cons_self cs K) hn ops T hart

/-- Acknowledging one's own echoed message unmasks exactly its artifacts. -/
theorem ackMsg_maskList (me : Nat) (K : List Nat) (m : SeqMsg) (T : List Item)
    (hcs : m.clientSeq ∉ K)
    (hart : AllArt (fun c' k' sq => c' = me → k' = m.clientSeq → sq = some m.seq) T) :
    ackMsg me m (maskList me (m.clientSeq :: K) T) = maskList me K T := by
  unfold ackMsg maskList
  rw [List.map_map]
  apply List.map_congr_left
  intro it hit
  exact ackItem_maskItem me K m.clientSeq m.seq hcs it (hart it hit)

/-! Pointwise commutation of concurrent marks. -/

theorem insClient_comm (a b : Nat) (l : List Nat) :
    insClient a (insClient b l) = insClient b (insClient a l) := by
  induction l with
  | nil =>
    by_cases hab : a < b
    · simp [insClient, hab, Nat.lt_asymm hab, Nat.ne_of_lt hab, (Nat.ne_of_lt hab).symm]
    · by_cases heq : a = b
      · rw [heq]
      · have hba : b < a := by omega
        simp [insClient, hba, Nat.lt_asymm hba, heq, (Ne.symm heq)]
  | cons x t ih =>
    by_cases hax : a < x <;> by_cases hbx : b < x
    · by_cases hab : a < b
      · simp [insClient, hax, hbx, hab, Nat.lt_asymm hab, Nat.ne_of_lt hab,
          (Nat.ne_of_lt hab).symm]
      · by_cases heq : a = b
        · rw [heq]
        · have hba : b < a := by omega
          simp [insClient, hax, hbx, hba, Nat.lt_asymm hba, heq, Ne.symm heq]
    · -- a < x ≤ b
      have hab : a < b := by omega
      by_cases hbe : b = x
      · simp [insClient, hax, hbx, hbe, hab, Nat.lt_asymm hab, Nat.ne_of_lt hab,
          Nat.lt_asymm hax]
      · simp [insClient, hax, hbx, hbe, hab, Nat.lt_asymm hab, Nat.ne_of_lt hab,
          (Nat.ne_of_lt hab).symm]
    · -- b < x ≤ a
      have hba : b < a := by omega
      by_cases hae : a = x
      · simp [insClient, hax, hbx, hae, hba, Nat.lt_asymm hba, Nat.ne_of_lt hba,
          Nat.lt_asymm hbx]
      · simp [insClient, hax, hbx, hae, hba, Nat.lt_asymm hba, Nat.ne_of_lt hba,
          (Nat.ne_of_lt hba).symm]
    · -- x ≤ a, x ≤ b
      by_cases hae : a = x <;> by_cases hbe : b = x
      · rw [hae, hbe]
      · simp [insClient, hax, hbx, hae, hbe]
      · simp [insClient, hax, hbx, hae, hbe]
      · simp [insClient, hax, hbx, hae, hbe, ih]

/-- The removal-state part of markRemoved. -/
def markRem (sv : Option Nat) (c cs : Nat) : RemState → RemState
  | RemState.live => RemState.removed sv c cs [c]
  | RemState.removed old c0 k0 cl =>
      if ltOpt sv old then RemState.removed sv c cs (insClient c cl)
      else RemState.removed old c0 k0 (insClient c cl)

theorem markRemoved_eq_mk (sv : Option Nat) (c cs : Nat) (it : Item) :
    markRemoved sv c cs it = { it with rem := markRem sv c cs it.rem } := by
  cases hrem : it.rem with
  | live => simp [markRemoved, markRem, hrem]
  | removed old c0 k0 cl =>
    simp only [markRemoved, markRem, hrem]
    split_ifs <;> rfl

theorem singleton_eq_insClient (c : Nat) : [c] = insClient c [] := rfl

theorem markRem_comm (s1 c1 k1 s2 c2 k2 : Nat) (hs : s1 ≠ s2) (rs : RemState) :
    markRem (some s1) c1 k1 (markRem (some s2) c2 k2 rs)
      = markRem (some s2) c2 k2 (markRem (some s1) c1 k1 rs) := by
  have hins := insClient_comm c1 c2
  cases rs with
  | live =>
    by_cases h12 : s1 < s2
    · have e1 : ltOpt (some s1) (some s2) = true := by simp [ltOpt]; omega
      have e2 : ltOpt (some s2) (some s1) = false := by simp [ltOpt]; omega
      simp only [markRem, e1, e2, if_true, Bool.false_eq_true, if_false,
        RemState.removed.injEq]
      refine ⟨trivial, trivial, trivial, ?_⟩
      rw [singleton_eq_insClient c2, singleton_eq_insClient c1, hins]
    · have h21 : s2 < s1 := by omega
      have e1 : ltOpt (some s1) (some s2) = false := by simp [ltOpt]; omega
      have e2 : ltOpt (some s2) (some s1) = true := by simp [ltOpt]; omega
      simp only [markRem, e1, e2, if_true, Bool.false_eq_true, if_false,
        RemState.removed.injEq]
      refine ⟨trivial, trivial, trivial, ?_⟩
      rw [singleton_eq_insClient c2, singleton_eq_insClient c1, hins]
  | removed old c0 k0 cl =>
    cases old with
    | none =>
      have e1 : ltOpt (some s1) none = true := rfl
      have e2 : ltOpt (some s2) none = true := rfl
      by_cases h12 : s1 < s2
      · have f1 : ltOpt (some s1) (some s2) = true := by simp [ltOpt]; omega
        have f2 : ltOpt (some s2) (some s1) = false := by simp [ltOpt]; omega
        simp only [markRem, e1, e2, f1, f2, if_true, Bool.false_eq_true, if_false,
          RemState.removed.injEq]
        exact ⟨trivial, trivial, trivial, hins cl⟩
      · have f1 : ltOpt (some s1) (some s2) = false := by simp [ltOpt]; omega
        have f2 : ltOpt (some s2) (some s1) = true := by simp [ltOpt]; omega
        simp only [markRem, e1, e2, f1, f2, if_true, Bool.false_eq_true, if_false,
          RemState.removed.injEq]
        exact ⟨trivial, trivial, trivial, hins cl⟩
    | some t =>
      by_cases g1 : s1 < t <;> by_cases g2 : s2 < t
      · -- both overwrite: the smaller wins
        have e1 : ltOpt (some s1) (some t) = true := by simp [ltOpt]; omega
        have e2 : ltOpt (some s2) (some t) = true := by simp [ltOpt]; omega
        by_cases h12 : s1 < s2
        · have f1 : ltOpt (some s1) (some s2) = true := by simp [ltOpt]; omega
          have f2 : ltOpt (some s2) (some s1) = false := by simp [ltOpt]; omega
          simp only [markRem, e1, e2, f1, f2, if_true, Bool.false_eq_true, if_false,
            RemState.removed.injEq]
          exact ⟨trivial, trivial, trivial, hins cl⟩
        · have f1 : ltOpt (some s1) (some s2) = false := by simp [ltOpt]; omega
          have f2 : ltOpt (some s2) (some s1) = true := by simp [ltOpt]; omega
          simp only [markRem, e1, e2, f1, f2, if_true, Bool.false_eq_true, if_false,
            RemState.removed.injEq]
          exact ⟨trivial, trivial, trivial, hins cl⟩
      · -- only the first overwrites
        have e1 : ltOpt (some s1) (some t) = true := by simp [ltOpt]; omega
        have e2 : ltOpt (some s2) (some t) = false := by simp [ltOpt]; omega
        have f2 : ltOpt (some s2) (some s1) = false := by simp [ltOpt]; omega
        simp only [markRem, e1, e2, f2, if_true, Bool.false_eq_true, if_false,
          RemState.removed.injEq]
        exact ⟨trivial, trivial, trivial, hins cl⟩
      · -- only the second overwrites
        have e1 : ltOpt (some s1) (some t) = false := by simp [ltOpt]; omega
        have e2 : ltOpt (some s2) (some t) = true := by simp [ltOpt]; omega
        have f1 : ltOpt (some s1) (some s2) = false := by simp [ltOpt]; omega
        simp only [markRem, e1, e2, f1, if_true, Bool.false_eq_true, if_false,
          RemState.removed.injEq]
        exact ⟨trivial, trivial, trivial, hins cl⟩
      · -- neither overwrites
        have e1 : ltOpt (some s1) (some t) = false := by simp [ltOpt]; omega
        have e2 : ltOpt (some s2) (some t) = false := by simp [ltOpt]; omega
        simp only [markRem, e1, e2, Bool.false_eq_true, if_false,
          RemState.removed.injEq]
        exact ⟨trivial, trivial, trivial, hins cl⟩

theorem markRemoved_comm (s1 c1 k1 s2 c2 k2 : Nat) (hs : s1 ≠ s2) (it : Item) :
    markRemoved (some s1) c1 k1 (markRemoved (some s2) c2 k2 it)
      = markRemoved (some s2) c2 k2 (markRemoved (some s1) c1 k1 it) := by
  rw [markRemoved_eq_mk, markRemoved_eq_mk, markRemoved_eq_mk, markRemoved_eq_mk]
  show ({ it with rem := markRem (some s1) c1 k1 (markRem (some s2) c2 k2 it.rem) } : Item) = _
  rw [markRem_comm s1 c1 k1 s2 c2 k2 hs it.rem]

theorem markRemoved_annotate_comm (sv : Option Nat) (c cs : Nat) (tv : Option Nat)
    (tc tcs : Nat) (delta : List (Nat × Int)) (it : Item) :
    markRemoved sv c cs (annotateItem tv tc tcs delta it)
      = annotateItem tv tc tcs delta (markRemoved sv c cs it) := by
  rw [markRemoved_eq_mk, markRemoved_eq_mk]
  unfold annotateItem
  rfl

theorem updateProp_comm (s1 s2 : Nat) (c1 k1 c2 k2 ka kb : Nat) (va vb : Int)
    (hs : s1 ≠ s2) (ps : List (Nat × PropVal)) :
    updateProp (some s1) c1 k1 ka va (updateProp (some s2) c2 k2 kb vb ps)
      = updateProp (some s2) c2 k2 kb vb (updateProp (some s1) c1 k1 ka va ps) := by
  by_cases hk : ka = kb
  · subst hk
    -- same key: the later writer wins in either order
    have key : ∀ (pv : PropVal) (rest : List (Nat × PropVal)),
        updateProp (some s1) c1 k1 ka va ((ka, pv) :: rest)
          = (if geOpt (some s1) pv.tagSeq then (ka, ⟨va, some s1, c1, k1⟩) else (ka, pv)) :: rest := by
      intro pv rest
      simp only [updateProp, lt_irrefl, if_false, if_pos rfl]
      split_ifs <;> rfl
    have key2 : ∀ (pv : PropVal) (rest : List (Nat × PropVal)),
        updateProp (some s2) c2 k2 ka vb ((ka, pv) :: rest)
          = (if geOpt (some s2) pv.tagSeq then (ka, ⟨vb, some s2, c2, k2⟩) else (ka, pv)) :: rest := by
      intro pv rest
      simp only [updateProp, lt_irrefl, if_false, if_pos rfl]
      split_ifs <;> rfl
    induction ps with
    | nil =>
      show updateProp (some s1) c1 k1 ka va [(ka, ⟨vb, some s2, c2, k2⟩)]
        = updateProp (some s2) c2 k2 ka vb [(ka, ⟨va, some s1, c1, k1⟩)]
      rw [key, key2]
      by_cases h12 : s1 < s2
      · have e1 : geOpt (some s1) (some s2) = false := by simp [geOpt]; omega
        have e2 : geOpt (some s2) (some s1) = true := by simp [geOpt]; omega
        simp [e1, e2]
      · have e1 : geOpt (some s1) (some s2) = true := by simp [geOpt]; omega
        have e2 : geOpt (some s2) (some s1) = false := by simp [geOpt]; omega
        simp [e1, e2]
    | cons hd tl ih =>
      match hd with
      | (k0, pv) =>
        by_cases hlt : ka < k0
        · have step1 : updateProp (some s2) c2 k2 ka vb ((k0, pv) :: tl)
              = (ka, ⟨vb, some s2, c2, k2⟩) :: (k0, pv) :: tl := by
            simp only [updateProp, if_pos hlt]
          have step2 : updateProp (some s1) c1 k1 ka va ((k0, pv) :: tl)
              = (ka, ⟨va, some s1, c1, k1⟩) :: (k0, pv) :: tl := by
            simp only [updateProp, if_pos hlt]
          rw [step1, step2, key, key2]
          by_cases h12 : s1 < s2
          · have e1 : geOpt (some s1) (some s2) = false := by simp [geOpt]; omega
            have e2 : geOpt (some s2) (some s1) = true := by simp [geOpt]; omega
            simp [e1, e2]
          · have e1 : geOpt (some s1) (some s2) = true := by simp [geOpt]; omega
            have e2 : geOpt (some s2) (some s1) = false := by simp [geOpt]; omega
            simp [e1, e2]
        · by_cases heq : k0 = ka
          · subst heq
            rw [key2, key]
            by_cases g2 : geOpt (some s2) pv.tagSeq = true
            · rw [if_pos g2, key]
              by_cases g1 : geOpt (some s1) pv.tagSeq = true
              · rw [if_pos g1, key2]
                by_cases h12 : s1 < s2
                · have e1 : geOpt (some s1) (some s2) = false := by simp [geOpt]; omega
                  have e2 : geOpt (some s2) (some s1) = true := by simp [geOpt]; omega
                  simp [e1, e2]
                · have e1 : geOpt (some s1) (some s2) = true := by simp [geOpt]; omega
                  have e2 : geOpt (some s2) (some s1) = false := by simp [geOpt]; omega
                  simp [e1, e2]
              · rw [if_neg g1, key2, if_pos g2]
                have ht : ∃ t, pv.tagSeq = some t ∧ s1 < t ∧ t ≤ s2 := by
                  cases htag : pv.tagSeq with
                  | none => rw [htag] at g2; exact absurd g2 (by simp [geOpt])
                  | some t =>
                    rw [htag] at g1 g2
                    simp [geOpt] at g1 g2
                    exact ⟨t, rfl, g1, g2⟩
                obtain ⟨t, htag, hst, hts⟩ := ht
                have e1 : geOpt (some s1) (some s2) = false := by simp [geOpt]; omega
                simp [e1]
            · rw [if_neg g2, key]
              by_cases g1 : geOpt (some s1) pv.tagSeq = true
              · rw [if_pos g1, key2]
                have ht : ∃ t, pv.tagSeq = some t ∧ s2 < t ∧ t ≤ s1 := by
                  cases htag : pv.tagSeq with
                  | none => rw [htag] at g1; exact absurd g1 (by simp [geOpt])
                  | some t =>
                    rw [htag] at g1 g2
                    simp [geOpt] at g1 g2
                    exact ⟨t, rfl, g2, g1⟩
                obtain ⟨t, htag, hst, hts⟩ := ht
                have e2 : geOpt (some s2) (some s1) = false := by simp [geOpt]; omega
                simp [e2]
              · rw [if_neg g1, key2, if_neg g2]
          · have step : ∀ (v : Int) (sv : Option Nat) (c k : Nat) (rest : List (Nat × PropVal)),
                updateProp sv c k ka v ((k0, pv) :: rest)
                  = (k0, pv) :: updateProp sv c k ka v rest := by
              intro v sv c k rest
              simp only [updateProp, if_neg hlt, if_neg heq]
            rw [step, step, step, step, ih]
  · -- different keys
    induction ps with
    | nil =>
      by_cases hab : ka < kb
      · have e1 : updateProp (some s2) c2 k2 kb vb ([] : List (Nat × PropVal))
            = [(kb, ⟨vb, some s2, c2, k2⟩)] := rfl
        have e2 : updateProp (some s1) c1 k1 ka va ([] : List (Nat × PropVal))
            = [(ka, ⟨va, some s1, c1, k1⟩)] := rfl
        rw [e1, e2]
        have s1' : updateProp (some s1) c1 k1 ka va [(kb, ⟨vb, some s2, c2, k2⟩)]
            = [(ka, ⟨va, some s1, c1, k1⟩), (kb, ⟨vb, some s2, c2, k2⟩)] := by
          simp only [updateProp, if_pos hab]
        have s2' : updateProp (some s2) c2 k2 kb vb [(ka, ⟨va, some s1, c1, k1⟩)]
            = [(ka, ⟨va, some s1, c1, k1⟩), (kb, ⟨vb, some s2, c2, k2⟩)] := by
          have h1 : ¬ kb < ka := by omega
          have h2 : ¬ ka = kb := hk
          simp only [updateProp, if_neg h1, if_neg h2]
        rw [s1', s2']
      · have hba : kb < ka := by omega
        have e1 : updateProp (some s2) c2 k2 kb vb ([] : List (Nat × PropVal))
            = [(kb, ⟨vb, some s2, c2, k2⟩)] := rfl
        have e2 : updateProp (some s1) c1 k1 ka va ([] : List (Nat × PropVal))
            = [(ka, ⟨va, some s1, c1, k1⟩)] := rfl
        rw [e1, e2]
        have s1' : updateProp (some s1) c1 k1 ka va [(kb, ⟨vb, some s2, c2, k2⟩)]
            = [(kb, ⟨vb, some s2, c2, k2⟩), (ka, ⟨va, some s1, c1, k1⟩)] := by
          have h1 : ¬ ka < kb := by omega
          have h2 : ¬ kb = ka := fun hh => hk hh.symm
          simp only [updateProp, if_neg h1, if_neg h2]
        have s2' : updateProp (some s2) c2 k2 kb vb [(ka, ⟨va, some s1, c1, k1⟩)]
            = [(kb, ⟨vb, some s2, c2, k2⟩), (ka, ⟨va, some s1, c1, k1⟩)] := by
          simp only [updateProp, if_pos hba]
        rw [s1', s2']
    | cons hd tl ih =>
      match hd with
      | (k0, pv) =>
        rcases Nat.lt_trichotomy ka k0 with ha | ha | ha
        · rcases Nat.lt_trichotomy kb k0 with hb | hb | hb
          · -- both insert before k0: order by ka vs kb
            have sa : updateProp (some s1) c1 k1 ka va ((k0, pv) :: tl)
                = (ka, ⟨va, some s1, c1, k1⟩) :: (k0, pv) :: tl := by
              simp only [updateProp, if_pos ha]
            have sb : updateProp (some s2) c2 k2 kb vb ((k0, pv) :: tl)
                = (kb, ⟨vb, some s2, c2, k2⟩) :: (k0, pv) :: tl := by
              simp only [updateProp, if_pos hb]
            rw [sa, sb]
            by_cases hab : ka < kb
            · have t1 : updateProp (some s1) c1 k1 ka va
                  ((kb, ⟨vb, some s2, c2, k2⟩) :: (k0, pv) :: tl)
                  = (ka, ⟨va, some s1, c1, k1⟩) :: (kb, ⟨vb, some s2, c2, k2⟩) :: (k0, pv) :: tl := by
                simp only [updateProp, if_pos hab]
              have t2 : updateProp (some s2) c2 k2 kb vb
                  ((ka, ⟨va, some s1, c1, k1⟩) :: (k0, pv) :: tl)
                  = (ka, ⟨va, some s1, c1, k1⟩) :: (kb, ⟨vb, some s2, c2, k2⟩) :: (k0, pv) :: tl := by
                have h1 : ¬ kb < ka := by omega
                have h2 : ¬ ka = kb := hk
                simp only [updateProp, if_neg h1, if_neg h2, if_pos hb]
              rw [t1, t2]
            · have hba : kb < ka := by omega
              have t1 : updateProp (some s1) c1 k1 ka va
                  ((kb, ⟨vb, some s2, c2, k2⟩) :: (k0, pv) :: tl)
                  = (kb, ⟨vb, some s2, c2, k2⟩) :: (ka, ⟨va, some s1, c1, k1⟩) :: (k0, pv) :: tl := by
                have h1 : ¬ ka < kb := by omega
                have h2 : ¬ kb = ka := fun hh => hk hh.symm
                simp only [updateProp, if_neg h1, if_neg h2, if_pos ha]
              have t2 : updateProp (some s2) c2 k2 kb vb
                  ((ka, ⟨va, some s1, c1, k1⟩) :: (k0, pv) :: tl)
                  = (kb, ⟨vb, some s2, c2, k2⟩) :: (ka, ⟨va, some s1, c1, k1⟩) :: (k0, pv) :: tl := by
                simp only [updateProp, if_pos hba]
              rw [t1, t2]
          · -- ka < k0 = kb: b updates the head in place, a inserts before
            subst hb
            have sa : updateProp (some s1) c1 k1 ka va ((kb, pv) :: tl)
                = (ka, ⟨va, some s1, c1, k1⟩) :: (kb, pv) :: tl := by
              simp only [updateProp, if_pos ha]
            have sb : updateProp (some s2) c2 k2 kb vb ((kb, pv) :: tl)
                = (if geOpt (some s2) pv.tagSeq then (kb, ⟨vb, some s2, c2, k2⟩) else (kb, pv)) :: tl := by
              simp only [updateProp, lt_irrefl, if_false, if_pos rfl]
              split_ifs <;> rfl
            rw [sa, sb]
            have t2 : updateProp (some s2) c2 k2 kb vb
                ((ka, ⟨va, some s1, c1, k1⟩) :: (kb, pv) :: tl)
                = (ka, ⟨va, some s1, c1, k1⟩) ::
                  ((if geOpt (some s2) pv.tagSeq then (kb, ⟨vb, some s2, c2, k2⟩) else (kb, pv)) :: tl) := by
              have h1 : ¬ kb < ka := by omega
              have h2 : ¬ ka = kb := hk
              simp only [updateProp, if_neg h1, if_neg h2, lt_irrefl, if_false, if_pos rfl]
              split_ifs <;> rfl
            rw [t2]
            by_cases g2 : geOpt (some s2) pv.tagSeq = true
            · rw [if_pos g2]
              have t1 : updateProp (some s1) c1 k1 ka va ((kb, ⟨vb, some s2, c2, k2⟩) :: tl)
                  = (ka, ⟨va, some s1, c1, k1⟩) :: (kb, ⟨vb, some s2, c2, k2⟩) :: tl := by
                simp only [updateProp, if_pos ha]
              rw [t1]
            · rw [if_neg g2, sa]
          · -- ka < k0 < kb: a inserts before, b recurses
            have hk0b : ¬ kb < k0 := by omega
            have hk0b' : ¬ k0 = kb := by omega
            have sb : updateProp (some s2) c2 k2 kb vb ((k0, pv) :: tl)
                = (k0, pv) :: updateProp (some s2) c2 k2 kb vb tl := by
              simp only [updateProp, if_neg hk0b, if_neg hk0b']
            have sa : updateProp (some s1) c1 k1 ka va ((k0, pv) :: tl)
                = (ka, ⟨va, some s1, c1, k1⟩) :: (k0, pv) :: tl := by
              simp only [updateProp, if_pos ha]
            rw [sb, sa]
            have t1 : updateProp (some s1) c1 k1 ka va
                ((k0, pv) :: updateProp (some s2) c2 k2 kb vb tl)
                = (ka, ⟨va, some s1, c1, k1⟩) :: (k0, pv) :: updateProp (some s2) c2 k2 kb vb tl := by
              simp only [updateProp, if_pos ha]
            have hba : ¬ kb < ka := by omega
            have hba' : ¬ ka = kb := hk
            have t2 : updateProp (some s2) c2 k2 kb vb
                ((ka, ⟨va, some s1, c1, k1⟩) :: (k0, pv) :: tl)
                = (ka, ⟨va, some s1, c1, k1⟩) :: ((k0, pv) :: updateProp (some s2) c2 k2 kb vb tl) := by
              simp only [updateProp, if_neg hba, if_neg hba', if_neg hk0b, if_neg hk0b']
            rw [t1, t2]
        · -- ka = k0
          subst ha
          rcases Nat.lt_trichotomy kb ka with hb | hb | hb
          · -- kb < ka = k0: symmetric to the insert/inplace case
            have sb : updateProp (some s2) c2 k2 kb vb ((ka, pv) :: tl)
                = (kb, ⟨vb, some s2, c2, k2⟩) :: (ka, pv) :: tl := by
              simp only [updateProp, if_pos hb]
            have sa : updateProp (some s1) c1 k1 ka va ((ka, pv) :: tl)
                = (if geOpt (some s1) pv.tagSeq then (ka, ⟨va, some s1, c1, k1⟩) else (ka, pv)) :: tl := by
              simp only [updateProp, lt_irrefl, if_false, if_pos rfl]
              split_ifs <;> rfl
            rw [sa, sb]
            have t1 : updateProp (some s1) c1 k1 ka va
                ((kb, ⟨vb, some s2, c2, k2⟩) :: (ka, pv) :: tl)
                = (kb, ⟨vb, some s2, c2, k2⟩) ::
                  ((if geOpt (some s1) pv.tagSeq then (ka, ⟨va, some s1, c1, k1⟩) else (ka, pv)) :: tl) := by
              have h1 : ¬ ka < kb := by omega
              have h2 : ¬ kb = ka := by omega
              simp only [updateProp, if_neg h1, if_neg h2, lt_irrefl, if_false, if_pos rfl]
              split_ifs <;> rfl
            rw [t1]
            by_cases g1 : geOpt (some s1) pv.tagSeq = true
            · rw [if_pos g1]
              have t2 : updateProp (some s2) c2 k2 kb vb ((ka, ⟨va, some s1, c1, k1⟩) :: tl)
                  = (kb, ⟨vb, some s2, c2, k2⟩) :: (ka, ⟨va, some s1, c1, k1⟩) :: tl := by
                simp only [updateProp, if_pos hb]
              rw [t2]
            · rw [if_neg g1, sb]
          · exact absurd hb.symm hk
          · -- ka = k0 < kb: a updates head in place, b recurses
            have sa : updateProp (some s1) c1 k1 ka va ((ka, pv) :: tl)
                = (if geOpt (some s1) pv.tagSeq then (ka, ⟨va, some s1, c1, k1⟩) else (ka, pv)) :: tl := by
              simp only [updateProp, lt_irrefl, if_false, if_pos rfl]
              split_ifs <;> rfl
            have hkb : ¬ kb < ka := by omega
            have hkb' : ¬ ka = kb := by omega
            have sb : updateProp (some s2) c2 k2 kb vb ((ka, pv) :: tl)
                = (ka, pv) :: updateProp (some s2) c2 k2 kb vb tl := by
              simp only [updateProp, if_neg hkb, if_neg hkb']
            rw [sa, sb]
            have t1 : updateProp (some s1) c1 k1 ka va
                ((ka, pv) :: updateProp (some s2) c2 k2 kb vb tl)
                = (if geOpt (some s1) pv.tagSeq then (ka, ⟨va, some s1, c1, k1⟩) else (ka, pv)) ::
                  updateProp (some s2) c2 k2 kb vb tl := by
              simp only [updateProp, lt_irrefl, if_false, if_pos rfl]
              split_ifs <;> rfl
            rw [t1]
            by_cases g1 : geOpt (some s1) pv.tagSeq = true
            · rw [if_pos g1]
              have t2 : updateProp (some s2) c2 k2 kb vb ((ka, ⟨va, some s1, c1, k1⟩) :: tl)
                  = (ka, ⟨va, some s1, c1, k1⟩) :: updateProp (some s2) c2 k2 kb vb tl := by
                simp only [updateProp, if_neg hkb, if_neg hkb']
              rw [t2]
            · rw [if_neg g1]
              have t2 : updateProp (some s2) c2 k2 kb vb ((ka, pv) :: tl)
                  = (ka, pv) :: updateProp (some s2) c2 k2 kb vb tl := by
                simp only [updateProp, if_neg hkb, if_neg hkb']
              rw [t2]
        · -- k0 < ka: a recurses; split on kb vs k0
          have hka : ¬ ka < k0 := by omega
          have hka' : ¬ k0 = ka := by omega
          have sa : ∀ rest, updateProp (some s1) c1 k1 ka va ((k0, pv) :: rest)
              = (k0, pv) :: updateProp (some s1) c1 k1 ka va rest := by
            intro rest
            simp only [updateProp, if_neg hka, if_neg hka']
          rcases Nat.lt_trichotomy kb k0 with hb | hb | hb
          · -- kb < k0 < ka: b inserts before
            have sb : updateProp (some s2) c2 k2 kb vb ((k0, pv) :: tl)
                = (kb, ⟨vb, some s2, c2, k2⟩) :: (k0, pv) :: tl := by
              simp only [updateProp, if_pos hb]
            rw [sb, sa]
            have hab : ¬ ka < kb := by omega
            have hab' : ¬ kb = ka := by omega
            have t1 : updateProp (some s1) c1 k1 ka va
                ((kb, ⟨vb, some s2, c2, k2⟩) :: (k0, pv) :: tl)
                = (kb, ⟨vb, some s2, c2, k2⟩) :: ((k0, pv) :: updateProp (some s1) c1 k1 ka va tl) := by
              simp only [updateProp, if_neg hab, if_neg hab', if_neg hka, if_neg hka']
            have t2 : updateProp (some s2) c2 k2 kb vb
                ((k0, pv) :: updateProp (some s1) c1 k1 ka va tl)
                = (kb, ⟨vb, some s2, c2, k2⟩) :: ((k0, pv) :: updateProp (some s1) c1 k1 ka va tl) := by
              simp only [updateProp, if_pos hb]
            rw [t1, t2]
          · -- kb = k0 < ka: b updates head in place
            subst hb
            have sb : updateProp (some s2) c2 k2 kb vb ((kb, pv) :: tl)
                = (if geOpt (some s2) pv.tagSeq then (kb, ⟨vb, some s2, c2, k2⟩) else (kb, pv)) :: tl := by
              simp only [updateProp, lt_irrefl, if_false, if_pos rfl]
              split_ifs <;> rfl
            rw [sb, sa]
            have t2 : updateProp (some s2) c2 k2 kb vb
                ((kb, pv) :: updateProp (some s1) c1 k1 ka va tl)
                = (if geOpt (some s2) pv.tagSeq then (kb, ⟨vb, some s2, c2, k2⟩) else (kb, pv)) ::
                  updateProp (some s1) c1 k1 ka va tl := by
              simp only [updateProp, lt_irrefl, if_false, if_pos rfl]
              split_ifs <;> rfl
            rw [t2]
            by_cases g2 : geOpt (some s2) pv.tagSeq = true
            · rw [if_pos g2]
              have hab : ¬ ka < kb := by omega
              have hab' : ¬ kb = ka := by omega
              have t1 : updateProp (some s1) c1 k1 ka va ((kb, ⟨vb, some s2, c2, k2⟩) :: tl)
                  = (kb, ⟨vb, some s2, c2, k2⟩) :: updateProp (some s1) c1 k1 ka va tl := by
                simp only [updateProp, if_neg hab, if_neg hab']
              rw [t1]
            · rw [if_neg g2, sa]
          · -- k0 < ka, k0 < kb: both recurse
            have hkb : ¬ kb < k0 := by omega
            have hkb' : ¬ k0 = kb := by omega
            have sb : ∀ rest, updateProp (some s2) c2 k2 kb vb ((k0, pv) :: rest)
                = (k0, pv) :: updateProp (some s2) c2 k2 kb vb rest := by
              intro rest
              simp only [updateProp, if_neg hkb, if_neg hkb']
            rw [sb, sa, sa, sb, ih]

theorem updateProp_foldl_comm (s1 s2 : Nat) (c1 k1 c2 k2 : Nat) (hs : s1 ≠ s2) :
    ∀ (d2 : List (Nat × Int)) (ps : List (Nat × PropVal)) (ka : Nat) (va : Int),
    updateProp (some s1) c1 k1 ka va
        (d2.foldl (fun ps kv => updateProp (some s2) c2 k2 kv.1 kv.2 ps) ps)
      = d2.foldl (fun ps kv => updateProp (some s2) c2 k2 kv.1 kv.2 ps)
          (updateProp (some s1) c1 k1 ka va ps) := by
  intro d2
  induction d2 with
  | nil => intro ps ka va; rfl
  | cons kv t ih =>
    intro ps ka va
    simp only [List.foldl_cons]
    rw [ih (updateProp (some s2) c2 k2 kv.1 kv.2 ps) ka va,
      updateProp_comm s1 s2 c1 k1 c2 k2 ka kv.1 va kv.2 hs ps]

theorem foldl_foldl_updateProp_comm (s1 s2 : Nat) (c1 k1 c2 k2 : Nat) (hs : s1 ≠ s2) :
    ∀ (d1 d2 : List (Nat × Int)) (ps : List (Nat × PropVal)),
    d1.foldl (fun ps kv => updateProp (some s1) c1 k1 kv.1 kv.2 ps)
        (d2.foldl (fun ps kv => updateProp (some s2) c2 k2 kv.1 kv.2 ps) ps)
      = d2.foldl (fun ps kv => updateProp (some s2) c2 k2 kv.1 kv.2 ps)
          (d1.foldl (fun ps kv => updateProp (some s1) c1 k1 kv.1 kv.2 ps) ps) := by
  intro d1
  induction d1 with
  | nil => intro d2 ps; rfl
  | cons kv t ih =>
    intro d2 ps
    simp only [List.foldl_cons]
    rw [updateProp_foldl_comm s1 s2 c1 k1 c2 k2 hs d2 ps kv.1 kv.2, ih d2]

theorem annotateItem_comm (s1 s2 : Nat) (c1 k1 c2 k2 : Nat)
    (d1 d2 : List (Nat × Int)) (hs : s1 ≠ s2) (it : Item) :
    annotateItem (some s1) c1 k1 d1 (annotateItem (some s2) c2 k2 d2 it)
      = annotateItem (some s2) c2 k2 d2 (annotateItem (some s1) c1 k1 d1 it) := by
  unfold annotateItem
  simp only [Item.mk.injEq, true_and]
  exact foldl_foldl_updateProp_comm s1 s2 c1 k1 c2 k2 hs d1 d2 it.props

theorem runIdx_le_length (c r s : Nat) (L : List Item) : runIdx c r s L ≤ L.length := by
  induction L with
  | nil => exact le_refl 0
  | cons it l ih =>
    simp only [runIdx]
    split_ifs <;> simp only [List.length_cons] <;> omega

theorem insIdxAux_le_length (c r s : Nat) : ∀ (p : Nat) (L : List Item),
    insIdxAux c r s p L ≤ L.length := by
  intro p L
  induction L generalizing p with
  | nil =>
    match p with
    | 0 => exact le_refl 0
    | q + 1 => exact le_refl 0
  | cons it l ih =>
    match p with
    | 0 =>
      rw [insIdxAux_zero]
      exact runIdx_le_length c r s (it :: l)
    | q + 1 =>
      show insIdxAux c r s (q + 1) (it :: l) ≤ l.length + 1
      simp only [insIdxAux]
      split_ifs
      · have := ih q
        omega
      · have := ih (q + 1)
        omega

theorem insIdx_le_length (c r s p : Nat) (L : List Item) : insIdx c r s p L ≤ L.length :=
  insIdxAux_le_length c r s (min p (visCount c r L)) L

/-! The swap lemma: two sequenced messages that were issued concurrently,
applied to a state every item of which either belongs to the later op's
client or was sequenced before the later op, commute. -/

theorem mem_mkItems_fields {c cs : Nat} {sv : Option Nat} {content : List Nat}
    {pr : List (Nat × Int)} {x : Item} (hx : x ∈ mkItems c cs sv content pr) :
    x.client = c ∧ x.seq = sv ∧ x.rem = RemState.live := by
  simp only [mkItems, List.mem_map] at hx
  obtain ⟨ch, _, hch⟩ := hx
  rw [← hch]
  exact ⟨rfl, rfl, rfl⟩

theorem applyBasic_swap (cm km rm sm cq kq rq sq : Nat)
    (hcc : cm ≠ cq) (hmq : sm < sq) (hqr : rq < sm) (hmr : rm < sm)
    (opm opq : BasicOp) (S : List Item)
    (hS : ∀ it ∈ S, it.client = cq ∨ ∃ s0, it.seq = some s0 ∧ s0 < sq) :
    applyBasic (some sm) cm km rm sm opm (applyBasic (some sq) cq kq rq sq opq S)
      = applyBasic (some sq) cq kq rq sq opq (applyBasic (some sm) cm km rm sm opm S) := by
  have hAllSkip : AllSkip cq rq sq S := by
    intro it hit _
    rcases hS it hit with h | ⟨s0, hs0, hlt⟩
    · simp [skipQual, h]
    · simp [skipQual, hs0]
      omega
  -- blocks created by m, as q sees them
  have hBm_inv : ∀ (Cm : List Nat) (Pm : List (Nat × Int)),
      ∀ x ∈ mkItems cm km (some sm) Cm Pm, posVisible cq rq x = false := by
    intro Cm Pm x hx
    obtain ⟨h1, h2, _⟩ := mem_mkItems_fields hx
    simp [posVisible, insVisible, h1, h2, hcc]
    omega
  have hBm_skip : ∀ (Cm : List Nat) (Pm : List (Nat × Int)),
      ∀ x ∈ mkItems cm km (some sm) Cm Pm, skipQual cq sq x = true := by
    intro Cm Pm x hx
    obtain ⟨h1, h2, _⟩ := mem_mkItems_fields hx
    simp [skipQual, h1, h2, hcc]
    omega
  -- blocks created by q, as m sees them
  have hqc : cq ≠ cm := fun hh => hcc hh.symm
  have hBq_stop : ∀ (Cq : List Nat) (Pq : List (Nat × Int)),
      StopB cm rm sm (mkItems cq kq (some sq) Cq Pq) := by
    intro Cq Pq x hx
    obtain ⟨h1, h2, _⟩ := mem_mkItems_fields hx
    constructor
    · simp [posVisible, insVisible, h1, h2, hqc]
      omega
    · simp [skipQual, h1, h2, hqc]
      omega
  -- q's marking functions preserve m's scans, and conversely
  have hq_pres_m : ∀ (f : Item → Item),
      (f = markRemoved (some sq) cq kq ∨ ∃ delta, f = annotateItem (some sq) cq kq delta) →
      (∀ it, posVisible cm rm (f it) = posVisible cm rm it)
      ∧ (∀ it, skipQual cm sm (f it) = skipQual cm sm it) := by
    intro f hf
    rcases hf with hf | ⟨delta, hf⟩
    · subst hf
      constructor
      · intro it
        exact posVisible_markRemoved cm rm (some sq) cq kq it (fun hh => hcc hh.symm)
          (fun t ht => by injection ht with ht2; omega)
      · intro it
        exact skipQual_markRemoved cm sm (some sq) cq kq it
    · subst hf
      constructor
      · intro it
        exact posVisible_annotateItem cm rm (some sq) cq kq delta it
      · intro it
        exact skipQual_annotateItem cm sm (some sq) cq kq delta it
  have hm_pres_q : ∀ (f : Item → Item),
      (f = markRemoved (some sm) cm km ∨ ∃ delta, f = annotateItem (some sm) cm km delta) →
      (∀ it, posVisible cq rq (f it) = posVisible cq rq it)
      ∧ (∀ it, skipQual cq sq (f it) = skipQual cq sq it) := by
    intro f hf
    rcases hf with hf | ⟨delta, hf⟩
    · subst hf
      constructor
      · intro it
        exact posVisible_markRemoved cq rq (some sm) cm km it hcc
          (fun t ht => by injection ht with ht2; omega)
      · intro it
        exact skipQual_markRemoved cq sq (some sm) cm km it
    · subst hf
      constructor
      · intro it
        exact posVisible_annotateItem cq rq (some sm) cm km delta it
      · intro it
        exact skipQual_annotateItem cq sq (some sm) cm km delta it
  cases opm with
  | ins pm Cm Pm =>
    cases opq with
    | ins pq Cq Pq =>
      show insertAt (insIdx cm rm sm pm (insertAt (insIdx cq rq sq pq S)
            (mkItems cq kq (some sq) Cq Pq) S)) (mkItems cm km (some sm) Cm Pm)
          (insertAt (insIdx cq rq sq pq S) (mkItems cq kq (some sq) Cq Pq) S)
        = insertAt (insIdx cq rq sq pq (insertAt (insIdx cm rm sm pm S)
            (mkItems cm km (some sm) Cm Pm) S)) (mkItems cq kq (some sq) Cq Pq)
          (insertAt (insIdx cm rm sm pm S) (mkItems cm km (some sm) Cm Pm) S)
      rw [insIdx_insertAt_stop (hBq_stop Cq Pq) S pm (insIdx cq rq sq pq S)
        (insIdx_le_length cq rq sq pq S)]
      rw [insIdx_insertAt_skip hAllSkip (hBm_inv Cm Pm) (hBm_skip Cm Pm) pq
        (insIdx cm rm sm pm S) (insIdx_le_length cm rm sm pm S)]
      by_cases hle : insIdx cm rm sm pm S ≤ insIdx cq rq sq pq S
      · rw [if_neg (by omega), if_pos hle, Nat.add_zero]
        exact insertAt_insertAt_le (mkItems cm km (some sm) Cm Pm)
          (mkItems cq kq (some sq) Cq Pq) S (insIdx cm rm sm pm S) (insIdx cq rq sq pq S)
          hle (insIdx_le_length cq rq sq pq S)
      · rw [if_pos (by omega), if_neg hle, Nat.add_zero]
        exact (insertAt_insertAt_le (mkItems cq kq (some sq) Cq Pq)
          (mkItems cm km (some sm) Cm Pm) S (insIdx cq rq sq pq S) (insIdx cm rm sm pm S)
          (by omega) (insIdx_le_length cm rm sm pm S)).symm
    | del aq bq =>
      have hp := hq_pres_m (markRemoved (some sq) cq kq) (Or.inl rfl)
      show insertAt (insIdx cm rm sm pm (markRange cq rq (markRemoved (some sq) cq kq) aq bq S))
          (mkItems cm km (some sm) Cm Pm)
          (markRange cq rq (markRemoved (some sq) cq kq) aq bq S)
        = markRange cq rq (markRemoved (some sq) cq kq) aq bq
          (insertAt (insIdx cm rm sm pm S) (mkItems cm km (some sm) Cm Pm) S)
      rw [insIdx_markRange cq rq (markRemoved (some sq) cq kq) aq bq pm S
        (fun it _ => hp.1 it) (fun it _ => hp.2 it)]
      rw [markRange_insertAt cq rq (markRemoved (some sq) cq kq)
        (mkItems cm km (some sm) Cm Pm) (hBm_inv Cm Pm) S aq bq (insIdx cm rm sm pm S)
        (insIdx_le_length cm rm sm pm S)]
    | ann aq bq dq =>
      have hp := hq_pres_m (annotateItem (some sq) cq kq dq) (Or.inr ⟨dq, rfl⟩)
      show insertAt (insIdx cm rm sm pm (markRange cq rq (annotateItem (some sq) cq kq dq) aq bq S))
          (mkItems cm km (some sm) Cm Pm)
          (markRange cq rq (annotateItem (some sq) cq kq dq) aq bq S)
        = markRange cq rq (annotateItem (some sq) cq kq dq) aq bq
          (insertAt (insIdx cm rm sm pm S) (mkItems cm km (some sm) Cm Pm) S)
      rw [insIdx_markRange cq rq (annotateItem (some sq) cq kq dq) aq bq pm S
        (fun it _ => hp.1 it) (fun it _ => hp.2 it)]
      rw [markRange_insertAt cq rq (annotateItem (some sq) cq kq dq)
        (mkItems cm km (some sm) Cm Pm) (hBm_inv Cm Pm) S aq bq (insIdx cm rm sm pm S)
        (insIdx_le_length cm rm sm pm S)]
  | del am bm =>
    cases opq with
    | ins pq Cq Pq =>
      have hp := hm_pres_q (markRemoved (some sm) cm km) (Or.inl rfl)
      show markRange cm rm (markRemoved (some sm) cm km) am bm
          (insertAt (insIdx cq rq sq pq S) (mkItems cq kq (some sq) Cq Pq) S)
        = insertAt (insIdx cq rq sq pq (markRange cm rm (markRemoved (some sm) cm km) am bm S))
          (mkItems cq kq (some sq) Cq Pq)
          (markRange cm rm (markRemoved (some sm) cm km) am bm S)
      rw [insIdx_markRange cm rm (markRemoved (some sm) cm km) am bm pq S
        (fun it _ => hp.1 it) (fun it _ => hp.2 it)]
      rw [markRange_insertAt cm rm (markRemoved (some sm) cm km)
        (mkItems cq kq (some sq) Cq Pq) (fun x hx => ((hBq_stop Cq Pq) x hx).1) S am bm
        (insIdx cq rq sq pq S) (insIdx_le_length cq rq sq pq S)]
    | del aq bq =>
      show markRange cm rm (markRemoved (some sm) cm km) am bm
          (markRange cq rq (markRemoved (some sq) cq kq) aq bq S)
        = markRange cq rq (markRemoved (some sq) cq kq) aq bq
          (markRange cm rm (markRemoved (some sm) cm km) am bm S)
      apply markRange_comm cm rm cq rq _ _
        (fun it => (hq_pres_m (markRemoved (some sq) cq kq) (Or.inl rfl)).1 it)
        (fun it => (hm_pres_q (markRemoved (some sm) cm km) (Or.inl rfl)).1 it)
        (fun it => markRemoved_comm sm cm km sq cq kq (by omega) it)
    | ann aq bq dq =>
      show markRange cm rm (markRemoved (some sm) cm km) am bm
          (markRange cq rq (annotateItem (some sq) cq kq dq) aq bq S)
        = markRange cq rq (annotateItem (some sq) cq kq dq) aq bq
          (markRange cm rm (markRemoved (some sm) cm km) am bm S)
      apply markRange_comm cm rm cq rq _ _
        (fun it => (hq_pres_m (annotateItem (some sq) cq kq dq) (Or.inr ⟨dq, rfl⟩)).1 it)
        (fun it => (hm_pres_q (markRemoved (some sm) cm km) (Or.inl rfl)).1 it)
        (fun it => markRemoved_annotate_comm (some sm) cm km (some sq) cq kq dq it)
  | ann am bm dm =>
    cases opq with
    | ins pq Cq Pq =>
      have hp := hm_pres_q (annotateItem (some sm) cm km dm) (Or.inr ⟨dm, rfl⟩)
      show markRange cm rm (annotateItem (some sm) cm km dm) am bm
          (insertAt (insIdx cq rq sq pq S) (mkItems cq kq (some sq) Cq Pq) S)
        = insertAt (insIdx cq rq sq pq (markRange cm rm (annotateItem (some sm) cm km dm) am bm S))
          (mkItems cq kq (some sq) Cq Pq)
          (markRange cm rm (annotateItem (some sm) cm km dm) am bm S)
      rw [insIdx_markRange cm rm (annotateItem (some sm) cm km dm) am bm pq S
        (fun it _ => hp.1 it) (fun it _ => hp.2 it)]
      rw [markRange_insertAt cm rm (annotateItem (some sm) cm km dm)
        (mkItems cq kq (some sq) Cq Pq) (fun x hx => ((hBq_stop Cq Pq) x hx).1) S am bm
        (insIdx cq rq sq pq S) (insIdx_le_length cq rq sq pq S)]
    | del aq bq =>
      show markRange cm rm (annotateItem (some sm) cm km dm) am bm
          (markRange cq rq (markRemoved (some sq) cq kq) aq bq S)
        = markRange cq rq (markRemoved (some sq) cq kq) aq bq
          (markRange cm rm (annotateItem (some sm) cm km dm) am bm S)
      apply markRange_comm cm rm cq rq _ _
        (fun it => (hq_pres_m (markRemoved (some sq) cq kq) (Or.inl rfl)).1 it)
        (fun it => (hm_pres_q (annotateItem (some sm) cm km dm) (Or.inr ⟨dm, rfl⟩)).1 it)
        (fun it => (markRemoved_annotate_comm (some sq) cq kq (some sm) cm km dm it).symm)
    | ann aq bq dq =>
      show markRange cm rm (annotateItem (some sm) cm km dm) am bm
          (markRange cq rq (annotateItem (some sq) cq kq dq) aq bq S)
        = markRange cq rq (annotateItem (some sq) cq kq dq) aq bq
          (markRange cm rm (annotateItem (some sm) cm km dm) am bm S)
      apply markRange_comm cm rm cq rq _ _
        (fun it => (hq_pres_m (annotateItem (some sq) cq kq dq) (Or.inr ⟨dq, rfl⟩)).1 it)
        (fun it => (hm_pres_q (annotateItem (some sm) cm km dm) (Or.inr ⟨dm, rfl⟩)).1 it)
        (fun it => annotateItem_comm sm sq cm km cq kq dm dq (by omega) it)

/-- Item-level provenance of one basic op: every item of the result is a
fresh item of this op or keeps the client and sequence tag of a state item. -/
theorem applyBasic_item_prov (sv : Option Nat) (c cs r s : Nat) (op : BasicOp)
    (S : List Item) :
    ∀ y ∈ applyBasic sv c cs r s op S,
      (y.client = c ∧ y.seq = sv) ∨ ∃ x ∈ S, y.client = x.client ∧ y.seq = x.seq := by
  intro y hy
  cases op with
  | ins pos content pr =>
    unfold applyBasic insertAt at hy
    rcases List.mem_append.mp hy with h1 | h1
    · rcases List.mem_append.mp h1 with h2 | h2
      · exact Or.inr ⟨y, List.take_subset _ S h2, rfl, rfl⟩
      · obtain ⟨hc, hs, _⟩ := mem_mkItems_fields h2
        exact Or.inl ⟨hc, hs⟩
    · exact Or.inr ⟨y, List.drop_subset _ S h1, rfl, rfl⟩
  | del a b =>
    obtain ⟨x, hx, hr⟩ := forall₂_mem_right (markRange_rel c r (markRemoved sv c cs) a b S) y hy
    rcases hr with h | h
    · exact Or.inr ⟨x, hx, by rw [h], by rw [h]⟩
    · refine Or.inr ⟨x, hx, ?_, ?_⟩
      · rw [h, markRemoved_eq_mk]
      · rw [h, markRemoved_eq_mk]
  | ann a b delta =>
    obtain ⟨x, hx, hr⟩ := forall₂_mem_right (markRange_rel c r (annotateItem sv c cs delta) a b S) y hy
    rcases hr with h | h
    · exact Or.inr ⟨x, hx, by rw [h], by rw [h]⟩
    · refine Or.inr ⟨x, hx, ?_, ?_⟩
      · rw [h]; rfl
      · rw [h]; rfl

theorem foldl_applyBasic_item_prov (sv : Option Nat) (c cs r s : Nat) (ops : List BasicOp) :
    ∀ (S : List Item),
    ∀ y ∈ ops.foldl (fun acc op => applyBasic sv c cs r s op acc) S,
      (y.client = c ∧ y.seq = sv) ∨ ∃ x ∈ S, y.client = x.client ∧ y.seq = x.seq := by
  induction ops with
  | nil =>
    intro S y hy
    exact Or.inr ⟨y, hy, rfl, rfl⟩
  | cons op rest ih =>
    intro S y hy
    simp only [List.foldl_cons] at hy
    rcases ih (applyBasic sv c cs r s op S) y hy with h | h
    · exact Or.inl h
    · obtain ⟨x, hx, h1, h2⟩ := h
      rcases applyBasic_item_prov sv c cs r s op S x hx with
        g | ⟨x2, hx2, g1, g2⟩
      · exact Or.inl ⟨h1.trans g.1, h2.trans g.2⟩
      · exact Or.inr ⟨x2, hx2, h1.trans g1, h2.trans g2⟩

theorem applyMsg_item_prov (m : SeqMsg) (S : List Item) :
    ∀ y ∈ applyMsg m S,
      (y.client = m.client ∧ y.seq = some m.seq)
      ∨ ∃ x ∈ S, y.client = x.client ∧ y.seq = x.seq :=
  foldl_applyBasic_item_prov (some m.seq) m.client m.clientSeq m.refSeq m.seq m.ops S

/-- One basic op of the earlier message moves across all ops of a concurrent
later message. -/
theorem applyBasic_foldl_swap (cm km rm sm cq kq rq sq : Nat)
    (hcc : cm ≠ cq) (hmq : sm < sq) (hqr : rq < sm) (hmr : rm < sm)
    (opm : BasicOp) (qops : List BasicOp) :
    ∀ (S : List Item),
    (∀ it ∈ S, it.client = cq ∨ ∃ s0, it.seq = some s0 ∧ s0 < sq) →
    applyBasic (some sm) cm km rm sm opm
        (qops.foldl (fun acc op => applyBasic (some sq) cq kq rq sq op acc) S)
      = qops.foldl (fun acc op => applyBasic (some sq) cq kq rq sq op acc)
          (applyBasic (some sm) cm km rm sm opm S) := by
  induction qops with
  | nil => intro S _; rfl
  | cons oq t ih =>
    intro S hS
    simp only [List.foldl_cons]
    have hS' : ∀ it ∈ applyBasic (some sq) cq kq rq sq oq S,
        it.client = cq ∨ ∃ s0, it.seq = some s0 ∧ s0 < sq := by
      intro it hit
      rcases applyBasic_item_prov (some sq) cq kq rq sq oq S it hit with h | ⟨x, hx, h1, h2⟩
      · exact Or.inl h.1
      · rcases hS x hx with g | ⟨s0, g1, g2⟩
        · exact Or.inl (h1.trans g)
        · exact Or.inr ⟨s0, h2.trans g1, g2⟩
    rw [ih (applyBasic (some sq) cq kq rq sq oq S) hS',
      applyBasic_swap cm km rm sm cq kq rq sq hcc hmq hqr hmr opm oq S hS]

/-- All ops of the earlier message move across all ops of a concurrent later
message. -/
theorem foldl_foldl_swap (cm km rm sm cq kq rq sq : Nat)
    (hcc : cm ≠ cq) (hmq : sm < sq) (hqr : rq < sm) (hmr : rm < sm)
    (mops qops : List BasicOp) :
    ∀ (S : List Item),
    (∀ it ∈ S, it.client = cq ∨ ∃ s0, it.seq = some s0 ∧ s0 < sq) →
    mops.foldl (fun acc op => applyBasic (some sm) cm km rm sm op acc)
        (qops.foldl (fun acc op => applyBasic (some sq) cq kq rq sq op acc) S)
      = qops.foldl (fun acc op => applyBasic (some sq) cq kq rq sq op acc)
          (mops.foldl (fun acc op => applyBasic (some sm) cm km rm sm op acc) S) := by
  induction mops with
  | nil => intro S _; rfl
  | cons om t ih =>
    intro S hS
    simp only [List.foldl_cons]
    have hS' : ∀ it ∈ applyBasic (some sm) cm km rm sm om S,
        it.client = cq ∨ ∃ s0, it.seq = some s0 ∧ s0 < sq := by
      intro it hit
      rcases applyBasic_item_prov (some sm) cm km rm sm om S it hit with h | ⟨x, hx, h1, h2⟩
      · exact Or.inr ⟨sm, h.2, hmq⟩
      · rcases hS x hx with g | ⟨s0, g1, g2⟩
        · exact Or.inl (h1.trans g)
        · exact Or.inr ⟨s0, h2.trans g1, g2⟩
    rw [applyBasic_foldl_swap cm km rm sm cq kq rq sq hcc hmq hqr hmr om qops S hS,
      ih (applyBasic (some sm) cm km rm sm om S) hS']

/-- SWAP: two concurrent sequenced messages commute on a state whose items
all belong to the later message's client or were sequenced before it. -/
theorem applyMsg_swap (m q : SeqMsg)
    (hcc : m.client ≠ q.client) (hmq : m.seq < q.seq) (hqr : q.refSeq < m.seq)
    (hmr : m.refSeq < m.seq) (S : List Item)
    (hS : ∀ it ∈ S, it.client = q.client ∨ ∃ s0, it.seq = some s0 ∧ s0 < q.seq) :
    applyMsg m (applyMsg q S) = applyMsg q (applyMsg m S) :=
  foldl_foldl_swap m.client m.clientSeq m.refSeq m.seq q.client q.clientSeq q.refSeq q.seq
    hcc hmq hqr hmr m.ops q.ops S hS

/-- FOLD-SWAP: the earlier message moves across a whole pending list of later
messages of one client. -/
theorem applyMsg_pend_swap (m : SeqMsg) (cq0 : Nat) (hmc : m.client ≠ cq0)
    (hmr : m.refSeq < m.seq) (pend : List SeqMsg) :
    ∀ (C : List Item),
    (∀ q ∈ pend, q.client = cq0 ∧ m.seq < q.seq ∧ q.refSeq < m.seq) →
    (∀ it ∈ C, it.client = cq0 ∨ ∃ s0, it.seq = some s0 ∧ s0 < m.seq) →
    applyMsg m (pend.foldl (fun l q => applyMsg q l) C)
      = pend.foldl (fun l q => applyMsg q l) (applyMsg m C) := by
  induction pend with
  | nil => intro C _ _; rfl
  | cons q t ih =>
    intro C hpend hC
    obtain ⟨hq1, hq2, hq3⟩ := hpend q (List.mem_cons_self q t)
    have hC' : ∀ it ∈ applyMsg q C, it.client = cq0 ∨ ∃ s0, it.seq = some s0 ∧ s0 < m.seq := by
      intro it hit
      rcases applyMsg_item_prov q C it hit with h | ⟨x, hx, h1, h2⟩
      · exact Or.inl (h.1.trans hq1)
      · rcases hC x hx with g | ⟨s0, g1, g2⟩
        · exact Or.inl (h1.trans g)
        · exact Or.inr ⟨s0, h2.trans g1, g2⟩
    have hCq : ∀ it ∈ C, it.client = q.client ∨ ∃ s0, it.seq = some s0 ∧ s0 < q.seq := by
      intro it hit
      rcases hC it hit with g | ⟨s0, g1, g2⟩
      · exact Or.inl (g.trans hq1.symm)
      · exact Or.inr ⟨s0, g1, by omega⟩
    simp only [List.foldl_cons]
    rw [ih (applyMsg q C) (fun q2 hq2m => hpend q2 (List.mem_cons_of_mem q hq2m)) hC',
      applyMsg_swap m q (hq1 ▸ hmc) hq2 hq3 hmr C hCq]

/-! Provenance of whole runs, and well-formed-stream bookkeeping. -/

/-- Every artifact is tagged by a message of the pool, with the message's
sequence number. -/
def Tagged (pool : List SeqMsg) (c k : Nat) (sq : Option Nat) : Prop :=
  ∃ mm ∈ pool, mm.client = c ∧ mm.clientSeq = k ∧ sq = some mm.seq

theorem Tagged_mono {pool pool' : List SeqMsg} (h : ∀ x ∈ pool, x ∈ pool') (c k : Nat)
    (sq : Option Nat) : Tagged pool c k sq → Tagged pool' c k sq := by
  intro ⟨mm, hmm, h1, h2, h3⟩
  exact ⟨mm, h mm hmm, h1, h2, h3⟩

theorem AllArt_foldl_applyMsg {pool : List SeqMsg} (msgs : List SeqMsg)
    (hsub : ∀ q ∈ msgs, q ∈ pool) :
    ∀ (C : List Item), AllArt (Tagged pool) C →
    AllArt (Tagged pool) (msgs.foldl (fun l q => applyMsg q l) C) := by
  induction msgs with
  | nil => intro C hC; exact hC
  | cons q t ih =>
    intro C hC
    simp only [List.foldl_cons]
    refine ih (fun x hx => hsub x (List.mem_cons_of_mem q hx)) (applyMsg q C) ?_
    exact AllArt_applyMsg q C hC ⟨q, hsub q (List.mem_cons_self q t), rfl, rfl, rfl⟩

theorem AllArt_nil {Q : Nat → Nat → Option Nat → Prop} : AllArt Q ([] : List Item) := by
  intro it hit
  cases hit

theorem canonPrefix_tagged (stream : List SeqMsg) (n : Nat) :
    AllArt (Tagged (stream.take n)) (canonPrefix stream n) :=
  AllArt_foldl_applyMsg (stream.take n) (fun _ hq => hq) [] AllArt_nil

/-- Position and sequence number of a stream member. -/
theorem mem_stream_seq {stream : List SeqMsg} (hwf : StreamWF stream) {mm : SeqMsg}
    (hm : mm ∈ stream) : ∃ (i : Nat) (h : i < stream.length),
      stream.get ⟨i, h⟩ = mm ∧ mm.seq = i + 1 := by
  obtain ⟨⟨iv, hiv⟩, hget⟩ := List.mem_iff_get.mp hm
  refine ⟨iv, hiv, hget, ?_⟩
  rw [← hget]
  exact hwf.seqPos iv hiv

theorem mem_stream_seq_pos {stream : List SeqMsg} (hwf : StreamWF stream) {mm : SeqMsg}
    (hm : mm ∈ stream) : 1 ≤ mm.seq ∧ mm.seq ≤ stream.length := by
  obtain ⟨i, hi, _, hseq⟩ := mem_stream_seq hwf hm
  omega

/-- Two stream members with the same sequence number are equal. -/
theorem stream_seq_inj {stream : List SeqMsg} (hwf : StreamWF stream) {m1 m2 : SeqMsg}
    (h1 : m1 ∈ stream) (h2 : m2 ∈ stream) (hs : m1.seq = m2.seq) : m1 = m2 := by
  obtain ⟨i1, hi1, hg1, hs1⟩ := mem_stream_seq hwf h1
  obtain ⟨i2, hi2, hg2, hs2⟩ := mem_stream_seq hwf h2
  have : i1 = i2 := by omega
  subst this
  rw [← hg1, ← hg2]

/-- Two stream members of one client with the same client sequence number
are equal. -/
theorem stream_clientSeq_inj {stream : List SeqMsg} (hwf : StreamWF stream) {m1 m2 : SeqMsg}
    (h1 : m1 ∈ stream) (h2 : m2 ∈ stream) (hc : m1.client = m2.client)
    (hcs : m1.clientSeq = m2.clientSeq) : m1 = m2 := by
  obtain ⟨i1, hi1, hg1, hs1⟩ := mem_stream_seq hwf h1
  obtain ⟨i2, hi2, hg2, hs2⟩ := mem_stream_seq hwf h2
  have hpw := List.pairwise_iff_get.mp hwf.fifo
  rcases Nat.lt_trichotomy i1 i2 with h | h | h
  · have := hpw ⟨i1, hi1⟩ ⟨i2, hi2⟩ h
    rw [hg1, hg2] at this
    have := (this hc).1
    omega
  · subst h
    rw [← hg1, ← hg2]
  · have := hpw ⟨i2, hi2⟩ ⟨i1, hi1⟩ h
    rw [hg1, hg2] at this
    have := (this hc.symm).1
    omega

/-- Members of a take-prefix have sequence numbers at most its length. -/
theorem mem_take_seq_le {stream : List SeqMsg} (hwf : StreamWF stream) (n : Nat) {mm : SeqMsg}
    (hm : mm ∈ stream.take n) : mm.seq ≤ n := by
  obtain ⟨⟨iv, hiv⟩, hget⟩ := List.mem_iff_get.mp hm
  have hlen : iv < n := by
    have := hiv
    simp only [List.length_take] at this
    omega
  have hlt : iv < stream.length := by
    have := hiv
    simp only [List.length_take] at this
    omega
  have heq : (stream.take n).get ⟨iv, hiv⟩ = stream.get ⟨iv, hlt⟩ := by
    simp [List.getElem_take]
  rw [heq] at hget
  have := hwf.seqPos iv hlt
  rw [hget] at this
  omega

theorem pendMsgs_sub (me : Nat) (stream : List SeqMsg) (n : Nat) :
    ∀ mm ∈ pendMsgs me stream n,
      mm ∈ stream ∧ mm.client = me ∧ mm.refSeq < n ∧ n < mm.seq := by
  intro mm hmm
  unfold pendMsgs at hmm
  have h1 := List.of_mem_filter hmm
  have h2 := List.mem_of_mem_filter hmm
  simp only [Bool.and_eq_true, beq_iff_eq, decide_eq_true_eq] at h1
  exact ⟨h2, h1.1.1, h1.1.2, h1.2⟩

/-- Splitting a filter over a disjunction whose parts are ordered by a
pairwise relation of the list. -/
theorem filter_pairwise_split {α : Type} {R : α → α → Prop} {l : List α}
    (hR : l.Pairwise R) (p q : α → Bool)
    (hdisj : ∀ x ∈ l, ¬(p x = true ∧ q x = true))
    (horder : ∀ x y, R x y → q x = true → p y = true → False) :
    l.filter (fun x => p x || q x) = l.filter p ++ l.filter q := by
  induction l with
  | nil => rfl
  | cons a t ih =>
    have ha : ∀ y ∈ t, R a y := fun y hy => List.rel_of_pairwise_cons hR hy
    have htail := List.Pairwise.of_cons hR
    by_cases hp : p a = true
    · have hq : q a = false := by
        by_cases hqa : q a = true
        · exact absurd ⟨hp, hqa⟩ (hdisj a (List.mem_cons_self a t))
        · exact Bool.eq_false_iff.mpr hqa
      simp only [List.filter_cons, hp, hq, Bool.or_false, if_true, cond_true]
      rw [ih htail (fun x hx => hdisj x (List.mem_cons_of_mem a hx)) ]
      rfl
    · by_cases hq : q a = true
      · have hpt : t.filter p = [] := by
          rw [List.filter_eq_nil_iff]
          intro y hy hpy
          exact horder a y (ha y hy) hq hpy
        have hpa : p a = false := Bool.eq_false_iff.mpr hp
        simp only [List.filter_cons, hpa, hq, Bool.false_or, if_true, cond_true]
        rw [ih htail (fun x hx => hdisj x (List.mem_cons_of_mem a hx)), hpt]
        rfl
      · have hpa : p a = false := Bool.eq_false_iff.mpr hp
        have hqa : q a = false := Bool.eq_false_iff.mpr hq
        simp only [List.filter_cons, hpa, hqa, Bool.or_false, if_false, cond_false]
        exact ih htail (fun x hx => hdisj x (List.mem_cons_of_mem a hx))

/-- The boolean predicates of the pending, mid-issue and batch filters. -/
def pendP (me n : Nat) (m : SeqMsg) : Bool :=
  m.client == me && decide (m.refSeq < n) && decide (n < m.seq)

def midP (me n : Nat) (m : SeqMsg) : Bool :=
  m.client == me && decide (m.refSeq ≤ n) && decide (n < m.seq)

def batchP (me n : Nat) (m : SeqMsg) : Bool :=
  m.client == me && m.refSeq == n

theorem pendMsgs_eq_filter (me : Nat) (stream : List SeqMsg) (n : Nat) :
    pendMsgs me stream n = stream.filter (pendP me n) := rfl

theorem issueBatch_eq (me : Nat) (stream : List SeqMsg) (n : Nat) (l : List Item) :
    issueBatch me stream n l
      = (stream.filter (batchP me n)).foldl
          (fun acc m => applyLocal me n m.clientSeq m.ops acc) l := rfl

/-- On a well-formed stream, the mid-issue set splits as pending then batch. -/
theorem mid_split (me : Nat) {stream : List SeqMsg} (hwf : StreamWF stream) (n : Nat) :
    stream.filter (midP me n) = stream.filter (pendP me n) ++ stream.filter (batchP me n) := by
  have hcongr : ∀ m ∈ stream, midP me n m = (pendP me n m || batchP me n m) := by
    intro m hm
    unfold midP pendP batchP
    by_cases hc : m.client = me
    · by_cases hr : m.refSeq = n
      · have hseq : n < m.seq := by
          have := hwf.refLt m hm
          omega
        simp [hc, hr, hseq]
      · by_cases hrlt : m.refSeq < n
        · have h1 : decide (m.refSeq ≤ n) = true := by simp; omega
          have h2 : decide (m.refSeq < n) = true := by simp; omega
          simp [hc, hr, h1, h2]
        · have h1 : decide (m.refSeq ≤ n) = false := by simp; omega
          have h2 : decide (m.refSeq < n) = false := by simp; omega
          simp [hc, hr, h1, h2]
    · have h0 : (m.client == me) = false := by
        simp [hc]
      rw [h0]
      rfl
  rw [List.filter_congr hcongr]
  apply filter_pairwise_split hwf.fifo
  · intro x hx ⟨hp, hq⟩
    unfold pendP at hp
    unfold batchP at hq
    simp only [Bool.and_eq_true, beq_iff_eq, decide_eq_true_eq] at hp hq
    omega
  · intro x y hR hq hp
    unfold batchP at hq
    unfold pendP at hp
    simp only [Bool.and_eq_true, beq_iff_eq, decide_eq_true_eq] at hp hq
    have := hR (hq.1.trans hp.1.1.symm)
    omega

theorem stream_decomp (stream : List SeqMsg) (n : Nat) (hn : n < stream.length) :
    stream = stream.take n ++ stream.get ⟨n, hn⟩ :: stream.drop (n + 1) := by
  conv_lhs => rw [← List.take_append_drop n stream]
  congr 1
  rw [List.drop_eq_getElem_cons hn]
  rfl

theorem mem_drop_seq_ge {stream : List SeqMsg} (hwf : StreamWF stream) (n : Nat) {mm : SeqMsg}
    (hm : mm ∈ stream.drop (n + 1)) : n + 2 ≤ mm.seq := by
  obtain ⟨⟨iv, hiv⟩, hget⟩ := List.mem_iff_get.mp hm
  have hlt : n + 1 + iv < stream.length := by
    have := hiv
    simp only [List.length_drop] at this
    omega
  have heq : (stream.drop (n + 1)).get ⟨iv, hiv⟩ = stream.get ⟨n + 1 + iv, hlt⟩ := by
    simp [List.getElem_drop]
  rw [heq] at hget
  have := hwf.seqPos (n + 1 + iv) hlt
  rw [hget] at this
  omega

theorem filter_take_mid_nil (me : Nat) {stream : List SeqMsg} (hwf : StreamWF stream) (n : Nat) :
    (stream.take n).filter (midP me n) = [] := by
  rw [List.filter_eq_nil_iff]
  intro mm hmm
  have hseq := mem_take_seq_le hwf n hmm
  unfold midP
  simp only [Bool.and_eq_true, not_and, decide_eq_true_eq]
  intro _
  omega

theorem filter_take_pend_nil (me : Nat) {stream : List SeqMsg} (hwf : StreamWF stream) (n : Nat) :
    (stream.take (n + 1)).filter (pendP me (n + 1)) = [] := by
  rw [List.filter_eq_nil_iff]
  intro mm hmm
  have hseq := mem_take_seq_le hwf (n + 1) hmm
  unfold pendP
  simp only [Bool.and_eq_true, not_and, decide_eq_true_eq]
  intro _
  omega

theorem filter_drop_mid_eq_pend (me : Nat) {stream : List SeqMsg} (hwf : StreamWF stream)
    (n : Nat) :
    (stream.drop (n + 1)).filter (midP me n)
      = (stream.drop (n + 1)).filter (pendP me (n + 1)) := by
  apply List.filter_congr
  intro mm hmm
  have hseq := mem_drop_seq_ge hwf n hmm
  unfold midP pendP
  by_cases hr : mm.refSeq ≤ n
  · have h1 : decide (mm.refSeq ≤ n) = true := by simp; omega
    have h2 : decide (mm.refSeq < n + 1) = true := by simp; omega
    have h3 : decide (n < mm.seq) = true := by simp; omega
    have h4 : decide (n + 1 < mm.seq) = true := by simp; omega
    rw [h1, h2, h3, h4]
  · have h1 : decide (mm.refSeq ≤ n) = false := by simp; omega
    have h2 : decide (mm.refSeq < n + 1) = false := by simp; omega
    rw [h1, h2]
    simp

theorem pend_succ_eq_filter_drop (me : Nat) {stream : List SeqMsg} (hwf : StreamWF stream)
    (n : Nat) :
    pendMsgs me stream (n + 1) = (stream.drop (n + 1)).filter (pendP me (n + 1)) := by
  rw [pendMsgs_eq_filter]
  conv_lhs => rw [← List.take_append_drop (n + 1) stream]
  rw [List.filter_append, filter_take_pend_nil me hwf n, List.nil_append]

theorem mid_eq_pend_succ_remote (me : Nat) {stream : List SeqMsg} (hwf : StreamWF stream)
    (n : Nat) (hn : n < stream.length) (hc : (stream.get ⟨n, hn⟩).client ≠ me) :
    stream.filter (midP me n) = pendMsgs me stream (n + 1) := by
  conv_lhs => rw [stream_decomp stream n hn]
  rw [List.filter_append, filter_take_mid_nil me hwf n, List.nil_append,
    List.filter_cons]
  have hm : midP me n (stream.get ⟨n, hn⟩) = false := by
    unfold midP
    have h0 : ((stream.get ⟨n, hn⟩).client == me) = false := by
      simp only [beq_eq_false_iff_ne, ne_eq]
      exact hc
    rw [h0]
    rfl
  rw [hm]
  simp only [Bool.false_eq_true, if_false, cond_false]
  rw [filter_drop_mid_eq_pend me hwf n, pend_succ_eq_filter_drop me hwf n]

theorem mid_eq_cons_pend_succ_own (me : Nat) {stream : List SeqMsg} (hwf : StreamWF stream)
    (n : Nat) (hn : n < stream.length) (hc : (stream.get ⟨n, hn⟩).client = me) :
    stream.filter (midP me n) = stream.get ⟨n, hn⟩ :: pendMsgs me stream (n + 1) := by
  conv_lhs => rw [stream_decomp stream n hn]
  rw [List.filter_append, filter_take_mid_nil me hwf n, List.nil_append,
    List.filter_cons]
  have hseq : (stream.get ⟨n, hn⟩).seq = n + 1 := hwf.seqPos n hn
  have href : (stream.get ⟨n, hn⟩).refSeq < (stream.get ⟨n, hn⟩).seq :=
    hwf.refLt _ (List.get_mem stream n hn)
  have hm : midP me n (stream.get ⟨n, hn⟩) = true := by
    unfold midP
    have h0 : ((stream.get ⟨n, hn⟩).client == me) = true := by
      simp only [beq_iff_eq]
      exact hc
    have h1 : decide ((stream.get ⟨n, hn⟩).refSeq ≤ n) = true :=
      decide_eq_true (by omega)
    have h2 : decide (n < (stream.get ⟨n, hn⟩).seq) = true :=
      decide_eq_true (by omega)
    rw [h0, h1, h2]
    rfl
  rw [hm]
  simp only [if_true, cond_true]
  rw [filter_drop_mid_eq_pend me hwf n, pend_succ_eq_filter_drop me hwf n]

theorem pendMsgs_zero (me : Nat) (stream : List SeqMsg) : pendMsgs me stream 0 = [] := by
  rw [pendMsgs_eq_filter, List.filter_eq_nil_iff]
  intro mm _
  unfold pendP
  simp

theorem pendMsgs_final (me : Nat) {stream : List SeqMsg} (hwf : StreamWF stream) :
    pendMsgs me stream stream.length = [] := by
  rw [pendMsgs_eq_filter, List.filter_eq_nil_iff]
  intro mm hmm
  have := (mem_stream_seq_pos hwf hmm).2
  unfold pendP
  simp only [Bool.and_eq_true, not_and, decide_eq_true_eq]
  intro _ _
  omega

theorem canonPrefix_succ (stream : List SeqMsg) (n : Nat) (hn : n < stream.length) :
    canonPrefix stream (n + 1) = applyMsg (stream.get ⟨n, hn⟩) (canonPrefix stream n) := by
  unfold canonPrefix
  rw [List.take_succ]
  simp only [List.getElem?_eq_getElem hn, Option.toList_some]
  rw [List.foldl_append]
  rfl

/-- Along a well-formed stream, sequence numbers are strictly increasing. -/
theorem stream_seq_sorted {stream : List SeqMsg} (hwf : StreamWF stream) :
    stream.Pairwise (fun a b => a.seq < b.seq) := by
  apply List.pairwise_iff_get.mpr
  intro i j hij
  have hi := hwf.seqPos i.1 i.2
  have hj := hwf.seqPos j.1 j.2
  rw [hi, hj]
  omega

/-- FIFO: an op of one client with a smaller reference point was sequenced
first. -/
theorem fifo_seq_lt {stream : List SeqMsg} (hwf : StreamWF stream) {m1 m2 : SeqMsg}
    (h1 : m1 ∈ stream) (h2 : m2 ∈ stream) (hc : m1.client = m2.client)
    (hr : m1.refSeq < m2.refSeq) : m1.seq < m2.seq := by
  obtain ⟨i1, hi1, hg1, hs1⟩ := mem_stream_seq hwf h1
  obtain ⟨i2, hi2, hg2, hs2⟩ := mem_stream_seq hwf h2
  have hpw := List.pairwise_iff_get.mp hwf.fifo
  rcases Nat.lt_trichotomy i1 i2 with h | h | h
  · omega
  · subst h
    rw [← hg1, ← hg2] at hr
    omega
  · have := hpw ⟨i2, hi2⟩ ⟨i1, hi1⟩ h
    rw [hg1, hg2] at this
    have := (this hc.symm).2
    omega

theorem contains_congr {l1 l2 : List Nat} (h : ∀ x, x ∈ l1 ↔ x ∈ l2) :
    ∀ x, l1.contains x = l2.contains x := by
  intro x
  by_cases hx : x ∈ l1
  · have h1 : l1.contains x = true := by simpa [List.contains] using hx
    have h2 : l2.contains x = true := by simpa [List.contains] using (h x).mp hx
    rw [h1, h2]
  · have h1 : l1.contains x = false := by
      rw [Bool.eq_false_iff]
      intro hmm
      exact hx (by simpa [List.contains] using hmm)
    have h2 : l2.contains x = false := by
      rw [Bool.eq_false_iff]
      intro hmm
      exact hx ((h x).mpr (by simpa [List.contains] using hmm))
    rw [h1, h2]

theorem applyLocal_mask_msg2 (me : Nat) (K : List Nat) (n : Nat) (b : SeqMsg) (hc : b.client = me)
    (hr : b.refSeq = n) (hn : n < b.seq) (T : List Item)
    (hfresh : AllArt (fun c' k' _ => ¬(c' = me ∧ k' = b.clientSeq)) T)
    (hart : AllArt (OwnCond me (b.clientSeq :: K) n b.seq) T) :
    applyLocal me n b.clientSeq b.ops (maskList me K T)
      = maskList me (b.clientSeq :: K) (applyMsg b T) := by
  have h := applyLocal_mask_msg me K b.clientSeq n b.seq b.ops T hn hfresh hart
  cases b with
  | mk seq client clientSeq refSeq ops =>
    simp only at hc hr h ⊢
    subst hc
    subst hr
    exact h

/-- Issuing a stream-ordered batch of one's own ops at reference point n,
on the masked pending state, extends the pending set and the canonical
pending fold by the batch. -/
theorem issue_fold_aux (me n : Nat) {stream : List SeqMsg} (hwf : StreamWF stream) :
    ∀ (rest P : List SeqMsg),
    (∀ b ∈ rest, b ∈ stream ∧ b.client = me ∧ b.refSeq = n) →
    (∀ p ∈ P, p ∈ stream ∧ p.client = me ∧ n < p.seq) →
    (∀ p ∈ P, ∀ b ∈ rest, p.seq < b.seq) →
    rest.Pairwise (fun a b => a.seq < b.seq) →
    rest.foldl (fun acc mm => applyLocal me n mm.clientSeq mm.ops acc)
        (maskList me (P.map (fun m => m.clientSeq))
          (P.foldl (fun l q => applyMsg q l) (canonPrefix stream n)))
      = maskList me ((P ++ rest).map (fun m => m.clientSeq))
          ((P ++ rest).foldl (fun l q => applyMsg q l) (canonPrefix stream n)) := by
  intro rest
  induction rest with
  | nil =>
    intro P _ _ _ _
    simp
  | cons b rest' ih =>
    intro P hres hP horder hsort
    obtain ⟨hbS, hbc, hbr⟩ := hres b (List.mem_cons_self b rest')
    have hbn : n < b.seq := by
      have := hwf.refLt b hbS
      omega
    set C := canonPrefix stream n with hC
    set F := P.foldl (fun l q => applyMsg q l) C with hF
    have hpool : ∀ mm ∈ stream.take n ++ P, mm ∈ stream := by
      intro mm hmm
      rcases List.mem_append.mp hmm with h | h
      · exact List.take_subset n stream h
      · exact (hP mm h).1
    have htag : AllArt (Tagged (stream.take n ++ P)) F := by
      apply AllArt_foldl_applyMsg P (fun q hq => List.mem_append_right _ hq)
      exact AllArt_mono
        (fun c k sq => Tagged_mono (fun x hx => List.mem_append_left _ hx) c k sq)
        C (canonPrefix_tagged stream n)
    have hfreshTag : ∀ c k sq, Tagged (stream.take n ++ P) c k sq →
        ¬(c = me ∧ k = b.clientSeq) := by
      intro c k sq ⟨mm, hmm, e1, e2, e3⟩ ⟨hcm, hkb⟩
      have hmmb : mm = b := by
        apply stream_clientSeq_inj hwf (hpool mm hmm) hbS
        · rw [e1, hcm, hbc]
        · rw [e2, hkb]
      rcases List.mem_append.mp hmm with h | h
      · have := mem_take_seq_le hwf n h
        rw [hmmb] at this
        omega
      · have := horder mm h b (List.mem_cons_self b rest')
        rw [hmmb] at this
        omega
    have hfresh : AllArt (fun c' k' _ => ¬(c' = me ∧ k' = b.clientSeq)) F :=
      AllArt_mono (fun c k sq ht => hfreshTag c k sq ht) F htag
    have hart : AllArt (OwnCond me (b.clientSeq :: P.map (fun m => m.clientSeq)) n b.seq) F := by
      apply AllArt_mono ?_ F htag
      intro c k sq ht
      obtain ⟨mm, hmm, e1, e2, e3⟩ := ht
      refine ⟨?_, ?_, ?_⟩
      · intro hcm hkmem
        rcases List.mem_cons.mp hkmem with hk | hk
        · exact absurd ⟨hcm, hk⟩ (hfreshTag c k sq ⟨mm, hmm, e1, e2, e3⟩)
        · obtain ⟨p, hp, hpcs⟩ := List.mem_map.mp hk
          have hmmp : mm = p := by
            apply stream_clientSeq_inj hwf (hpool mm hmm) (hP p hp).1
            · rw [e1, hcm, (hP p hp).2.1]
            · rw [e2, ← hpcs]
          refine ⟨mm.seq, e3, ?_⟩
          rw [hmmp]
          exact (hP p hp).2.2
      · intro hcne
        rcases List.mem_append.mp hmm with h | h
        · exact ⟨mm.seq, e3, mem_take_seq_le hwf n h⟩
        · exact absurd (e1 ▸ (hP mm h).2.1) hcne
      · rcases List.mem_append.mp hmm with h | h
        · have := mem_take_seq_le hwf n h
          exact ⟨mm.seq, e3, by omega⟩
        · have := horder mm h b (List.mem_cons_self b rest')
          exact ⟨mm.seq, e3, by omega⟩
    have step := applyLocal_mask_msg2 me (P.map (fun m => m.clientSeq)) n b hbc hbr hbn F
      hfresh hart
    simp only [List.foldl_cons]
    rw [step]
    have hkeys : ∀ x, (b.clientSeq :: P.map (fun m => m.clientSeq)).contains x
        = ((P ++ [b]).map (fun m => m.clientSeq)).contains x := by
      apply contains_congr
      intro x
      simp only [List.mem_cons, List.map_append, List.mem_append, List.map_cons,
        List.map_nil, List.mem_singleton]
      tauto
    rw [maskList_congr me hkeys]
    have hfold : applyMsg b F
        = (P ++ [b]).foldl (fun l q => applyMsg q l) C := by
      rw [List.foldl_append]
      rfl
    rw [hfold]
    have hres' : ∀ b2 ∈ rest', b2 ∈ stream ∧ b2.client = me ∧ b2.refSeq = n :=
      fun b2 hb2 => hres b2 (List.mem_cons_of_mem b hb2)
    have hP' : ∀ p ∈ P ++ [b], p ∈ stream ∧ p.client = me ∧ n < p.seq := by
      intro p hp
      rcases List.mem_append.mp hp with h | h
      · exact hP p h
      · rw [List.mem_singleton.mp h]
        exact ⟨hbS, hbc, hbn⟩
    have horder' : ∀ p ∈ P ++ [b], ∀ b2 ∈ rest', p.seq < b2.seq := by
      intro p hp b2 hb2
      rcases List.mem_append.mp hp with h | h
      · exact horder p h b2 (List.mem_cons_of_mem b hb2)
      · rw [List.mem_singleton.mp h]
        exact List.rel_of_pairwise_cons hsort hb2
    have hsort' := List.Pairwise.of_cons hsort
    have := ih (P ++ [b]) hres' hP' horder' hsort'
    rw [this]
    have hassoc : (P ++ [b]) ++ rest' = P ++ (b :: rest') := by
      rw [List.append_assoc]
      rfl
    rw [hassoc]

/-- The replica invariant: the replica's state at stream point n is the
masked canonical state extended by the pending own messages. -/
def Inv (me : Nat) (stream : List SeqMsg) (n : Nat) : List Item :=
  maskList me ((pendMsgs me stream n).map (fun m => m.clientSeq))
    ((pendMsgs me stream n).foldl (fun l q => applyMsg q l) (canonPrefix stream n))

theorem replicaStep_inv (me : Nat) {stream : List SeqMsg} (hwf : StreamWF stream)
    (n : Nat) (hn : n < stream.length) :
    replicaStep me stream (Inv me stream n) n (stream.get ⟨n, hn⟩)
      = Inv me stream (n + 1) := by
  set m := stream.get ⟨n, hn⟩ with hm
  have hmS : m ∈ stream := List.get_mem stream n hn
  have hmseq : m.seq = n + 1 := hwf.seqPos n hn
  have hmref : m.refSeq < m.seq := hwf.refLt m hmS
  set C := canonPrefix stream n with hC
  set pend := pendMsgs me stream n with hpend
  set batch := stream.filter (batchP me n) with hbatch
  -- Phase 1: issuing the batch
  have hissue : issueBatch me stream n (Inv me stream n)
      = maskList me ((pend ++ batch).map (fun mm => mm.clientSeq))
          ((pend ++ batch).foldl (fun l q => applyMsg q l) C) := by
    rw [issueBatch_eq]
    apply issue_fold_aux me n hwf batch pend
    · intro b hb
      have h1 := List.of_mem_filter hb
      have h2 := List.mem_of_mem_filter hb
      unfold batchP at h1
      simp only [Bool.and_eq_true, beq_iff_eq] at h1
      exact ⟨h2, h1.1, h1.2⟩
    · intro p hp
      have := pendMsgs_sub me stream n p hp
      exact ⟨this.1, this.2.1, this.2.2.2⟩
    · intro p hp b hb
      have hps := pendMsgs_sub me stream n p hp
      have h1 := List.of_mem_filter hb
      have h2 := List.mem_of_mem_filter hb
      unfold batchP at h1
      simp only [Bool.and_eq_true, beq_iff_eq] at h1
      apply fifo_seq_lt hwf hps.1 h2 (hps.2.1.trans h1.1.symm)
      omega
    · exact List.Pairwise.sublist (List.filter_sublist stream) (stream_seq_sorted hwf)
  have hmid : pend ++ batch = stream.filter (midP me n) := by
    rw [hpend, pendMsgs_eq_filter, hbatch]
    exact (mid_split me hwf n).symm
  by_cases hcme : m.client = me
  · -- own echo
    have hmidc : stream.filter (midP me n) = m :: pendMsgs me stream (n + 1) :=
      mid_eq_cons_pend_succ_own me hwf n hn hcme
    set pend' := pendMsgs me stream (n + 1) with hpend'
    have hpend'sub := pendMsgs_sub me stream (n + 1)
    have hstep : replicaStep me stream (Inv me stream n) n m
        = ackMsg me m (issueBatch me stream n (Inv me stream n)) := by
      unfold replicaStep
      rw [if_pos (by simp [hcme])]
    rw [hstep, hissue, hmid, hmidc]
    have hfold2 : ((m :: pend').foldl (fun l q => applyMsg q l) C)
        = pend'.foldl (fun l q => applyMsg q l) (canonPrefix stream (n + 1)) := by
      simp only [List.foldl_cons]
      rw [canonPrefix_succ stream n hn]
    rw [show ((m :: pend').map (fun mm => mm.clientSeq))
        = m.clientSeq :: pend'.map (fun mm => mm.clientSeq) from rfl]
    rw [hfold2]
    set F' := pend'.foldl (fun l q => applyMsg q l) (canonPrefix stream (n + 1)) with hF'
    have hpool : ∀ mm ∈ stream.take (n + 1) ++ pend', mm ∈ stream := by
      intro mm hmm
      rcases List.mem_append.mp hmm with h | h
      · exact List.take_subset (n + 1) stream h
      · exact (hpend'sub mm h).1
    have htag : AllArt (Tagged (stream.take (n + 1) ++ pend')) F' := by
      apply AllArt_foldl_applyMsg pend' (fun q hq => List.mem_append_right _ hq)
      exact AllArt_mono
        (fun c k sq => Tagged_mono (fun x hx => List.mem_append_left _ hx) c k sq)
        _ (canonPrefix_tagged stream (n + 1))
    have hcs : m.clientSeq ∉ pend'.map (fun mm => mm.clientSeq) := by
      intro hmem
      obtain ⟨p, hp, hpcs⟩ := List.mem_map.mp hmem
      have hpm : p = m := stream_clientSeq_inj hwf (hpend'sub p hp).1 hmS
        ((hpend'sub p hp).2.1.trans hcme.symm) hpcs
      have := (hpend'sub p hp).2.2.2
      rw [hpm] at this
      omega
    have hart : AllArt (fun c' k' sq => c' = me → k' = m.clientSeq → sq = some m.seq) F' := by
      apply AllArt_mono ?_ F' htag
      intro c k sq ⟨mm, hmm, e1, e2, e3⟩ hcm hkm
      have hmmm : mm = m := stream_clientSeq_inj hwf (hpool mm hmm) hmS
        (by rw [e1, hcm, hcme]) (by rw [e2, hkm])
      rw [e3, hmmm]
    exact ackMsg_maskList me (pend'.map (fun mm => mm.clientSeq)) m F' hcs hart
  · -- remote message
    have hmidc : stream.filter (midP me n) = pendMsgs me stream (n + 1) :=
      mid_eq_pend_succ_remote me hwf n hn hcme
    set pend' := pendMsgs me stream (n + 1) with hpend'
    have hpend'sub := pendMsgs_sub me stream (n + 1)
    have hstep : replicaStep me stream (Inv me stream n) n m
        = applyMsg m (issueBatch me stream n (Inv me stream n)) := by
      unfold replicaStep
      rw [if_neg (by simp [hcme])]
    rw [hstep, hissue, hmid, hmidc]
    set F := pend'.foldl (fun l q => applyMsg q l) C with hF
    have hpool : ∀ mm ∈ stream.take n ++ pend', mm ∈ stream := by
      intro mm hmm
      rcases List.mem_append.mp hmm with h | h
      · exact List.take_subset n stream h
      · exact (hpend'sub mm h).1
    have htag : AllArt (Tagged (stream.take n ++ pend')) F := by
      apply AllArt_foldl_applyMsg pend' (fun q hq => List.mem_append_right _ hq)
      exact AllArt_mono
        (fun c k sq => Tagged_mono (fun x hx => List.mem_append_left _ hx) c k sq)
        _ (canonPrefix_tagged stream n)
    have hart : AllArt (fun c' k' sq => c' = me →
        k' ∈ pend'.map (fun mm => mm.clientSeq) →
        ∃ t, sq = some t ∧ m.seq < t) F := by
      apply AllArt_mono ?_ F htag
      intro c k sq ⟨mm, hmm, e1, e2, e3⟩ hcm hkmem
      obtain ⟨p, hp, hpcs⟩ := List.mem_map.mp hkmem
      have hmmp : mm = p := by
        apply stream_clientSeq_inj hwf (hpool mm hmm) (hpend'sub p hp).1
        · rw [e1, hcm, (hpend'sub p hp).2.1]
        · rw [e2, ← hpcs]
      refine ⟨mm.seq, e3, ?_⟩
      have := (hpend'sub p hp).2.2.2
      rw [hmmp]
      omega
    rw [applyMsg_mask_remote me (pend'.map (fun mm => mm.clientSeq)) m F hcme hmref hart]
    have hswap : applyMsg m F
        = pend'.foldl (fun l q => applyMsg q l) (canonPrefix stream (n + 1)) := by
      rw [hF, applyMsg_pend_swap m me hcme hmref pend' C ?_ ?_,
        ← canonPrefix_succ stream n hn]
      · intro q hq
        have h := hpend'sub q hq
        refine ⟨h.2.1, by omega, by omega⟩
      · intro it hit
        have h := canonPrefix_tagged stream n it hit
        obtain ⟨mm, hmm, e1, e2, e3⟩ := h.1
        right
        refine ⟨mm.seq, e3, ?_⟩
        have := mem_take_seq_le hwf n hmm
        omega
    rw [hswap]
    rfl

theorem replicaRunAux_inv (me : Nat) {stream : List SeqMsg} (hwf : StreamWF stream) :
    ∀ (rest : List SeqMsg) (n : Nat), stream.drop n = rest →
    replicaRunAux me stream n rest (Inv me stream n) = Inv me stream (n + rest.length) := by
  intro rest
  induction rest with
  | nil =>
    intro n _
    rfl
  | cons mm rest' ih =>
    intro n hdrop
    have hn : n < stream.length := by
      have hlen : (stream.drop n).length = rest'.length + 1 := by
        rw [hdrop]
        rfl
      simp only [List.length_drop] at hlen
      omega
    have hget : stream.get ⟨n, hn⟩ = mm := by
      have h0 : (stream.drop n)[0]? = some mm := by
        rw [hdrop]
        simp
      rw [List.getElem?_drop, Nat.add_zero, List.getElem?_eq_getElem hn] at h0
      exact Option.some.inj h0
    have hdrop2 : stream.drop (n + 1) = rest' := by
      have h1 : (stream.drop n).drop 1 = rest' := by
        rw [hdrop]
        rfl
      rw [List.drop_drop] at h1
      exact h1
    show replicaRunAux me stream (n + 1) rest'
        (replicaStep me stream (Inv me stream n) n mm) = _
    rw [← hget, replicaStep_inv me hwf n hn, ih (n + 1) hdrop2]
    have harith : n + (stream.get ⟨n, hn⟩ :: rest').length = n + 1 + rest'.length := by
      simp only [List.length_cons]
      omega
    rw [harith]

theorem Inv_zero (me : Nat) (stream : List SeqMsg) : Inv me stream 0 = [] := by
  unfold Inv
  rw [pendMsgs_zero]
  rfl

theorem Inv_final (me : Nat) {stream : List SeqMsg} (hwf : StreamWF stream) :
    Inv me stream stream.length = canonicalRun stream := by
  unfold Inv
  rw [pendMsgs_final me hwf]
  simp only [List.map_nil, List.foldl_nil]
  rw [maskList_nilK]
  unfold canonPrefix canonicalRun
  rw [List.take_length]

/-- The replica of any client converges to the canonical fold of the
sequenced stream. -/
theorem replicaRun_eq_canonical (me : Nat) {stream : List SeqMsg} (hwf : StreamWF stream) :
    replicaRun me stream = canonicalRun stream := by
  unfold replicaRun
  have h0 : ([] : List Item) = Inv me stream 0 := (Inv_zero me stream).symm
  rw [h0, replicaRunAux_inv me hwf stream 0 rfl]
  simp only [Nat.zero_add]
  exact Inv_final me hwf

/-- The spec's helloworld example: client 1 inserts hello at position 0
(sequenced first), client 2 concurrently inserts world at position 0 with
reference sequence number 0. -/
def helloStream : List SeqMsg :=
  [⟨1, 1, 1, 0, [BasicOp.ins 0 [104, 101, 108, 108, 111] []]⟩,
   ⟨2, 2, 1, 0, [BasicOp.ins 0 [119, 111, 114, 108, 100] []]⟩]

/-- Convergence: any two replicas reach the same state. -/
theorem replica_convergence {stream : List SeqMsg} (hwf : StreamWF stream) (a b : Nat) :
    replicaRun a stream = replicaRun b stream := by
  rw [replicaRun_eq_canonical a hwf, replicaRun_eq_canonical b hwf]

end MergeModel

section SnapshotLemmas

namespace SnapshotModel

/-- Flattened content units of a segment list, without visibility filtering. -/
def flatSegs : List MSeg → List (Nat × List (Nat × Int))
  | [] => []
  | s :: r => s.text.map (fun c => (c, s.props)) ++ flatSegs r

theorem flatSegs_append (a b : List MSeg) :
    flatSegs (a ++ b) = flatSegs a ++ flatSegs b := by
  induction a with
  | nil => rfl
  | cons s r ih => simp [flatSegs, ih]

theorem foldr_units_eq_flatSegs (l : List MSeg) :
    l.foldr (fun s r => s.text.map (fun c => (c, s.props)) ++ r) [] = flatSegs l := by
  induction l with
  | nil => rfl
  | cons s r ih => simp [flatSegs, ih]

theorem linearize_eq_flat (t : List MSeg) :
    linearize t = flatSegs (visibleSegs t) := by
  unfold linearize
  exact foldr_units_eq_flatSegs _

theorem getText_eq_map_fst (t : List MSeg) :
    getText t = (linearize t).map Prod.fst := by
  rw [linearize_eq_flat]
  unfold getText
  induction visibleSegs t with
  | nil => rfl
  | cons s r ih =>
    simp only [flatSegs, List.map_append, List.foldr_cons, ih, List.map_map]
    congr 1
    exact (List.map_id s.text).symm

theorem getLength_eq_linearize_length (t : List MSeg) :
    getLength t = (linearize t).length := by
  rw [linearize_eq_flat]
  unfold getLength
  induction visibleSegs t with
  | nil => rfl
  | cons s r ih => simp [flatSegs, ih]

theorem splitSegs_fst_flat (cap : Nat) (l : List MSeg) :
    flatSegs (splitSegs cap l).1 = (flatSegs l).take cap := by
  induction l generalizing cap with
  | nil => simp [splitSegs, flatSegs]
  | cons s r ih =>
    cases cap with
    | zero => simp [splitSegs, flatSegs]
    | succ n =>
      by_cases h1 : s.text.length ≤ n + 1
      · simp only [splitSegs, if_pos h1, flatSegs]
        rw [ih]
        rw [List.take_append_eq_append_take]
        have h1' : (s.text.map (fun c => (c, s.props))).length ≤ n + 1 := by
          simpa using h1
        rw [List.take_of_length_le h1']
        simp
      · simp only [splitSegs, if_neg h1, flatSegs]
        rw [List.take_append_eq_append_take]
        have hlt : n + 1 ≤ (s.text.map (fun c => (c, s.props))).length := by
          simp
          omega
        rw [Nat.sub_eq_zero_of_le hlt]
        simp [List.map_take]

theorem splitSegs_snd_flat (cap : Nat) (l : List MSeg) :
    flatSegs (splitSegs cap l).2 = (flatSegs l).drop cap := by
  induction l generalizing cap with
  | nil => simp [splitSegs, flatSegs]
  | cons s r ih =>
    cases cap with
    | zero => simp [splitSegs, flatSegs]
    | succ n =>
      by_cases h1 : s.text.length ≤ n + 1
      · simp only [splitSegs, if_pos h1, flatSegs]
        rw [ih]
        rw [List.drop_append_eq_append_drop]
        have h1' : (s.text.map (fun c => (c, s.props))).length ≤ n + 1 := by
          simpa using h1
        rw [List.drop_eq_nil_of_le h1']
        simp
      · simp only [splitSegs, if_neg h1, flatSegs]
        rw [List.drop_append_eq_append_drop]
        have hlt : n + 1 ≤ (s.text.map (fun c => (c, s.props))).length := by
          simp
          omega
        rw [Nat.sub_eq_zero_of_le hlt]
        simp [List.map_drop]

theorem splitSegs_live (cap : Nat) (l : List MSeg) (h : ∀ s ∈ l, s.removedSeq = none) :
    (∀ s ∈ (splitSegs cap l).1, s.removedSeq = none)
    ∧ (∀ s ∈ (splitSegs cap l).2, s.removedSeq = none) := by
  induction l generalizing cap with
  | nil => simp [splitSegs]
  | cons s r ih =>
    have hs := h s (List.mem_cons_self s r)
    have hr : ∀ x ∈ r, x.removedSeq = none := fun x hx => h x (List.mem_cons_of_mem s hx)
    cases cap with
    | zero =>
      simp only [splitSegs]
      exact ⟨by simp, fun x hx => h x hx⟩
    | succ n =>
      by_cases h1 : s.text.length ≤ n + 1
      · have := ih (n + 1 - s.text.length) hr
        simp only [splitSegs, if_pos h1]
        constructor
        · intro x hx
          rcases List.mem_cons.mp hx with h' | h'
          · rw [h']; exact hs
          · exact this.1 x h'
        · exact this.2
      · simp only [splitSegs, if_neg h1]
        refine ⟨?_, ?_⟩
        · intro x hx
          simp only [List.mem_singleton] at hx
          rw [hx]
          exact hs
        · intro x hx
          rcases List.mem_cons.mp hx with h' | h'
          · rw [h']; exact hs
          · exact hr x h'

theorem visibleSegs_of_live (l : List MSeg) (h : ∀ s ∈ l, s.removedSeq = none) :
    visibleSegs l = l := by
  unfold visibleSegs
  apply List.filter_eq_self.mpr
  intro s hs
  simpa using h s hs

theorem visibleSegs_live (t : List MSeg) :
    ∀ s ∈ visibleSegs t, s.removedSeq = none := by
  intro s hs
  have := List.of_mem_filter hs
  simpa using this

theorem extract_live (t : List MSeg) :
    (∀ s ∈ (extract t).1, s.removedSeq = none)
    ∧ (∀ s ∈ (extract t).2, s.removedSeq = none) :=
  splitSegs_live sizeOfFirstChunk (visibleSegs t) (visibleSegs_live t)

theorem linearize_load_header_body (t : List MSeg) :
    linearize (load (extract t).1 (extract t).2) = linearize t := by
  have hlive := extract_live t
  rw [linearize_eq_flat, linearize_eq_flat]
  unfold load
  rw [visibleSegs_of_live _ (by
    intro s hs
    rcases List.mem_append.mp hs with h' | h'
    · exact hlive.1 s h'
    · exact hlive.2 s h')]
  rw [flatSegs_append]
  unfold extract
  rw [splitSegs_fst_flat, splitSegs_snd_flat]
  exact List.take_append_drop _ _

theorem linearize_load_header_only (t : List MSeg) :
    linearize (load (extract t).1 []) = (linearize t).take sizeOfFirstChunk := by
  have hlive := extract_live t
  rw [linearize_eq_flat, linearize_eq_flat]
  unfold load
  rw [List.append_nil]
  rw [visibleSegs_of_live _ hlive.1]
  unfold extract
  exact splitSegs_fst_flat _ _

end SnapshotModel

end SnapshotLemmas

section QuorumLemmas

namespace QuorumModel

theorem foldr_min_le_init (d : Nat) (l : List Nat) : l.foldr min d ≤ d := by
  induction l with
  | nil => exact Nat.le_refl d
  | cons a t ih => exact le_trans (Nat.min_le_right a _) ih

theorem foldr_min_init_comm (d c : Nat) (l : List Nat) (hd : d ≤ c) :
    l.foldr min d = min d (l.foldr min c) := by
  induction l with
  | nil => simp [Nat.min_eq_left hd]
  | cons a t ih =>
    simp only [List.foldr_cons, ih]
    rw [← Nat.min_assoc, Nat.min_comm a d, Nat.min_assoc]

theorem foldr_min_mono_init (c c' : Nat) (l : List Nat) (h : c ≤ c') :
    l.foldr min c ≤ l.foldr min c' := by
  induction l with
  | nil => exact h
  | cons a t ih => exact min_le_min (Nat.le_refl a) ih

theorem foldr_min_sublist (c : Nat) (l1 l2 : List Nat) (h : l1.Sublist l2) :
    l2.foldr min c ≤ l1.foldr min c := by
  induction h with
  | slnil => exact Nat.le_refl _
  | cons a _ ih => exact le_trans (Nat.min_le_right a _) ih
  | cons₂ a _ ih => exact min_le_min (Nat.le_refl a) ih

theorem foldr_min_map_le {α : Type} (f g : α → Nat) (l : List α) (c : Nat)
    (h : ∀ x ∈ l, f x ≤ g x) :
    (l.map f).foldr min c ≤ (l.map g).foldr min c := by
  induction l with
  | nil => exact Nat.le_refl _
  | cons a t ih =>
    simp only [List.map_cons, List.foldr_cons]
    exact min_le_min (h a (List.mem_cons_self a t))
      (ih (fun x hx => h x (List.mem_cons_of_mem a hx)))

/-- The minimum sequence number computed as a fold with currentSeq as the
base; equal to minimumSequenceNumber on well-formed quorums. -/
def minFold (q : Quorum) : Nat :=
  (q.members.map Prod.snd).foldr min q.currentSeq

theorem minimumSequenceNumber_eq_minFold (q : Quorum) (h : QWF q) :
    minimumSequenceNumber q = minFold q := by
  unfold minimumSequenceNumber minFold
  cases hm : q.members with
  | nil => simp
  | cons m ms =>
    have hm2 : m.2 ≤ q.currentSeq := h m (by rw [hm]; exact List.mem_cons_self m ms)
    simp only [List.map_cons, List.foldr_cons]
    exact foldr_min_init_comm m.2 q.currentSeq (ms.map Prod.snd) hm2

theorem minFold_le_currentSeq (q : Quorum) : minFold q ≤ q.currentSeq :=
  foldr_min_le_init _ _

theorem qstep_wf (q : Quorum) (e : QEvent) (h : QWF q) : QWF (qstep q e) := by
  cases e with
  | join c =>
    intro m hm
    by_cases hj : q.members.any (fun m => m.1 = c)
    · simp only [qstep, if_pos hj] at hm ⊢
      exact h m hm
    · simp only [qstep, if_neg hj] at hm ⊢
      rcases List.mem_cons.mp hm with h' | h'
      · rw [h']
      · exact h m h'
  | leave c =>
    intro m hm
    exact h m (List.mem_of_mem_filter hm)
  | ack c n =>
    intro m hm
    simp only [qstep] at hm
    rcases List.mem_map.mp hm with ⟨x, hx, hxm⟩
    by_cases hc : x.1 = c
    · simp only [hc, if_pos rfl] at hxm
      rw [← hxm]
      exact max_le (h x hx) (le_trans (Nat.min_le_right n _) (Nat.le_refl _))
    · simp only [if_neg hc] at hxm
      rw [← hxm]
      exact h x hx
  | advance =>
    intro m hm
    exact le_trans (h m hm) (Nat.le_succ _)

theorem qstep_minFold_mono (q : Quorum) (e : QEvent) :
    minFold q ≤ minFold (qstep q e) := by
  cases e with
  | join c =>
    by_cases hj : q.members.any (fun m => m.1 = c)
    · simp [qstep, hj, Nat.le_refl]
    · simp only [qstep, hj, Bool.false_eq_true, if_false, minFold, List.map_cons,
        List.foldr_cons]
      exact Nat.le_min.mpr ⟨minFold_le_currentSeq q, Nat.le_refl _⟩
  | leave c =>
    apply foldr_min_sublist
    exact List.Sublist.map Prod.snd (List.filter_sublist q.members)
  | ack c n =>
    unfold minFold qstep
    simp only [List.map_map]
    apply foldr_min_map_le
    intro x _
    by_cases hc : x.1 = c
    · simp only [Function.comp_apply, hc, if_pos rfl]
      exact Nat.le_max_left _ _
    · simp only [Function.comp_apply, if_neg hc]
      exact Nat.le_refl _
  | advance =>
    exact foldr_min_mono_init _ _ _ (Nat.le_succ _)

theorem qsteps_wf (q : Quorum) (es : List QEvent) (h : QWF q) : QWF (qsteps q es) := by
  induction es generalizing q with
  | nil => exact h
  | cons e t ih => exact ih (qstep q e) (qstep_wf q e h)

theorem qsteps_append_single (q : Quorum) (es : List QEvent) (e : QEvent) :
    qsteps q (es ++ [e]) = qstep (qsteps q es) e := by
  unfold qsteps
  rw [List.foldl_append]
  rfl

end QuorumModel

end QuorumLemmas

section ClaimTheorems

/-- C5: on receiving the authoritative echo of a local operation (a local
message whose clientSequenceNumber matches the pending one), Cell.processCore
only clears the pending marker and leaves the data untouched, because the
content was already applied synchronously at submission time (Cell.set runs
setCore before submitCellMessage, and the counter process handler ignores
local messages for the same reason). -/
theorem claim_C5_local_ack_clears_pending_only
    (s : CellModel.CellState) (m : CellModel.Msg) (ctx : Option Int)
    (w v amount n : Int)
    (hp : s.pending ≠ -1) (hm : m.clientSequenceNumber = s.pending) :
    CellModel.processCore s m true ctx
      = Except.ok { data := s.data, pending := -1 }
    ∧ (CellModel.cellSet s v n).data = some v
    ∧ CounterModel.counterProcess w amount true = w := by
  refine ⟨?_, rfl, rfl⟩
  unfold CellModel.processCore
  rw [if_pos hp, if_pos ⟨rfl, hm⟩]

/-- Witness for C5 at a concrete pending cell receiving its ack. -/
theorem claim_C5_witness :
    ((⟨some 1, 4⟩ : CellModel.CellState).pending ≠ -1)
    ∧ CellModel.processCore ⟨some 1, 4⟩
        ⟨CellModel.MsgType.operation, CellModel.CellOp.setCell 9, 4⟩ true (some 9)
        = Except.ok { data := some 1, pending := -1 }
    ∧ (CellModel.cellSet ⟨some 1, 4⟩ 7 5).data = some 7
    ∧ CounterModel.counterProcess 3 2 true = 3 := by
  have h := claim_C5_local_ack_clears_pending_only ⟨some 1, 4⟩
      ⟨CellModel.MsgType.operation, CellModel.CellOp.setCell 9, 4⟩ (some 9) 3 7 2 5
      (by decide) rfl
  exact ⟨by decide, h.1, h.2.1, h.2.2⟩

/-- C10: while a Cell has a pending unacknowledged local op, processCore
leaves the data unchanged for every incoming message; the only effect any
message can have is the local ack with the matching clientSequenceNumber,
which resets the pending marker to -1; and submitting a second local op
overwrites the pending marker, so only the last-submitted op clears it. -/
theorem claim_C10_pending_freezes_cell
    (s : CellModel.CellState) (m : CellModel.Msg) (l : Bool) (ctx : Option Int)
    (n : Int) (hp : s.pending ≠ -1) :
    CellModel.processCore s m l ctx
      = Except.ok
          { data := s.data,
            pending := (if l ∧ m.clientSequenceNumber = s.pending then -1 else s.pending) }
    ∧ (CellModel.submitCellMessage s n).pending = n := by
  refine ⟨?_, rfl⟩
  unfold CellModel.processCore
  rw [if_pos hp]
  by_cases h : l = true ∧ m.clientSequenceNumber = s.pending
  · rw [if_pos h, if_pos h]
  · rw [if_neg h, if_neg h]

/-- Witness for C10: a remote setCell arriving at a pending cell has no
effect, and a new submission overwrites the pending marker. -/
theorem claim_C10_witness :
    ((⟨some 2, 3⟩ : CellModel.CellState).pending ≠ -1)
    ∧ CellModel.processCore ⟨some 2, 3⟩
        ⟨CellModel.MsgType.operation, CellModel.CellOp.setCell 11, 9⟩ false (some 11)
        = Except.ok
            { data := some 2,
              pending := (if False ∧ (9 : Int) = 3 then -1 else 3) }
    ∧ (CellModel.submitCellMessage ⟨some 2, 3⟩ 8).pending = 8 := by
  have h := claim_C10_pending_freezes_cell ⟨some 2, 3⟩
      ⟨CellModel.MsgType.operation, CellModel.CellOp.setCell 11, 9⟩ false (some 11) 8
      (by decide)
  exact ⟨by decide, by simpa using h.1, h.2⟩

/-- C4 amended: when the Cell has no pending local op, every remote Operation
message is either applied with its full effect (setCore for setCell,
deleteCore for deleteCell) or raises an explicit error for an unknown op
type; however, while a local op is pending, Cell.processCore deliberately
ignores every message, silently dropping remote operations until the matching
ack arrives (see the counterexample). -/
theorem claim_C4_remote_op_full_effect_or_error
    (s : CellModel.CellState) (m : CellModel.Msg) (ctx : Option Int)
    (hp : s.pending = -1) (hm : m.msgType = CellModel.MsgType.operation) :
    (∃ v, m.op = CellModel.CellOp.setCell v
        ∧ CellModel.processCore s m false ctx = Except.ok (CellModel.setCore s ctx))
    ∨ (m.op = CellModel.CellOp.deleteCell
        ∧ CellModel.processCore s m false ctx = Except.ok (CellModel.deleteCore s))
    ∨ (∃ tag, m.op = CellModel.CellOp.unknownOp tag
        ∧ CellModel.processCore s m false ctx
            = Except.error CellModel.CellErr.unknownOperation) := by
  cases hop : m.op with
  | setCell v =>
    exact Or.inl ⟨v, rfl, by simp [CellModel.processCore, hp, hm, hop]⟩
  | deleteCell =>
    exact Or.inr (Or.inl ⟨rfl, by simp [CellModel.processCore, hp, hm, hop]⟩)
  | unknownOp tag =>
    exact Or.inr (Or.inr ⟨tag, rfl, by simp [CellModel.processCore, hp, hm, hop]⟩)

/-- Witness for C4 at a concrete non-pending cell and a remote setCell. -/
theorem claim_C4_witness :
    ((⟨none, -1⟩ : CellModel.CellState).pending = -1)
    ∧ ((⟨CellModel.MsgType.operation, CellModel.CellOp.setCell 3, 5⟩ : CellModel.Msg).msgType
        = CellModel.MsgType.operation)
    ∧ ((∃ v, (⟨CellModel.MsgType.operation, CellModel.CellOp.setCell 3, 5⟩ : CellModel.Msg).op
            = CellModel.CellOp.setCell v
          ∧ CellModel.processCore ⟨none, -1⟩
              ⟨CellModel.MsgType.operation, CellModel.CellOp.setCell 3, 5⟩ false (some 3)
              = Except.ok (CellModel.setCore ⟨none, -1⟩ (some 3)))
      ∨ ((⟨CellModel.MsgType.operation, CellModel.CellOp.setCell 3, 5⟩ : CellModel.Msg).op
            = CellModel.CellOp.deleteCell
          ∧ CellModel.processCore ⟨none, -1⟩
              ⟨CellModel.MsgType.operation, CellModel.CellOp.setCell 3, 5⟩ false (some 3)
              = Except.ok (CellModel.deleteCore ⟨none, -1⟩))
      ∨ (∃ tag, (⟨CellModel.MsgType.operation, CellModel.CellOp.setCell 3, 5⟩ : CellModel.Msg).op
            = CellModel.CellOp.unknownOp tag
          ∧ CellModel.processCore ⟨none, -1⟩
              ⟨CellModel.MsgType.operation, CellModel.CellOp.setCell 3, 5⟩ false (some 3)
              = Except.error CellModel.CellErr.unknownOperation)) := by
  exact ⟨rfl, rfl,
    claim_C4_remote_op_full_effect_or_error ⟨none, -1⟩
      ⟨CellModel.MsgType.operation, CellModel.CellOp.setCell 3, 5⟩ (some 3) rfl rfl⟩

/-- C4 counterexample: a Cell with a pending local op (pending marker 1)
receives a remote setCell operation and silently drops it: processCore
returns the unchanged state (the data is not set to the operation's value)
and raises no error, contradicting the claim that every processed message is
either applied with its full effect or rejected with an explicit error. -/
theorem claim_C4_counterexample :
    CellModel.processCore ⟨none, 1⟩
        ⟨CellModel.MsgType.operation, CellModel.CellOp.setCell 42, 7⟩ false (some 42)
      = Except.ok ⟨none, 1⟩
    ∧ (⟨none, 1⟩ : CellModel.CellState).data
        ≠ (CellModel.setCore ⟨none, 1⟩ (some 42)).data := by
  exact ⟨rfl, by decide⟩

/-- C7 amended: when the Cell has no pending local op, a remote Operation
message with an unknown op type raises the explicit Unknown operation error
immediately; while a local op awaits its ack, every message, including one
with an unknown op type, is ignored without an error (see the
counterexample). -/
theorem claim_C7_unknown_op_type_raises
    (s : CellModel.CellState) (tag : Nat) (csn : Int) (ctx : Option Int)
    (hp : s.pending = -1) :
    CellModel.processCore s
        ⟨CellModel.MsgType.operation, CellModel.CellOp.unknownOp tag, csn⟩ false ctx
      = Except.error CellModel.CellErr.unknownOperation := by
  simp [CellModel.processCore, hp]

/-- Witness for C7 at a concrete non-pending cell. -/
theorem claim_C7_witness :
    ((⟨some 5, -1⟩ : CellModel.CellState).pending = -1)
    ∧ CellModel.processCore ⟨some 5, -1⟩
        ⟨CellModel.MsgType.operation, CellModel.CellOp.unknownOp 2, 6⟩ false none
      = Except.error CellModel.CellErr.unknownOperation :=
  ⟨rfl, claim_C7_unknown_op_type_raises ⟨some 5, -1⟩ 2 6 none rfl⟩

/-- C7 counterexample: a Cell with a pending local op silently skips a remote
message with an unknown operation type: processCore returns the state
unchanged and raises no error, contradicting the claim that an unknown
operation type is never silently skipped by the op-processing path. -/
theorem claim_C7_counterexample :
    CellModel.processCore ⟨none, 1⟩
        ⟨CellModel.MsgType.operation, CellModel.CellOp.unknownOp 0, 7⟩ false none
      = Except.ok ⟨none, 1⟩ := by
  rfl

end ClaimTheorems

section ClaimTheoremsB

/-- C6 amended: once a ComponentRuntime is closed, every call that is guarded
by verifyNotClosed (getChannel, createChannel, attachChannel, registerChannel
on a non-local runtime, the snapshot/save/quorum-style guarded calls, stop,
and the processing of Attach and Operation messages) is rejected with the
Runtime-is-closed error and therefore mutates nothing; however request, and
registerChannel on a local runtime, perform no closed check (see the
counterexample). -/
theorem claim_C6_closed_rejects_guarded_calls
    (s : RuntimeModel.RuntimeState) (registry : List Nat) (id chType a : Nat)
    (l : Bool) (hc : s.closed = true) :
    RuntimeModel.getChannel s id = Except.error RuntimeModel.RuntimeErr.runtimeIsClosed
    ∧ RuntimeModel.createChannel s registry id chType
        = Except.error RuntimeModel.RuntimeErr.runtimeIsClosed
    ∧ RuntimeModel.attachChannel s id
        = Except.error RuntimeModel.RuntimeErr.runtimeIsClosed
    ∧ (s.isLocalFlag = false →
        RuntimeModel.registerChannel s id
          = Except.error RuntimeModel.RuntimeErr.runtimeIsClosed)
    ∧ RuntimeModel.guardedCall s = Except.error RuntimeModel.RuntimeErr.runtimeIsClosed
    ∧ RuntimeModel.stop s = Except.error RuntimeModel.RuntimeErr.runtimeIsClosed
    ∧ RuntimeModel.process s RuntimeModel.RMsgType.attach a l
        = Except.error RuntimeModel.RuntimeErr.runtimeIsClosed
    ∧ RuntimeModel.process s RuntimeModel.RMsgType.operation a l
        = Except.error RuntimeModel.RuntimeErr.runtimeIsClosed := by
  refine ⟨?_, ?_, ?_, ?_, ?_, ?_, ?_, ?_⟩
  · simp [RuntimeModel.getChannel, RuntimeModel.verifyNotClosed, hc, Bind.bind, Except.bind]
  · simp [RuntimeModel.createChannel, RuntimeModel.verifyNotClosed, hc, Bind.bind, Except.bind]
  · simp [RuntimeModel.attachChannel, RuntimeModel.verifyNotClosed, hc, Bind.bind, Except.bind]
  · intro hl
    simp [RuntimeModel.registerChannel, hl, RuntimeModel.attachChannel,
      RuntimeModel.verifyNotClosed, hc, Bind.bind, Except.bind]
  · simp [RuntimeModel.guardedCall, RuntimeModel.verifyNotClosed, hc, Bind.bind, Except.bind]
  · simp [RuntimeModel.stop, RuntimeModel.verifyNotClosed, hc, Bind.bind, Except.bind]
  · simp [RuntimeModel.process, RuntimeModel.processAttach, RuntimeModel.verifyNotClosed,
      hc, Bind.bind, Except.bind]
  · simp [RuntimeModel.process, RuntimeModel.processOp, RuntimeModel.verifyNotClosed,
      hc, Bind.bind, Except.bind]

/-- Witness for C6 on a concrete closed, non-local runtime. -/
theorem claim_C6_witness :
    ((⟨true, false, [], [], [], []⟩ : RuntimeModel.RuntimeState).closed = true)
    ∧ RuntimeModel.getChannel ⟨true, false, [], [], [], []⟩ 0
        = Except.error RuntimeModel.RuntimeErr.runtimeIsClosed
    ∧ RuntimeModel.registerChannel ⟨true, false, [], [], [], []⟩ 0
        = Except.error RuntimeModel.RuntimeErr.runtimeIsClosed
    ∧ RuntimeModel.process ⟨true, false, [], [], [], []⟩ RuntimeModel.RMsgType.operation 0 false
        = Except.error RuntimeModel.RuntimeErr.runtimeIsClosed := by
  have h := claim_C6_closed_rejects_guarded_calls ⟨true, false, [], [], [], []⟩ [] 0 0 0 false rfl
  exact ⟨rfl, h.1, h.2.2.2.1 rfl, h.2.2.2.2.2.2.2⟩

/-- C6 counterexample: on a closed runtime, request is not rejected with the
Closed error (it still serves a response), and on a closed local runtime
registerChannel still mutates the attach queue; so not every call on a closed
runtime fails with Closed, and a call on a closed instance can mutate
state. -/
theorem claim_C6_counterexample :
    RuntimeModel.request ⟨true, false, [], [], [], []⟩ false 0
      = Except.ok (⟨true, false, [], [], [], []⟩, RuntimeModel.RequestResult.notFound)
    ∧ RuntimeModel.registerChannel ⟨true, true, [], [], [], []⟩ 5
      = Except.ok ⟨true, true, [], [], [5], []⟩ := by
  exact ⟨rfl, rfl⟩

/-- C8: when the channel type is registered, loading a channel whose declared
snapshot format version is present and differs from the extension version
logs the compatibility warning and still loads the channel; a matching or
undefined version loads with no warning.  In both cases the load succeeds. -/
theorem claim_C8_version_mismatch_warns_and_loads
    (registry : List (Nat × Nat)) (chType extV : Nat) (v : Option Nat)
    (hreg : registry.lookup chType = some extV) :
    (v ≠ none → v ≠ some extV →
      RuntimeModel.loadChannel registry chType v = Except.ok (true, chType))
    ∧ (v = none ∨ v = some extV →
      RuntimeModel.loadChannel registry chType v = Except.ok (false, chType)) := by
  constructor
  · intro h1 h2
    simp [RuntimeModel.loadChannel, hreg, h1, h2]
  · intro h
    rcases h with h | h
    · simp [RuntimeModel.loadChannel, hreg, h]
    · simp [RuntimeModel.loadChannel, hreg, h]

/-- Witness for C8 on a concrete registry: a mismatched version warns and
loads, an undefined version loads silently. -/
theorem claim_C8_witness :
    (([(2, 7)] : List (Nat × Nat)).lookup 2 = some 7)
    ∧ RuntimeModel.loadChannel [(2, 7)] 2 (some 5) = Except.ok (true, 2)
    ∧ RuntimeModel.loadChannel [(2, 7)] 2 none = Except.ok (false, 2) := by
  have h := claim_C8_version_mismatch_warns_and_loads [(2, 7)] 2 7 (some 5) (by decide)
  have h2 := claim_C8_version_mismatch_warns_and_loads [(2, 7)] 2 7 none (by decide)
  exact ⟨by decide, h.1 (by decide) (by decide), h2.2 (Or.inl rfl)⟩

/-- C2: the snapshot round trip preserves observable content: loading the
extracted header and body chunks yields a tree with the same getLength and
the same linearized content and per-position properties as the original
tree, even though the physical segment boundaries may differ (the straddling
segment is split at the chunk boundary). -/
theorem claim_C2_snapshot_round_trip (t : List SnapshotModel.MSeg) :
    SnapshotModel.getLength
        (SnapshotModel.load (SnapshotModel.extract t).1 (SnapshotModel.extract t).2)
      = SnapshotModel.getLength t
    ∧ SnapshotModel.linearize
        (SnapshotModel.load (SnapshotModel.extract t).1 (SnapshotModel.extract t).2)
      = SnapshotModel.linearize t := by
  constructor
  · rw [SnapshotModel.getLength_eq_linearize_length,
      SnapshotModel.getLength_eq_linearize_length,
      SnapshotModel.linearize_load_header_body]
  · exact SnapshotModel.linearize_load_header_body t

/-- C3: the text reconstructed from the header chunk alone is the front of
the original text cut at sizeOfFirstChunk; if the content fits in the header
chunk the header alone reconstructs the full text; and after also applying
the body chunk the reconstructed text and length equal the original
exactly. -/
theorem claim_C3_header_chunk_reconstruction (t : List SnapshotModel.MSeg) :
    SnapshotModel.getText (SnapshotModel.load (SnapshotModel.extract t).1 [])
      = (SnapshotModel.getText t).take SnapshotModel.sizeOfFirstChunk
    ∧ (SnapshotModel.getLength t ≤ SnapshotModel.sizeOfFirstChunk →
        SnapshotModel.getText (SnapshotModel.load (SnapshotModel.extract t).1 [])
          = SnapshotModel.getText t)
    ∧ SnapshotModel.getText
        (SnapshotModel.load (SnapshotModel.extract t).1 (SnapshotModel.extract t).2)
      = SnapshotModel.getText t
    ∧ SnapshotModel.getLength
        (SnapshotModel.load (SnapshotModel.extract t).1 (SnapshotModel.extract t).2)
      = SnapshotModel.getLength t := by
  have hfront : SnapshotModel.getText (SnapshotModel.load (SnapshotModel.extract t).1 [])
      = (SnapshotModel.getText t).take SnapshotModel.sizeOfFirstChunk := by
    rw [SnapshotModel.getText_eq_map_fst, SnapshotModel.getText_eq_map_fst,
      SnapshotModel.linearize_load_header_only, List.map_take]
  refine ⟨hfront, ?_, ?_, ?_⟩
  · intro hle
    rw [hfront]
    apply List.take_of_length_le
    rw [SnapshotModel.getText_eq_map_fst, List.length_map,
      ← SnapshotModel.getLength_eq_linearize_length]
    exact hle
  · rw [SnapshotModel.getText_eq_map_fst, SnapshotModel.getText_eq_map_fst,
      SnapshotModel.linearize_load_header_body]
  · exact (claim_C2_snapshot_round_trip t).1

/-- Witness for C3: a small tree that fits in the header chunk is fully
reconstructed from the header alone. -/
theorem claim_C3_witness :
    SnapshotModel.getLength [⟨[1, 2, 3], [(0, 1)], none⟩] ≤ SnapshotModel.sizeOfFirstChunk
    ∧ SnapshotModel.getText
        (SnapshotModel.load (SnapshotModel.extract [⟨[1, 2, 3], [(0, 1)], none⟩]).1 [])
      = SnapshotModel.getText [⟨[1, 2, 3], [(0, 1)], none⟩] :=
  ⟨by decide, (claim_C3_header_chunk_reconstruction _).2.1 (by decide)⟩

/-- C9: for every sequence of Quorum events (join, leave, acknowledgement,
stream advance) starting from a well-formed quorum, the computed minimum
sequence number never decreases from one event to the next. -/
theorem claim_C9_quorum_min_monotone
    (q0 : QuorumModel.Quorum) (h : QuorumModel.QWF q0)
    (es : List QuorumModel.QEvent) (e : QuorumModel.QEvent) :
    QuorumModel.minimumSequenceNumber (QuorumModel.qsteps q0 es)
      ≤ QuorumModel.minimumSequenceNumber (QuorumModel.qsteps q0 (es ++ [e])) := by
  rw [QuorumModel.qsteps_append_single]
  have hw := QuorumModel.qsteps_wf q0 es h
  rw [QuorumModel.minimumSequenceNumber_eq_minFold _ hw,
    QuorumModel.minimumSequenceNumber_eq_minFold _ (QuorumModel.qstep_wf _ e hw)]
  exact QuorumModel.qstep_minFold_mono _ e

/-- Witness for C9: a concrete run where a client joins, acknowledges, and
then leaves; the minimum does not decrease at the leave event. -/
theorem claim_C9_witness :
    QuorumModel.QWF (QuorumModel.initialQuorum 0)
    ∧ QuorumModel.minimumSequenceNumber
        (QuorumModel.qsteps (QuorumModel.initialQuorum 0)
          [QuorumModel.QEvent.join 1, QuorumModel.QEvent.advance,
            QuorumModel.QEvent.ack 1 1])
      ≤ QuorumModel.minimumSequenceNumber
        (QuorumModel.qsteps (QuorumModel.initialQuorum 0)
          ([QuorumModel.QEvent.join 1, QuorumModel.QEvent.advance,
            QuorumModel.QEvent.ack 1 1] ++ [QuorumModel.QEvent.leave 1])) := by
  have hwf : QuorumModel.QWF (QuorumModel.initialQuorum 0) := by
    intro m hm
    simp [QuorumModel.initialQuorum] at hm
  exact ⟨hwf, claim_C9_quorum_min_monotone _ hwf _ _⟩

end ClaimTheoremsB

section ClaimTheoremC1

/-- C1: For any two replicas that have applied the same prefix of the
sequenced operation stream, regardless of how each interleaved its own
local optimistic applications before receiving that stream, the results of
getText() and getLength() and all segment properties are identical on both
replicas. -/
theorem claim_C1_two_replica_convergence (stream : List MergeModel.SeqMsg)
    (hwf : MergeModel.StreamWF stream) (a b : Nat) :
    MergeModel.getTextItems (MergeModel.replicaRun a stream)
        = MergeModel.getTextItems (MergeModel.replicaRun b stream)
    ∧ MergeModel.getLengthItems (MergeModel.replicaRun a stream)
        = MergeModel.getLengthItems (MergeModel.replicaRun b stream)
    ∧ MergeModel.getPropsItems (MergeModel.replicaRun a stream)
        = MergeModel.getPropsItems (MergeModel.replicaRun b stream) := by
  rw [MergeModel.replica_convergence hwf a b]
  exact ⟨rfl, rfl, rfl⟩

/-- Witness for C1 at the spec's helloworld stream: the stream is
well-formed, the two replicas agree, and both read helloworld. -/
theorem claim_C1_witness :
    MergeModel.StreamWF MergeModel.helloStream
    ∧ MergeModel.getTextItems (MergeModel.replicaRun 1 MergeModel.helloStream)
        = MergeModel.getTextItems (MergeModel.replicaRun 2 MergeModel.helloStream)
    ∧ MergeModel.getTextItems (MergeModel.replicaRun 1 MergeModel.helloStream)
        = [104, 101, 108, 108, 111, 119, 111, 114, 108, 100] := by
  have hwf : MergeModel.StreamWF MergeModel.helloStream := by
    refine ⟨?_, ?_, ?_⟩
    · intro i h
      match i, h with
      | 0, _ => rfl
      | 1, _ => rfl
    · decide
    · decide
  exact ⟨hwf,
    (claim_C1_two_replica_convergence MergeModel.helloStream hwf 1 2).1, by decide⟩

end ClaimTheoremC1
